import Mathlib

/-!
# Rule-engine code generator (`libsolidity/codegen/RuleEngineCompiler.cpp`)

The compiler functions of `RuleEngineCompiler` are embedded as functions that
append assembly items to a `CompilerContext`, statement by statement as in the
C++.  The emitted item sequences are given meaning by a small-step machine
over an operand stack, a word-addressed persistent storage and an
execution-scoped memory.

Conventions of the model:

* words are natural numbers; `ADD` and `SUB` wrap modulo `2^256`;
* labels are the tag numbers themselves; a jump goes to the position of the
  tag in the fragment, and a jump to a tag that is not placed in the fragment
  leaves it (`Status.jumpedOut`);
* a fragment that runs past its last item has terminated normally
  (`Status.stopped`); `INVALID` is the fatal fault (`Status.invalid`);
* gas and the 1024-slot stack limit are not modelled;
* the storage constants, the hash, the assembler primitives of
  `CompilerContext`, the scratch allocator, the transient-list utility, the
  predicate evaluator and the traversal of the AST (`accept`) are collaborators
  of the compiler; they are parameters or are modelled from the specification,
  and their definitions say so;
* the code of a node is run on its own up to its return jump, and inside the
  code of a whole network through `run_embedded`, which carries a run of a
  fragment over to a program that holds the fragment at an offset.
-/

namespace Lity

/-- Number of 256-bit words. -/
def W : Nat := 2 ^ 256

/-- The EVM instructions the rule-engine compiler emits. -/
inductive Instruction where
  | DUP1 | DUP2 | DUP3 | DUP4
  | SWAP1 | SWAP2
  | POP
  | ADD | SUB | XOR
  | LT | GT | EQ | ISZERO
  | SLOAD | SSTORE
  | MLOAD
  | JUMP | JUMPI
  | INVALID
  deriving DecidableEq, Repr

/-- Modelled from the spec: the operations of the transient-list utility
(`DynArrUtils`, an external collaborator), kept abstract as single items of
the assembly stream: append, length, address of the i-th element, clear. -/
inductive DynArrOp where
  | pushItem
  | length
  | elementAddr
  | clearArray
  deriving DecidableEq, Repr

/-- One item of the assembly stream (`eth::AssemblyItem`).  Three kinds of
item stand for code emitted by collaborators of the rule-engine compiler:
`allocateMemory` (`CompilerUtils::allocateMemory`), the list operations, and
`expression p`, the code `ExpressionCompiler` emits for a field predicate,
which pushes `p fact` for the bound fact on top of the stack. -/
inductive AssemblyItem where
  | op (i : Instruction)
  | push (v : Nat)
  | pushTag (t : Nat)
  | tag (t : Nat)
  | allocateMemory
  | dynArr (o : DynArrOp)
  | expression (p : Nat → Nat)

/-- The part of `CompilerContext` the rule-engine compiler drives: the item
stream (kept most recent item first) and the tag counter. -/
structure CompilerContext where
  emitted : List AssemblyItem
  nextTag : Nat

namespace CompilerContext

/-- The item stream in emission order. -/
def items (m : CompilerContext) : List AssemblyItem := m.emitted.reverse

/-- Append items to the stream. -/
def append : CompilerContext → List AssemblyItem → CompilerContext
  | ⟨emitted, nextTag⟩, new => ⟨List.reverseAux new emitted, nextTag⟩

/-- Modelled from the spec: `m_context << Instruction::X`, the assembler
primitive of `CompilerContext` that emits one instruction. -/
def op (m : CompilerContext) (i : Instruction) : CompilerContext :=
  m.append [AssemblyItem.op i]

/-- Modelled from the spec: `m_context << u256`, the assembler primitive that
emits the push of a constant. -/
def push (m : CompilerContext) (v : Nat) : CompilerContext :=
  m.append [AssemblyItem.push v]

/-- Modelled from the spec: `m_context << tag`, the assembler primitive that
places a label. -/
def tag (m : CompilerContext) (t : Nat) : CompilerContext :=
  m.append [AssemblyItem.tag t]

/-- Modelled from the spec: `m_context.newTag()`, label creation. -/
def newTag : CompilerContext → Nat × CompilerContext
  | ⟨emitted, nextTag⟩ => (nextTag, ⟨emitted, nextTag + 1⟩)

/-- Modelled from the spec: `m_context.pushNewTag()`, a fresh label pushed as
a value (the return label of the call protocol). -/
def pushNewTag : CompilerContext → Nat × CompilerContext
  | ⟨emitted, nextTag⟩ => (nextTag, ⟨AssemblyItem.pushTag nextTag :: emitted, nextTag + 1⟩)

/-- Modelled from the spec: `m_context.appendJumpTo(tag)`, unconditional jump
emission. -/
def appendJumpTo (m : CompilerContext) (t : Nat) : CompilerContext :=
  m.append [AssemblyItem.pushTag t, AssemblyItem.op .JUMP]

/-- Modelled from the spec: `m_context.appendConditionalJumpTo(tag)`,
conditional jump emission. -/
def appendConditionalJumpTo (m : CompilerContext) (t : Nat) : CompilerContext :=
  m.append [AssemblyItem.pushTag t, AssemblyItem.op .JUMPI]

/-- Modelled from the spec: `m_context.appendJump(OutOfFunction)`, the
indirect-return transfer: pop a label off the stack and jump to it. -/
def appendJump (m : CompilerContext) : CompilerContext :=
  m.append [AssemblyItem.op .JUMP]

/-- Modelled from the spec: `CompilerUtils(m_context).allocateMemory()`, the
scratch allocator; stack: size -> memptr. -/
def allocateMemory (m : CompilerContext) : CompilerContext :=
  m.append [AssemblyItem.allocateMemory]

/-- Modelled from the spec: one operation of the transient-list utility
`DynArrUtils(m_context, 1)`. -/
def dynArr (m : CompilerContext) (o : DynArrOp) : CompilerContext :=
  m.append [AssemblyItem.dynArr o]

/-- Modelled from the spec: `ExpressionCompiler(context).compile(expr)`
between `addFact` and `removeFact`, the external predicate evaluator with the
subject fact bound at the top of the stack; stack: fact -> fact Expr. -/
def expression (m : CompilerContext) (p : Nat → Nat) : CompilerContext :=
  m.append [AssemblyItem.expression p]

end CompilerContext

/-- Modelled from the spec: the compile-time constants the compiler reads
through `getRuleEngineLockLocation()`, `getRuleEngineReevaluateLocation()` and
`getIdToListXorMask()`, and the hash `keccak256` used to derive storage
addresses; they are parameters of the embedding. -/
structure Consts where
  ruleEngineLockLocation : Nat
  ruleEngineReevaluateLocation : Nat
  idToListXorMask : Nat
  keccak256 : String → Nat

/-- Embedding of `RuleEngineCompiler::appendAssertNoRuleEngineLock`. -/
def appendAssertNoRuleEngineLock (k : Consts) (m : CompilerContext) : CompilerContext :=
  let m := (m.push k.ruleEngineLockLocation).op .SLOAD
  -- stack: isLocked
  let m := m.op .ISZERO
  -- stack: !isLocked
  let (ok, m) := m.newTag
  let m := m.appendConditionalJumpTo ok
  let m := m.op .INVALID -- already locked
  m.tag ok

/-- Embedding of `RuleEngineCompiler::appendAssertHaveRuleEngineLock`. -/
def appendAssertHaveRuleEngineLock (k : Consts) (m : CompilerContext) : CompilerContext :=
  let m := (m.push k.ruleEngineLockLocation).op .SLOAD
  -- stack: isLocked
  let (ok, m) := m.newTag
  let m := m.appendConditionalJumpTo ok
  let m := m.op .INVALID -- no lock
  m.tag ok

/-- Embedding of `RuleEngineCompiler::appendLockRuleEngineOrFail`. -/
def appendLockRuleEngineOrFail (k : Consts) (m : CompilerContext) : CompilerContext :=
  let m := (m.push k.ruleEngineLockLocation).op .SLOAD
  -- stack: isLocked
  let m := m.op .ISZERO
  -- stack: !isLocked
  let (setLock, m) := m.newTag
  let m := m.appendConditionalJumpTo setLock
  let m := m.op .INVALID -- already locked
  let m := m.tag setLock
  ((m.push 1).push k.ruleEngineLockLocation).op .SSTORE

/-- Embedding of `RuleEngineCompiler::appendUnlockRuleEngine`. -/
def appendUnlockRuleEngine (k : Consts) (m : CompilerContext) : CompilerContext :=
  ((m.push 0).push k.ruleEngineLockLocation).op .SSTORE

/-- Embedding of `RuleEngineCompiler::appendAccessIndexStorage`.
stack pre: array index; stack post: item. -/
def appendAccessIndexStorage (m : CompilerContext) : CompilerContext :=
  -- stack: array index
  let m := (m.push 1).op .ADD
  -- stack: array index+1
  (m.op .ADD).op .SLOAD
  -- stack: item

/-- Embedding of `RuleEngineCompiler::appendWriteIndexStorage`.
stack pre: listAddr index value; stack post: (empty). -/
def appendWriteIndexStorage (m : CompilerContext) : CompilerContext :=
  let m := ((m.op .DUP2).push 1).op .ADD
  -- stack: listAddr index value (index+1)
  let m := (m.op .DUP4).op .ADD
  -- stack: listAddr index value (listAddr+index+1)
  ((m.op .SSTORE).op .POP).op .POP

/-- Embedding of `RuleEngineCompiler::appendPushItemToStorageArray`.
stack pre: item; stack post: len'. -/
def appendPushItemToStorageArray (listAddr : Nat) (m : CompilerContext) : CompilerContext :=
  -- stack: itemAddr
  let m := ((m.push listAddr).push listAddr).op .SLOAD
  -- stack: itemAddr _listAddr listLen
  let m := (m.push 1).op .ADD
  -- stack: itemAddr _listAddr listLen'
  let m := (m.op .DUP1).op .SWAP2
  -- stack: itemAddr listLen' listLen' _listAddr
  let m := m.op .SSTORE -- store len
  -- stack: itemAddr listLen'
  let m := (m.op .SWAP1).op .DUP2
  -- stack: listLen' itemAddr listLen'
  ((m.push listAddr).op .ADD).op .SSTORE -- store item
  -- stack: listLen'

/-- Embedding of `RuleEngineCompiler::appendDeleteItemInStorageArray`.
stack pre: itemValue listAddr; stack post: (empty). -/
def appendDeleteItemInStorageArray (m : CompilerContext) : CompilerContext :=
  let (loopStart, m) := m.newTag
  let (loopEnd, m) := m.newTag
  let (elementNotFound, m) := m.newTag
  let m := m.push 0
  -- stack: itemValue listAddr i                            i=0
  let m := m.tag loopStart -- loop:
  let m := (m.op .DUP2).op .SLOAD
  -- stack: itemValue listAddr i len
  let m := (m.op .DUP2).op .LT
  -- stack: itemValue listAddr i (i < len)
  let m := m.op .ISZERO
  -- stack: itemValue listAddr i (i >= len)
  let m := m.appendConditionalJumpTo elementNotFound
  -- stack: itemValue listAddr i
  let m := (m.op .DUP2).op .DUP2
  -- stack: itemValue listAddr i listAddr i
  let m := appendAccessIndexStorage m
  -- stack: itemValue listAddr i fact
  let m := (m.op .DUP4).op .EQ
  -- stack: itemValue listAddr i (fact == itemValue)
  let m := m.appendConditionalJumpTo loopEnd
  -- stack: itemValue listAddr i
  let m := (m.push 1).op .ADD -- i++
  let m := m.appendJumpTo loopStart
  let m := m.tag elementNotFound -- elementNotFound:
  let m := m.op .INVALID
  let m := m.tag loopEnd -- loopEnd:
  -- stack: itemValue listAddr i
  let m := (m.op .DUP2).op .SLOAD
  -- stack: itemValue listAddr i len
  let m := ((m.push 1).op .SWAP1).op .SUB
  -- stack: itemValue listAddr i (len-1)
  let m := (m.op .DUP3).op .SWAP1
  -- stack: itemValue listAddr i listAddr (len-1)
  let m := appendAccessIndexStorage m
  -- stack: itemValue listAddr i fact
  let m := ((m.op .DUP3).op .DUP3).op .DUP3
  let m := appendWriteIndexStorage m
  -- stack: itemValue listAddr i fact
  let m := (m.op .POP).op .POP
  -- Decrease length
  -- stack: itemValue listAddr
  let m := (m.op .DUP1).op .SLOAD
  -- stack: itemValue listAddr len
  let m := ((m.push 1).op .SWAP1).op .SUB
  -- stack: itemValue listAddr (len-1)
  let m := (m.op .SWAP1).op .SSTORE
  -- stack: itemValue
  m.op .POP

/-- The local `listOfThisType` of `appendFactInsert`:
`keccak256(_factType->richIdentifier() + "_ptr-factlist")`. -/
def listOfThisType (k : Consts) (richIdentifier : String) : Nat :=
  k.keccak256 (richIdentifier ++ "_ptr-factlist")

/-- Embedding of `RuleEngineCompiler::appendFactInsert`.
stack pre: itemAddr; stack post: factID. -/
def appendFactInsert (k : Consts) (richIdentifier : String) (m : CompilerContext) :
    CompilerContext :=
  let m := appendAssertNoRuleEngineLock k m -- fail if we are inside fireAllRules
  let listOfThisType := listOfThisType k richIdentifier
  let m := m.op .DUP1
  -- stack: itemAddr itemAddr
  let m := (m.push k.idToListXorMask).op .XOR
  -- stack: itemAddr (itemAddr^idToListXorMask)
  let m := ((m.push listOfThisType).op .SWAP1).op .SSTORE
  -- stack: itemAddr
  let m := m.op .DUP1
  -- stack: itemAddr itemAddr
  let m := appendPushItemToStorageArray listOfThisType m
  -- stack: itemAddr listLen'
  m.op .POP

/-- Embedding of `RuleEngineCompiler::appendFactDelete`. -/
def appendFactDelete (k : Consts) (m : CompilerContext) : CompilerContext :=
  let m := appendAssertNoRuleEngineLock k m -- fail if we are inside fireAllRules
  -- stack: factID
  let m := m.op .DUP1
  -- stack: factID factID
  let m := ((m.push k.idToListXorMask).op .XOR).op .SLOAD
  -- stack: factID listOfThisType
  appendDeleteItemInStorageArray m

/-- Embedding of `RuleEngineCompiler::appendUpdate`. -/
def appendUpdate (k : Consts) (m : CompilerContext) : CompilerContext :=
  -- execute INVALID if the rule engine is not executing
  let m := appendAssertHaveRuleEngineLock k m
  -- we don't care which fact is updated, so we just pop it
  let m := m.op .POP
  -- set reevaluation mark to true
  ((m.push 1).push k.ruleEngineReevaluateLocation).op .SSTORE

/-- Embedding of `RuleEngineCompiler::appendFireAllRules`; `entryFireAllRules` is the
label `m_context.entryFireAllRules(_contract)` of the firing routine. -/
def appendFireAllRules (k : Consts) (entryFireAllRules : Nat) (m : CompilerContext) :
    CompilerContext :=
  let m := appendLockRuleEngineOrFail k m
  let (returnLabel, m) := m.pushNewTag
  let m := m.appendJumpTo entryFireAllRules
  let m := m.tag returnLabel
  -- adjustStackOffset(-1): compile-time bookkeeping only
  appendUnlockRuleEngine k m

/-! ## The rule network: AST, compiler state, nodes -/

/-- A field filter of a fact declaration: the AST node identity and the
meaning of its predicate expression on the bound fact. -/
structure FieldExpression where
  id : Nat
  expression : Nat → Nat

/-- A fact declaration of a rule: node identity, name, the rich identifier of
its type and its field filters. -/
structure FactDeclaration where
  id : Nat
  name : String
  typeRichIdentifier : String
  fieldExpressions : List FieldExpression

/-- A rule: name and fact declarations. -/
structure Rule where
  name : String
  facts : List FactDeclaration

/-- Member state of `RuleEngineCompiler`. -/
structure RuleEngineCompiler where
  m_context : CompilerContext
  m_nodeOrder : List Nat
  m_nodeOutListPtrAddr : List Nat
  m_currentRule : Option Rule
  m_currentFact : Option FactDeclaration
  m_currentFieldNo : Nat
  m_entryFact : List (Nat × Nat)
  m_entryField : List (Nat × Nat)

/-- Modelled from the spec: `DynArrUtils::forEachDo`, an external
collaborator: "for each element, run caller-supplied code", in list order.
Stack: listMemAddr -> nothing; the supplied code finds the element's memory
address on top of the stack and consumes it. -/
def forEachDo (m : CompilerContext) (f : CompilerContext → CompilerContext) :
    CompilerContext :=
  let (loopStart, m) := m.newTag
  let (loopEnd, m) := m.newTag
  let m := m.push 0
  -- stack: listMemAddr i
  let m := m.tag loopStart
  let m := (m.op .DUP2).dynArr .length
  -- stack: listMemAddr i len
  let m := ((m.op .DUP2).op .LT).op .ISZERO
  -- stack: listMemAddr i (i >= len)
  let m := m.appendConditionalJumpTo loopEnd
  let m := ((m.op .DUP2).op .DUP2).dynArr .elementAddr
  -- stack: listMemAddr i elmtMemAddr
  let m := f m
  -- stack: listMemAddr i
  let m := (m.push 1).op .ADD
  let m := m.appendJumpTo loopStart
  let m := m.tag loopEnd
  (m.op .POP).op .POP

/-- Embedding of `RuleEngineCompiler::visit(Rule const&)`. -/
def visitRule (c : RuleEngineCompiler) (rule : Rule) : RuleEngineCompiler :=
  { c with m_currentRule := some rule }

/-- Embedding of `RuleEngineCompiler::entryFact`. -/
def entryFact (c : RuleEngineCompiler) (fact : FactDeclaration) : Nat × RuleEngineCompiler :=
  match c.m_entryFact.lookup fact.id with
  | some t => (t, c)
  | none =>
      let (t, m) := c.m_context.newTag
      (t, { c with m_context := m, m_entryFact := (fact.id, t) :: c.m_entryFact })

/-- Embedding of `RuleEngineCompiler::entryField`. -/
def entryField (c : RuleEngineCompiler) (field : FieldExpression) : Nat × RuleEngineCompiler :=
  match c.m_entryField.lookup field.id with
  | some t => (t, c)
  | none =>
      let (t, m) := c.m_context.newTag
      (t, { c with m_context := m, m_entryField := (field.id, t) :: c.m_entryField })

/-- Embedding of `RuleEngineCompiler::visit(FactDeclaration const&)`: the source node.
The result is `none` where the C++ dereferences a null `m_currentRule`. -/
def visitFactDeclaration (k : Consts) (c : RuleEngineCompiler) (fact : FactDeclaration) :
    Option RuleEngineCompiler := do
  let (entry, c) := entryFact c fact
  let m := c.m_context.tag entry
  let nodeOrder := c.m_nodeOrder ++ [entry]
  -- storage list
  let inListAddr := k.keccak256 (fact.typeRichIdentifier ++ "-factlist")
  -- listPtr(to memList) in storage
  let rule ← c.m_currentRule
  let outListPtrAddr := k.keccak256 (rule.name ++ fact.name ++ "-factlist")
  let nodeOutListPtrAddr := c.m_nodeOutListPtrAddr ++ [outListPtrAddr]
  let m := m.push (32 * 3)
  let m := m.allocateMemory
  let m := (m.push outListPtrAddr).op .SSTORE
  let (loopStart, m) := m.newTag
  let (loopEnd, m) := m.newTag
  let m := ((m.push 0).push inListAddr).op .SLOAD
  -- stack: i len                                              i=0, len
  let m := m.tag loopStart -- loop:
  -- stack: i len
  let m := (m.op .DUP2).op .DUP2
  -- stack: i len i len
  let m := (m.op .GT).op .ISZERO --   if i>=len
  -- stack: i len !(len>i)
  let m := m.appendConditionalJumpTo loopEnd --     break
  -- stack: i len
  let m := (m.push inListAddr).op .DUP3
  -- stack: i len inList i
  let m := appendAccessIndexStorage m
  -- stack: i len fact
  let m := (m.push outListPtrAddr).op .SLOAD
  let m := m.op .SWAP1
  -- stack: listMemAddr fact
  let m := m.dynArr .pushItem
  -- stack: i len
  let m := ((m.op .DUP2).push 1).op .ADD --   i++
  -- stack: i len i'
  let m := (m.op .SWAP2).op .POP
  -- stack: i' len
  let m := m.appendJumpTo loopStart
  let m := m.tag loopEnd -- loopEnd:
  -- stack: i len
  let m := (m.op .POP).op .POP
  let m := m.appendJump
  some { c with m_context := m, m_nodeOrder := nodeOrder, m_currentFact := some fact,
                m_currentFieldNo := 0, m_nodeOutListPtrAddr := nodeOutListPtrAddr }

/-- Embedding of `RuleEngineCompiler::visit(FieldExpression const&)`: a filter node.
The result is `none` where the C++ dereferences a null `m_currentRule` or
`m_currentFact`, or indexes `m_nodeOutListPtrAddr` below its first entry. -/
def visitFieldExpression (k : Consts) (c : RuleEngineCompiler) (fieldExpr : FieldExpression) :
    Option RuleEngineCompiler := do
  let (entry, c) := entryField c fieldExpr
  let m := c.m_context.tag entry
  let nodeOrder := c.m_nodeOrder ++ [entry]
  let rule ← c.m_currentRule
  let fact ← c.m_currentFact
  let nodeName := rule.name ++ "-" ++ fact.name ++ "-" ++ toString c.m_currentFieldNo
  let nodeOutListPtrAddr := c.m_nodeOutListPtrAddr ++ [k.keccak256 (nodeName ++ "-factlist")]
  -- listPtr(to memList) in storage
  let inListPtrAddr ←
    if 2 ≤ nodeOutListPtrAddr.length then
      nodeOutListPtrAddr[nodeOutListPtrAddr.length - 2]?
    else none
  let outListPtrAddr ← nodeOutListPtrAddr[nodeOutListPtrAddr.length - 1]?
  let m := m.push (32 * 3)
  let m := m.allocateMemory
  let m := (m.push outListPtrAddr).op .SSTORE
  let m := (m.push inListPtrAddr).op .SLOAD
  let m := forEachDo m (fun context =>
    let (noAdd, context) := context.newTag
    -- stack: elmtMemAddr
    let context := context.op .MLOAD
    -- stack: fact
    let context := context.expression fieldExpr.expression
    -- stack: fact Expr
    let context := context.op .ISZERO
    let context := context.appendConditionalJumpTo noAdd
    -- stack: fact
    let context := (context.push outListPtrAddr).op .SLOAD
    -- stack: fact outListMemAddr
    let context := context.op .DUP2
    -- stack: fact outListMemAddr fact
    let context := context.dynArr .pushItem
    let context := context.tag noAdd
    -- stack: fact
    context.op .POP)
  let m := m.appendJump
  some { c with m_context := m, m_nodeOrder := nodeOrder,
                m_nodeOutListPtrAddr := nodeOutListPtrAddr }

/-- Embedding of `RuleEngineCompiler::endVisit(Rule const&)`. -/
def endVisitRule (c : RuleEngineCompiler) : RuleEngineCompiler :=
  { c with m_currentRule := none }

/-- Embedding of `RuleEngineCompiler::endVisit(FactDeclaration const&)`. -/
def endVisitFactDeclaration (c : RuleEngineCompiler) : RuleEngineCompiler :=
  { c with m_currentFact := none, m_currentFieldNo := 0 }

/-- Embedding of `RuleEngineCompiler::endVisit(FieldExpression const&)`. -/
def endVisitFieldExpression (c : RuleEngineCompiler) : RuleEngineCompiler :=
  { c with m_currentFieldNo := c.m_currentFieldNo + 1 }

/-! ## The machine that runs emitted code -/

/-- How a run of a code fragment stands: still running, ran past its last
item, hit `INVALID`, failed on the stack, or jumped to a label that is not
placed in the fragment. -/
inductive Status where
  | running
  | stopped
  | invalid
  | fault
  | jumpedOut (label : Nat)
  deriving DecidableEq, Repr

/-- Machine state.  `storage` is the persistent word-addressed store;
`memory`, `freeMemory` and `lists` are the execution-scoped memory, its
allocation pointer and the transient lists (header address to the addresses of
the element cells); `sstores` counts the `SSTORE`s executed so far. -/
structure Machine where
  pc : Nat
  stack : List Nat
  storage : Nat → Nat
  memory : Nat → Nat
  freeMemory : Nat
  lists : Nat → List Nat
  sstores : Nat
  status : Status

/-- Position of the label `t` in a code fragment. -/
def tagPos : List AssemblyItem → Nat → Option Nat
  | [], _ => none
  | AssemblyItem.tag u :: rest, t =>
      if u = t then some 0 else (tagPos rest t).map (· + 1)
  | _ :: rest, t => (tagPos rest t).map (· + 1)

/-- Storage or memory with one cell overwritten. -/
def setAt (f : Nat → α) (a : Nat) (v : α) : Nat → α :=
  fun x => if x = a then v else f x

namespace Machine

/-- Continue with the next item and a new stack. -/
def next (s : Machine) (stk : List Nat) : Machine :=
  { s with pc := s.pc + 1, stack := stk }

/-- Stack underflow and other machine faults. -/
def fail (s : Machine) : Machine :=
  { s with status := Status.fault }

/-- Transfer control to label `t`, leaving `stk` on the stack. -/
def jumpTo (prog : List AssemblyItem) (s : Machine) (t : Nat) (stk : List Nat) : Machine :=
  match tagPos prog t with
  | some p => { s with pc := p, stack := stk }
  | none => { s with stack := stk, status := Status.jumpedOut t }

end Machine

/-- Boolean results are the words 1 and 0. -/
def boolWord (b : Bool) : Nat := if b then 1 else 0

/-- Semantics of one EVM instruction; the top of the stack is the head of the
list.  Binary operations take their first operand from the top (`SUB` is top
minus second, `LT` is top below second); `SSTORE` takes the key from the top
and the value below it; `JUMPI` takes the label from the top and the
condition below it. -/
def execOp (prog : List AssemblyItem) (s : Machine) : Instruction → Machine
  | .DUP1 => match s.stack with
    | a :: r => s.next (a :: a :: r)
    | _ => s.fail
  | .DUP2 => match s.stack with
    | a :: b :: r => s.next (b :: a :: b :: r)
    | _ => s.fail
  | .DUP3 => match s.stack with
    | a :: b :: c :: r => s.next (c :: a :: b :: c :: r)
    | _ => s.fail
  | .DUP4 => match s.stack with
    | a :: b :: c :: d :: r => s.next (d :: a :: b :: c :: d :: r)
    | _ => s.fail
  | .SWAP1 => match s.stack with
    | a :: b :: r => s.next (b :: a :: r)
    | _ => s.fail
  | .SWAP2 => match s.stack with
    | a :: b :: c :: r => s.next (c :: b :: a :: r)
    | _ => s.fail
  | .POP => match s.stack with
    | _ :: r => s.next r
    | _ => s.fail
  | .ADD => match s.stack with
    | a :: b :: r => s.next ((a + b) % W :: r)
    | _ => s.fail
  | .SUB => match s.stack with
    | a :: b :: r => s.next ((a + (W - b % W)) % W :: r)
    | _ => s.fail
  | .XOR => match s.stack with
    | a :: b :: r => s.next ((a ^^^ b) :: r)
    | _ => s.fail
  | .LT => match s.stack with
    | a :: b :: r => s.next (boolWord (decide (a < b)) :: r)
    | _ => s.fail
  | .GT => match s.stack with
    | a :: b :: r => s.next (boolWord (decide (b < a)) :: r)
    | _ => s.fail
  | .EQ => match s.stack with
    | a :: b :: r => s.next (boolWord (decide (a = b)) :: r)
    | _ => s.fail
  | .ISZERO => match s.stack with
    | a :: r => s.next (boolWord (decide (a = 0)) :: r)
    | _ => s.fail
  | .SLOAD => match s.stack with
    | a :: r => s.next (s.storage a :: r)
    | _ => s.fail
  | .SSTORE => match s.stack with
    | a :: v :: r =>
        { s with pc := s.pc + 1, stack := r, storage := setAt s.storage a v,
                 sstores := s.sstores + 1 }
    | _ => s.fail
  | .MLOAD => match s.stack with
    | a :: r => s.next (s.memory a :: r)
    | _ => s.fail
  | .JUMP => match s.stack with
    | t :: r => s.jumpTo prog t r
    | _ => s.fail
  | .JUMPI => match s.stack with
    | t :: c :: r => if c = 0 then s.next r else s.jumpTo prog t r
    | _ => s.fail
  | .INVALID => { s with status := Status.invalid }

/-- Modelled from the spec: the transient-list utility (`DynArrUtils`), an
external collaborator.  A transient list is named by the memory address of
its header; appending puts the item in a fresh memory cell at the end of the
list; the stack effects are the ones the call sites document (`pushItem`:
listMemAddr item -> nothing). -/
def execDynArr (s : Machine) : DynArrOp → Machine
  | .pushItem => match s.stack with
    | item :: h :: r =>
        { s with pc := s.pc + 1, stack := r,
                 memory := setAt s.memory s.freeMemory item,
                 freeMemory := s.freeMemory + 32,
                 lists := setAt s.lists h (s.lists h ++ [s.freeMemory]) }
    | _ => s.fail
  | .length => match s.stack with
    | h :: r => s.next ((s.lists h).length :: r)
    | _ => s.fail
  | .elementAddr => match s.stack with
    | i :: h :: r =>
        match (s.lists h)[i]? with
        | some a => s.next (a :: r)
        | none => s.fail
    | _ => s.fail
  | .clearArray => match s.stack with
    | h :: r => { s with pc := s.pc + 1, stack := r, lists := setAt s.lists h [] }
    | _ => s.fail

/-- Modelled from the spec: the scratch allocator
(`CompilerUtils::allocateMemory`): it pops a size and pushes the address of a
fresh block of that size. -/
def execAllocateMemory (s : Machine) : Machine :=
  match s.stack with
  | size :: r =>
      { s with pc := s.pc + 1, stack := s.freeMemory :: r,
               freeMemory := s.freeMemory + size }
  | _ => s.fail

/-- Modelled from the spec: the code of the external expression evaluator for
a field predicate `p`: with the bound fact on top of the stack it pushes the
truthy or falsy word `p fact`. -/
def execExpression (s : Machine) (p : Nat → Nat) : Machine :=
  match s.stack with
  | fact :: r => s.next (p fact :: fact :: r)
  | _ => s.fail

/-- Semantics of one assembly item. -/
def execItem (prog : List AssemblyItem) (s : Machine) : AssemblyItem → Machine
  | .op i => execOp prog s i
  | .push v => s.next (v :: s.stack)
  | .pushTag t => s.next (t :: s.stack)
  | .tag _ => s.next s.stack
  | .allocateMemory => execAllocateMemory s
  | .dynArr o => execDynArr s o
  | .expression p => execExpression s p

/-- One step of the machine on the fragment `prog`. -/
def step (prog : List AssemblyItem) (s : Machine) : Machine :=
  match s.status with
  | Status.running =>
      match prog[s.pc]? with
      | some item => execItem prog s item
      | none => { s with status := Status.stopped }
  | _ => s

/-- Run `n` steps. -/
def run (prog : List AssemblyItem) : Nat → Machine → Machine
  | 0, s => s
  | n + 1, s => run prog n (step prog s)

/-- The machine at the start of a fragment. -/
def Machine.start (stack : List Nat) (storage : Nat → Nat) : Machine :=
  { pc := 0, stack := stack, storage := storage, memory := fun _ => 0,
    freeMemory := 128, lists := fun _ => [], sstores := 0, status := Status.running }

/-- A fresh compiler context whose tag counter stands at `t0`. -/
def CompilerContext.fresh (t0 : Nat) : CompilerContext :=
  { emitted := [], nextTag := t0 }

/-- Code emitted by `appendFactInsert` for a fact type. -/
def factInsertCode (k : Consts) (richIdentifier : String) (t0 : Nat) : List AssemblyItem :=
  (appendFactInsert k richIdentifier (CompilerContext.fresh t0)).items

/-- Code emitted by `appendFactDelete`. -/
def factDeleteCode (k : Consts) (t0 : Nat) : List AssemblyItem :=
  (appendFactDelete k (CompilerContext.fresh t0)).items

/-- Code emitted by `appendUpdate`. -/
def updateCode (k : Consts) (t0 : Nat) : List AssemblyItem :=
  (appendUpdate k (CompilerContext.fresh t0)).items

/-- Code emitted by `appendFireAllRules`. -/
def fireAllRulesCode (k : Consts) (entry : Nat) (t0 : Nat) : List AssemblyItem :=
  (appendFireAllRules k entry (CompilerContext.fresh t0)).items

/-- A running machine at position `pc` of a fragment, with no transient
lists, having executed `sstores` stores. -/
def stateAt (pc : Nat) (stack : List Nat) (storage : Nat → Nat) (sstores : Nat) : Machine :=
  { pc := pc, stack := stack, storage := storage, memory := fun _ => 0,
    freeMemory := 128, lists := fun _ => [], sstores := sstores, status := Status.running }

/-- The storage slot `appendAccessIndexStorage` and `appendWriteIndexStorage`
address for element `index` of the list at `array`: `array + (index + 1)` in
256-bit arithmetic. -/
def elemSlot (array index : Nat) : Nat := ((1 + index) % W + array) % W

/-- The reverse-index slot of an identifier. -/
def reverseIndexSlot (k : Consts) (id : Nat) : Nat := id ^^^ k.idToListXorMask

/-- The live identifiers of the persistent list at `array`, in storage order. -/
def liveList (storage : Nat → Nat) (array : Nat) : List Nat :=
  (List.range (storage array)).map (fun i => storage (elemSlot array i))

/-- The machine after the routine entered by a jump out of the fragment has
run, left `storage`, and returned by jumping to the label it found on top of
the stack. -/
def Machine.returnFrom (prog : List AssemblyItem) (s : Machine) (storage : Nat → Nat) :
    Machine :=
  match s.status, s.stack with
  | Status.jumpedOut _, ret :: stk =>
      Machine.jumpTo prog { s with status := Status.running, storage := storage } ret stk
  | _, _ => s

/-- Constants used in the worked examples. -/
def exampleConsts : Consts :=
  { ruleEngineLockLocation := 2000, ruleEngineReevaluateLocation := 2001,
    idToListXorMask := 4096, keccak256 := fun _ => 1000 }

/-! ## Code listings, loop functions and example data -/

open AssemblyItem (op push pushTag tag)

/-- Storage after a successful insert, under the no-alias and no-wrap
conditions: reverse index, length, and the new last element. -/
def insertedStorage (k : Consts) (ty : String) (st : Nat → Nat) (id : Nat) : Nat → Nat :=
  setAt (setAt (setAt st (reverseIndexSlot k id) (listOfThisType k ty))
    (listOfThisType k ty) (st (listOfThisType k ty) + 1))
    (listOfThisType k ty + 1 + st (listOfThisType k ty)) id

/-- Storage after a successful swap-remove of element `i` of the list at `A`. -/
def deletedStorage (st : Nat → Nat) (A i : Nat) : Nat → Nat :=
  setAt (setAt st (elemSlot A i) (st (elemSlot A (st A - 1)))) A (st A - 1)

/-- A storage with the list `[7, 8, 9]` at address 1000 and the reverse index
of 7 pointing to it. -/
def exampleStorage : Nat → Nat := fun x =>
  if x = 1000 then 3 else if x = 1001 then 7 else if x = 1002 then 8
  else if x = 1003 then 9 else if x = 4103 then 1000 else 0

/-- A storage in which slot 0 holds 1 and slot 1 holds 7, with no reverse
index entry for 7 and the lock clear. -/
def zeroListStorage : Nat → Nat := fun x => if x = 0 then 1 else if x = 1 then 7 else 0

/-- A storage in which slot 0 holds 2 and slots 1 and 2 hold 5 and 6, with no
reverse index entry for 7 and the lock clear. -/
def twoWordStorage : Nat → Nat := fun x =>
  if x = 0 then 2 else if x = 1 then 5 else if x = 2 then 6 else 0

/-- Run a fragment for `fuel` steps; the result if it stopped normally. -/
def runToStop (prog : List AssemblyItem) (fuel : Nat) (s : Machine) : Option Machine :=
  if (run prog fuel s).status = Status.stopped then some (run prog fuel s) else none

/-- One insert operation: the storage the code of `appendFactInsert` leaves
when run on `id`, if it stops normally. -/
def factInsertOp (k : Consts) (ty : String) (t0 : Nat) (st : Nat → Nat) (id : Nat) :
    Option (Nat → Nat) :=
  (runToStop (factInsertCode k ty t0) 29 (Machine.start [id] st)).map (fun s => s.storage)

/-- One delete operation: the storage the code of `appendFactDelete` leaves
when run on `id` with the given fuel, if it stops normally. -/
def factDeleteOp (k : Consts) (t0 : Nat) (fuel : Nat) (st : Nat → Nat) (id : Nat) :
    Option (Nat → Nat) :=
  (runToStop (factDeleteCode k t0) fuel (Machine.start [id] st)).map (fun s => s.storage)

/-- A sequence of insert operations on one fact type. -/
def insertAll (k : Consts) (ty : String) (t0 : Nat) : (Nat → Nat) → List Nat → Option (Nat → Nat)
  | st, [] => some st
  | st, id :: ids => (factInsertOp k ty t0 st id).bind (fun st1 => insertAll k ty t0 st1 ids)

/-- The items a compiler step appended: the stream of `c1` after the first
items, which were already in `c0`. -/
def emittedBy (c0 c1 : RuleEngineCompiler) : List AssemblyItem :=
  c1.m_context.items.drop c0.m_context.items.length

/-- The execution-scoped part of the machine state: memory, allocation
pointer and transient lists. -/
structure Heap where
  memory : Nat → Nat
  freeMemory : Nat
  lists : Nat → List Nat

/-- The heap of a machine state. -/
def Machine.heap (s : Machine) : Heap := ⟨s.memory, s.freeMemory, s.lists⟩

/-- The contents of the transient list whose header is at `h`: the words in
its element cells. -/
def Heap.contents (hp : Heap) (h : Nat) : List Nat := (hp.lists h).map hp.memory

/-- The contents of a transient list in a machine state. -/
def listContents (s : Machine) (h : Nat) : List Nat := s.heap.contents h

/-- Effect of `pushItem` on the heap: the item goes to a fresh cell, whose
address is appended to the list at `h`. -/
def Heap.pushItem (hp : Heap) (h item : Nat) : Heap :=
  ⟨setAt hp.memory hp.freeMemory item, hp.freeMemory + 32,
    setAt hp.lists h (hp.lists h ++ [hp.freeMemory])⟩

/-- The source node's loop as a function: the words are appended in order. -/
def sourceLoop (h : Nat) : List Nat → Heap → Heap
  | [], hp => hp
  | v :: vs, hp => sourceLoop h vs (hp.pushItem h v)

/-- The filter node's loop as a function: each input cell is read and its
word appended to the list at `h` when the predicate is non-zero on it. -/
def filterLoop (p : Nat → Nat) (h : Nat) : List Nat → Heap → Heap
  | [], hp => hp
  | c :: cs, hp =>
      if p (hp.memory c) = 0 then filterLoop p h cs hp
      else filterLoop p h cs (hp.pushItem h (hp.memory c))

/-- The code of a source node with entry label `t`, reading the persistent
list at `inListAddr` and storing its list pointer at `outListPtrAddr`. -/
def sourceNodeItems (inListAddr outListPtrAddr t : Nat) : List AssemblyItem :=
  [tag t, push (32 * 3), AssemblyItem.allocateMemory, push outListPtrAddr, op .SSTORE,
   push 0, push inListAddr, op .SLOAD,
   tag (t + 1),
   op .DUP2, op .DUP2, op .GT, op .ISZERO, pushTag (t + 2), op .JUMPI,
   push inListAddr, op .DUP3, push 1, op .ADD, op .ADD, op .SLOAD,
   push outListPtrAddr, op .SLOAD, op .SWAP1, AssemblyItem.dynArr .pushItem,
   op .DUP2, push 1, op .ADD, op .SWAP2, op .POP,
   pushTag (t + 1), op .JUMP,
   tag (t + 2),
   op .POP, op .POP, op .JUMP]

/-- The code of a filter node with entry label `t`, reading the list whose
pointer is stored at `inListPtrAddr` and storing its own list pointer at
`outListPtrAddr`. -/
def filterNodeItems (inListPtrAddr outListPtrAddr : Nat) (p : Nat → Nat) (t : Nat) :
    List AssemblyItem :=
  [tag t, push (32 * 3), AssemblyItem.allocateMemory, push outListPtrAddr, op .SSTORE,
   push inListPtrAddr, op .SLOAD,
   push 0,
   tag (t + 1),
   op .DUP2, AssemblyItem.dynArr .length, op .DUP2, op .LT, op .ISZERO,
   pushTag (t + 2), op .JUMPI,
   op .DUP2, op .DUP2, AssemblyItem.dynArr .elementAddr,
   op .MLOAD, AssemblyItem.expression p, op .ISZERO, pushTag (t + 3), op .JUMPI,
   push outListPtrAddr, op .SLOAD, op .DUP2, AssemblyItem.dynArr .pushItem,
   tag (t + 3), op .POP,
   push 1, op .ADD, pushTag (t + 1), op .JUMP,
   tag (t + 2),
   op .POP, op .POP, op .JUMP]

/-- A compiler with nothing emitted and the tag counter at `t0`. -/
def RuleEngineCompiler.fresh (t0 : Nat) : RuleEngineCompiler :=
  { m_context := CompilerContext.fresh t0, m_nodeOrder := [], m_nodeOutListPtrAddr := [],
    m_currentRule := none, m_currentFact := none, m_currentFieldNo := 0,
    m_entryFact := [], m_entryField := [] }

/-- Constants with a toy hash that tells the example keys apart. -/
def nodeConsts : Consts :=
  { ruleEngineLockLocation := 2000, ruleEngineReevaluateLocation := 2001,
    idToListXorMask := 4096, keccak256 := fun s => 3000 + s.length }

/-- The filter `amount > 100` of the example, true only for fact 8. -/
def exampleField : FieldExpression :=
  { id := 2, expression := fun v => if v = 8 then 1 else 0 }

/-- The fact declaration `Order o` of the example rule. -/
def exampleFact : FactDeclaration :=
  { id := 1, name := "o", typeRichIdentifier := "Order", fieldExpressions := [exampleField] }

/-- The example rule `R`. -/
def exampleRule : Rule := { name := "R", facts := [exampleFact] }

/-- Storage with the persistent list `[7, 8]` at address 3014. -/
def sourceStorage : Nat → Nat := fun x =>
  if x = 3014 then 2 else if x = 3015 then 7 else if x = 3016 then 8 else 0

/-- A machine entering a filter node with return label 50: the input list
`[7, 8]` has its header at 200 and its pointer stored at slot 3011. -/
def filterStart : Machine :=
  { pc := 0, stack := [50], storage := fun x => if x = 3011 then 200 else 0,
    memory := fun a => if a = 300 then 7 else if a = 332 then 8 else 0,
    freeMemory := 400, lists := fun h => if h = 200 then [300, 332] else [],
    sstores := 0, status := Status.running }

/-- The compiler state in which the first filter of the example is visited. -/
def filterCompiler : RuleEngineCompiler :=
  { m_context := CompilerContext.fresh 10, m_nodeOrder := [4], m_nodeOutListPtrAddr := [3011],
    m_currentRule := some exampleRule, m_currentFact := some exampleFact, m_currentFieldNo := 0,
    m_entryFact := [(1, 4)], m_entryField := [] }

/-! ### Two rules whose source nodes get one key -/

/-- The fact declaration `c` of the rule `ab`. -/
def factC : FactDeclaration :=
  { id := 1, name := "c", typeRichIdentifier := "Order", fieldExpressions := [] }

/-- A rule named `ab` with the one fact declaration `c`. -/
def ruleAB : Rule := { name := "ab", facts := [factC] }

/-- The fact declaration `bc` of the rule `a`. -/
def factBC : FactDeclaration :=
  { id := 2, name := "bc", typeRichIdentifier := "Order", fieldExpressions := [] }

/-- A rule named `a` with the one fact declaration `bc`. -/
def ruleA : Rule := { name := "a", facts := [factBC] }

/-! ### The clean-up pass -/

/-- Embedding of `RuleEngineCompiler::appendCleanUpNodes`. -/
def appendCleanUpNodes (c : RuleEngineCompiler) : RuleEngineCompiler :=
  let m := c.m_nodeOutListPtrAddr.foldl
    (fun m ptr => ((m.push ptr).op .SLOAD).dynArr .clearArray) c.m_context
  { c with m_context := m }

/-- The code of the clean-up pass for the recorded pointer slots. -/
def cleanUpItems : List Nat → List AssemblyItem
  | [] => []
  | ptr :: ptrs =>
      push ptr :: op .SLOAD :: AssemblyItem.dynArr .clearArray :: cleanUpItems ptrs

/-- The transient lists after the clean-up pass: the list named by each
recorded pointer slot is emptied, in the recorded order. -/
def clearAll (st : Nat → Nat) : List Nat → (Nat → List Nat) → (Nat → List Nat)
  | [], ls => ls
  | ptr :: ptrs, ls => clearAll st ptrs (setAt ls (st ptr) [])

/-- A compiler that has recorded the pointer slots 3011 and 3015. -/
def cleanUpCompiler : RuleEngineCompiler :=
  { RuleEngineCompiler.fresh 0 with m_nodeOrder := [0, 3], m_nodeOutListPtrAddr := [3011, 3015] }

/-- A machine after a firing: the list `[7, 8]` with header 200 named by slot
3011, the list `[8]` with header 500 named by slot 3015, and the persistent
list `[7, 8]` at 3014. -/
def cleanUpStart : Machine :=
  { pc := 0, stack := [], storage := fun x =>
      if x = 3011 then 200 else if x = 3015 then 500 else sourceStorage x,
    memory := fun a => if a = 300 then 7 else if a = 332 then 8 else if a = 600 then 8 else 0,
    freeMemory := 700,
    lists := fun h => if h = 200 then [300, 332] else if h = 500 then [600] else [],
    sstores := 2, status := Status.running }

/-! ### Sequences of inserts and deletes -/

/-- An operation of the fact store: the insert of an identifier as a fact of a
type, or the delete of an identifier. -/
inductive StoreOp where
  | insert (ty : String) (id : Nat)
  | delete (id : Nat)

/-- The identifier an operation is about. -/
def StoreOp.id : StoreOp → Nat
  | .insert _ id => id
  | .delete id => id

/-- One operation: the storage it leaves if its code stops normally.  The fuel
of a delete covers the whole scan of the list the reverse index names. -/
def applyOp (k : Consts) (t0 t1 : Nat) (st : Nat → Nat) : StoreOp → Option (Nat → Nat)
  | .insert ty id => factInsertOp k ty t0 st id
  | .delete id => factDeleteOp k t1 (22 * st (st (reverseIndexSlot k id)) + 63) st id

/-- A sequence of operations, each run on the storage the one before left;
`none` as soon as one of them aborts. -/
def applyOps (k : Consts) (t0 t1 : Nat) : (Nat → Nat) → List StoreOp → Option (Nat → Nat)
  | st, [] => some st
  | st, o :: os => (applyOp k t0 t1 st o).bind (fun st1 => applyOps k t0 t1 st1 os)

/-- The list addresses of the fact types a sequence inserts into. -/
def listAddrs (k : Consts) : List StoreOp → List Nat
  | [] => []
  | .insert ty _ :: os => listOfThisType k ty :: listAddrs k os
  | .delete _ :: os => listAddrs k os

/-- What one operation does to the reverse-index word of `x`: an insert of `x`
stores the list address of its type, every other operation leaves the word. -/
def entryStep (k : Consts) (x : Nat) (a : Nat) : StoreOp → Nat
  | .insert ty id => if id = x then listOfThisType k ty else a
  | .delete _ => a

/-- The list address of the most recent insert of `x` in a sequence, zero if
the sequence never inserts `x`. -/
def lastInsertList (k : Consts) (x : Nat) (ops : List StoreOp) : Nat :=
  ops.foldl (entryStep k x) 0

/-- List addresses that are usable for `N` operations: none is 0, none wraps
around within `N` slots, the lock slot is not among the first `N + 1` slots of
any of them, and the first `N + 1` slots of two different lists are disjoint. -/
def GoodAddrs (k : Consts) (As : List Nat) (N : Nat) : Prop :=
  (∀ A, A ∈ As → A ≠ 0 ∧ A + N < W ∧ ∀ j, j ≤ N → k.ruleEngineLockLocation ≠ A + j) ∧
  ∀ A B, A ∈ As → B ∈ As → A ≠ B → ∀ i j, i ≤ N → j ≤ N → A + i ≠ B + j

/-- An identifier whose reverse-index slot is not slot 0, not the lock slot
and not one of the first `N + 1` slots of any of the lists. -/
def GoodId (k : Consts) (As : List Nat) (N x : Nat) : Prop :=
  reverseIndexSlot k x ≠ 0 ∧ reverseIndexSlot k x ≠ k.ruleEngineLockLocation ∧
  ∀ A, A ∈ As → ∀ j, j ≤ N → reverseIndexSlot k x ≠ A + j

/-- What holds of the storage after the operations `pre` on good identifiers
and lists. -/
structure StoreInv (k : Consts) (As : List Nat) (N : Nat) (pre : List StoreOp)
    (st : Nat → Nat) : Prop where
  lock : st k.ruleEngineLockLocation = 0
  zero : st 0 = 0
  len : ∀ A, A ∈ As → st A ≤ pre.length
  rev : ∀ x, GoodId k As N x → st (reverseIndexSlot k x) = lastInsertList k x pre
  range : ∀ x, lastInsertList k x pre = 0 ∨ lastInsertList k x pre ∈ As
  elems : ∀ A, A ∈ As → ∀ j, j < st A →
    ∃ ty, StoreOp.insert ty (st (A + 1 + j)) ∈ pre ∧ listOfThisType k ty = A
  seen : ∀ o, o ∈ pre → lastInsertList k o.id pre ≠ 0

/-- Constants with a toy hash that sets the lists of two fact types 1000 slots
apart. -/
def storeConsts : Consts :=
  { ruleEngineLockLocation := 2000, ruleEngineReevaluateLocation := 2001,
    idToListXorMask := 4096, keccak256 := fun s => 1000 * s.length }

/-- Five operations on two fact types; identifier 5 is inserted under both. -/
def exampleOps : List StoreOp :=
  [StoreOp.insert "Order" 5, StoreOp.insert "Item" 5, StoreOp.insert "Order" 7,
   StoreOp.delete 5, StoreOp.insert "Item" 6]

/-! ### The delete scan on its own -/

/-- Code emitted by `appendDeleteItemInStorageArray` alone. -/
def deleteItemCode (t0 : Nat) : List AssemblyItem :=
  (appendDeleteItemInStorageArray (CompilerContext.fresh t0)).items

/-- The stack at position `pc` of the scan loop of `deleteItemCode`, entered
with `listAddr = A` on top of `itemValue = item`, when the index is `i` and the
storage is `st`. -/
def scanStack (t0 A item : Nat) (st : Nat → Nat) (rest : List Nat) (i : Nat) : Nat → List Nat
  | 0 => A :: item :: rest
  | 1 => i :: A :: item :: rest
  | 2 => i :: A :: item :: rest
  | 3 => A :: i :: A :: item :: rest
  | 4 => st A :: i :: A :: item :: rest
  | 5 => i :: st A :: i :: A :: item :: rest
  | 6 => boolWord (decide (i < st A)) :: i :: A :: item :: rest
  | 7 => boolWord (decide (boolWord (decide (i < st A)) = 0)) :: i :: A :: item :: rest
  | 8 => (t0 + 2) :: boolWord (decide (boolWord (decide (i < st A)) = 0)) :: i :: A :: item :: rest
  | 9 => i :: A :: item :: rest
  | 10 => A :: i :: A :: item :: rest
  | 11 => i :: A :: i :: A :: item :: rest
  | 12 => 1 :: i :: A :: i :: A :: item :: rest
  | 13 => (1 + i) % W :: A :: i :: A :: item :: rest
  | 14 => elemSlot A i :: i :: A :: item :: rest
  | 15 => st (elemSlot A i) :: i :: A :: item :: rest
  | 16 => item :: st (elemSlot A i) :: i :: A :: item :: rest
  | 17 => boolWord (decide (item = st (elemSlot A i))) :: i :: A :: item :: rest
  | 18 => (t0 + 1) :: boolWord (decide (item = st (elemSlot A i))) :: i :: A :: item :: rest
  | 19 => i :: A :: item :: rest
  | 20 => 1 :: i :: A :: item :: rest
  | 21 => i :: A :: item :: rest
  | 22 => t0 :: i :: A :: item :: rest
  | 25 => i :: A :: item :: rest
  | _ => []

/-- What holds of every state of a run of `deleteItemCode` that is in the scan
loop (positions 0 to 22) or at the `loopEnd` label (position 25): nothing has
been stored, the stack has the shape of its position for some index `i`, and
from the length test on (positions 9 to 20, and at `loopEnd`) `i` is below the
stored length. -/
def DeleteScanInv (t0 A item : Nat) (st : Nat → Nat) (rest : List Nat) (s : Machine) : Prop :=
  s.status = Status.running → (s.pc ≤ 22 ∨ s.pc = 25) →
    s.storage = st ∧
    ∃ i, s.stack = scanStack t0 A item st rest i s.pc ∧
      ((9 ≤ s.pc ∧ s.pc ≤ 20) ∨ s.pc = 25 → i < st A)

/-- A storage with the list `[9]` at address 1000. -/
def oneItemStorage : Nat → Nat := fun x => if x = 1000 then 1 else if x = 1001 then 9 else 0

/-! ### Indirect jumps -/

/-- Positions, counted from `pos`, of the indirect jumps of a fragment: the
`JUMP` items that do not follow the push of a label.  `appendJumpTo` emits the
push of its label and then `JUMP`; `appendJump(OutOfFunction)` emits `JUMP`
alone, for the label found on the stack. -/
def outOfFunctionJumpsFrom : Nat → Bool → List AssemblyItem → List Nat
  | _, _, [] => []
  | pos, afterPushTag, AssemblyItem.op .JUMP :: rest =>
      if afterPushTag then outOfFunctionJumpsFrom (pos + 1) false rest
      else pos :: outOfFunctionJumpsFrom (pos + 1) false rest
  | pos, _, AssemblyItem.pushTag _ :: rest => outOfFunctionJumpsFrom (pos + 1) true rest
  | pos, _, _ :: rest => outOfFunctionJumpsFrom (pos + 1) false rest

/-- Positions of the indirect jumps of a fragment. -/
def outOfFunctionJumps (prog : List AssemblyItem) : List Nat :=
  outOfFunctionJumpsFrom 0 false prog

/-! ### The traversal of a rule and the network compiler -/

/-- Modelled from the spec: `FieldExpression::accept`, the AST traversal
(`AST_accept.h`, not part of the compiler): the visitor's `visit`, which for
this visitor returns false so that no child is entered, then its `endVisit`. -/
def acceptFieldExpression (k : Consts) (c : RuleEngineCompiler) (field : FieldExpression) :
    Option RuleEngineCompiler :=
  (visitFieldExpression k c field).map endVisitFieldExpression

/-- The traversal of the field expressions of a fact declaration, in
declaration order. -/
def acceptFieldExpressions (k : Consts) :
    RuleEngineCompiler → List FieldExpression → Option RuleEngineCompiler
  | c, [] => some c
  | c, field :: fields =>
      (acceptFieldExpression k c field).bind (fun c1 => acceptFieldExpressions k c1 fields)

/-- Modelled from the spec: `FactDeclaration::accept`: the visitor's `visit`
(it returns true), the field expressions in declaration order, then
`endVisit`. -/
def acceptFactDeclaration (k : Consts) (c : RuleEngineCompiler) (fact : FactDeclaration) :
    Option RuleEngineCompiler :=
  ((visitFactDeclaration k c fact).bind
    (fun c1 => acceptFieldExpressions k c1 fact.fieldExpressions)).map endVisitFactDeclaration

/-- The traversal of the fact declarations of a rule, in declaration order. -/
def acceptFactDeclarations (k : Consts) :
    RuleEngineCompiler → List FactDeclaration → Option RuleEngineCompiler
  | c, [] => some c
  | c, fact :: facts =>
      (acceptFactDeclaration k c fact).bind (fun c1 => acceptFactDeclarations k c1 facts)

/-- Modelled from the spec: `Rule::accept`: the visitor's `visit` (it returns
true), the fact declarations in declaration order, then `endVisit`. -/
def acceptRule (k : Consts) (c : RuleEngineCompiler) (rule : Rule) : Option RuleEngineCompiler :=
  (acceptFactDeclarations k (visitRule c rule) rule.facts).map endVisitRule

/-- Embedding of `RuleEngineCompiler::compileNetwork`: the returned label and
the compiler state.  `adjustStackOffset` is compile-time bookkeeping and emits
nothing. -/
def compileNetwork (k : Consts) (c : RuleEngineCompiler) (rule : Rule) :
    Option (Nat × RuleEngineCompiler) :=
  let (ruleTag, m) := c.m_context.newTag
  let m := m.appendJumpTo ruleTag
  -- nodes
  (acceptRule k { c with m_context := m } rule).map (fun c =>
    -- controll flow of nodes
    let m := c.m_context.tag ruleTag
    let m := c.m_nodeOrder.foldl (fun m nodeLabel =>
      let (returnLabel, m) := m.pushNewTag
      let m := m.appendJumpTo nodeLabel
      m.tag returnLabel) m
    (ruleTag, { c with m_context := m }))

/-! ### The code of a network, part by part -/

/-- The driver's invocations of the nodes with entry labels `es`, the return
labels being `T`, `T + 1`, ...: push the return label, jump to the node, place
the return label. -/
def driverCalls : Nat → List Nat → List AssemblyItem
  | _, [] => []
  | T, e :: es => pushTag T :: pushTag e :: op .JUMP :: tag T :: driverCalls (T + 1) es

/-- The pointer slot of the filter node for field number `fno` of a fact
declaration of a rule. -/
def filterOutPtr (k : Consts) (rule : Rule) (fact : FactDeclaration) (fno : Nat) : Nat :=
  k.keccak256 (rule.name ++ "-" ++ fact.name ++ "-" ++ toString fno ++ "-factlist")

/-- The pointer slot of the source node of a fact declaration of a rule. -/
def sourceOutPtr (k : Consts) (rule : Rule) (fact : FactDeclaration) : Nat :=
  k.keccak256 (rule.name ++ fact.name ++ "-factlist")

/-- The code of the filter nodes of the fields `fields`, numbered from `fno`,
with labels from `t`, the first reading the list named by slot `inPtr`, each
later one the list of the one before. -/
def filterNodes (k : Consts) (rule : Rule) (fact : FactDeclaration) :
    Nat → Nat → Nat → List FieldExpression → List AssemblyItem
  | _, _, _, [] => []
  | fno, t, inPtr, field :: fields =>
      filterNodeItems inPtr (filterOutPtr k rule fact fno) field.expression t ++
        filterNodes k rule fact (fno + 1) (t + 4) (filterOutPtr k rule fact fno) fields

/-- The entry labels of the filter nodes of `fields`, with labels from `t`. -/
def filterEntries : Nat → List FieldExpression → List Nat
  | _, [] => []
  | t, _ :: fields => t :: filterEntries (t + 4) fields

/-- The pointer slots of the filter nodes of `fields`, numbered from `fno`. -/
def filterOutPtrs (k : Consts) (rule : Rule) (fact : FactDeclaration) :
    Nat → List FieldExpression → List Nat
  | _, [] => []
  | fno, _ :: fields => filterOutPtr k rule fact fno :: filterOutPtrs k rule fact (fno + 1) fields

/-- The map `m_entryField` after the filter nodes of `fields` were compiled
with labels from `t`. -/
def fieldEntryMap : Nat → List FieldExpression → List (Nat × Nat) → List (Nat × Nat)
  | _, [], efi => efi
  | t, field :: fields, efi => fieldEntryMap (t + 4) fields ((field.id, t) :: efi)

/-- The code `compileNetwork` emits for a rule with the one fact declaration
`fact`, with labels from `t`, by a compiler that has recorded the node entry
labels `order` before: the jump to the driver, the source node, the filter
nodes, and the driver. -/
def networkItems (k : Consts) (rule : Rule) (fact : FactDeclaration) (t : Nat)
    (order : List Nat) : List AssemblyItem :=
  pushTag t :: op .JUMP ::
    (sourceNodeItems (k.keccak256 (fact.typeRichIdentifier ++ "-factlist"))
        (sourceOutPtr k rule fact) (t + 1) ++
      (filterNodes k rule fact 0 (t + 4) (sourceOutPtr k rule fact) fact.fieldExpressions ++
        (tag t :: driverCalls (t + 4 + 4 * fact.fieldExpressions.length)
          (order ++ (t + 1) :: filterEntries (t + 4) fact.fieldExpressions))))

/-! ### Fragments of a program and heaps -/

/-- The labels placed in a fragment, in order. -/
def tagsOf : List AssemblyItem → List Nat
  | [] => []
  | AssemblyItem.tag u :: rest => u :: tagsOf rest
  | _ :: rest => tagsOf rest

/-- The fact declaration `Order o` of the rule of the pipeline example, with
the filter that is true only for fact 8. -/
def pipelineFact : FactDeclaration :=
  { id := 1, name := "o", typeRichIdentifier := "struct Order",
    fieldExpressions := [exampleField] }

/-- Storage with the persistent list `[7, 8, 9]` at address 3021, the address
of the type of `pipelineFact` under the hash of `nodeConsts`. -/
def pipelineStorage : Nat → Nat := fun x =>
  if x = 3021 then 3 else if x = 3022 then 7 else if x = 3023 then 8
  else if x = 3024 then 9 else 0

/-! ## Theorems -/

/-! ### Words and slots -/

theorem W_pos : 0 < W := by unfold W; positivity

theorem sub_one_word (n : Nat) (h1 : 0 < n) (h2 : n < W) :
    (n + (W - 1 % W)) % W = n - 1 := by
  unfold W at *
  omega

theorem elemSlot_ne_base (A j : Nat) (h : j + 1 < W) : elemSlot A j ≠ A := by
  unfold elemSlot W at *
  omega

theorem elemSlot_inj (A i j : Nat) (hi : i + 1 < W) (hj : j + 1 < W)
    (h : elemSlot A i = elemSlot A j) : i = j := by
  unfold elemSlot W at *
  omega

theorem elemSlot_eq (A i : Nat) (h : A + i + 1 < W) : elemSlot A i = A + 1 + i := by
  unfold elemSlot W at *
  omega

/-! ### Running -/

theorem step_of_not_running (prog : List AssemblyItem) (s : Machine)
    (h : s.status ≠ Status.running) : step prog s = s := by
  unfold step
  cases hs : s.status <;> simp_all

theorem run_of_not_running (prog : List AssemblyItem) (n : Nat) (s : Machine)
    (h : s.status ≠ Status.running) : run prog n s = s := by
  induction n with
  | zero => rfl
  | succ n ih => rw [run, step_of_not_running prog s h, ih]

theorem run_add (prog : List AssemblyItem) (a b : Nat) (s : Machine) :
    run prog (a + b) s = run prog b (run prog a s) := by
  induction a generalizing s with
  | zero => simp [run]
  | succ a ih => rw [Nat.succ_add, run, run, ih]

theorem run_of_le (prog : List AssemblyItem) (a n : Nat) (s : Machine) (hle : a ≤ n)
    (h : (run prog a s).status ≠ Status.running) : run prog n s = run prog a s := by
  obtain ⟨b, rfl⟩ := Nat.exists_eq_add_of_le hle
  rw [run_add, run_of_not_running prog b _ h]

theorem status_of_halted (prog : List AssemblyItem) (a n : Nat) (s : Machine)
    (h : (run prog a s).status ≠ Status.running) :
    (run prog n s).status = (run prog a s).status ∨
      (run prog n s).status = Status.running := by
  by_cases hn : (run prog n s).status = Status.running
  · exact Or.inr hn
  · left
    rcases Nat.le_total a n with hle | hle
    · rw [run_of_le prog a n s hle h]
    · rw [run_of_le prog n a s hle hn]

/-! ### The emitted code -/

theorem factInsertCode_eq (k : Consts) (ty : String) (t0 : Nat) :
    factInsertCode k ty t0 =
      [push k.ruleEngineLockLocation, op .SLOAD, op .ISZERO, pushTag t0, op .JUMPI,
       op .INVALID, tag t0,
       op .DUP1, push k.idToListXorMask, op .XOR,
       push (listOfThisType k ty), op .SWAP1, op .SSTORE,
       op .DUP1,
       push (listOfThisType k ty), push (listOfThisType k ty),
       op .SLOAD, push 1, op .ADD, op .DUP1, op .SWAP2, op .SSTORE,
       op .SWAP1, op .DUP2, push (listOfThisType k ty), op .ADD,
       op .SSTORE, op .POP] := rfl

theorem factDeleteCode_eq (k : Consts) (t0 : Nat) :
    factDeleteCode k t0 =
      [push k.ruleEngineLockLocation, op .SLOAD, op .ISZERO, pushTag t0, op .JUMPI,
       op .INVALID, tag t0,
       op .DUP1, push k.idToListXorMask, op .XOR, op .SLOAD,
       push 0, tag (t0 + 1),
       op .DUP2, op .SLOAD, op .DUP2, op .LT, op .ISZERO,
       pushTag (t0 + 3), op .JUMPI,
       op .DUP2, op .DUP2, push 1, op .ADD, op .ADD, op .SLOAD,
       op .DUP4, op .EQ, pushTag (t0 + 2), op .JUMPI,
       push 1, op .ADD, pushTag (t0 + 1), op .JUMP,
       tag (t0 + 3), op .INVALID,
       tag (t0 + 2),
       op .DUP2, op .SLOAD, push 1, op .SWAP1, op .SUB, op .DUP3, op .SWAP1,
       push 1, op .ADD, op .ADD, op .SLOAD,
       op .DUP3, op .DUP3, op .DUP3,
       op .DUP2, push 1, op .ADD, op .DUP4, op .ADD, op .SSTORE, op .POP, op .POP,
       op .POP, op .POP,
       op .DUP1, op .SLOAD, push 1, op .SWAP1, op .SUB, op .SWAP1, op .SSTORE,
       op .POP] := rfl

theorem updateCode_eq (k : Consts) (t0 : Nat) :
    updateCode k t0 =
      [push k.ruleEngineLockLocation, op .SLOAD, pushTag t0, op .JUMPI,
       op .INVALID, tag t0,
       op .POP, push 1, push k.ruleEngineReevaluateLocation, op .SSTORE] := rfl

theorem fireAllRulesCode_eq (k : Consts) (entry t0 : Nat) :
    fireAllRulesCode k entry t0 =
      [push k.ruleEngineLockLocation, op .SLOAD, op .ISZERO, pushTag t0, op .JUMPI,
       op .INVALID, tag t0,
       push 1, push k.ruleEngineLockLocation, op .SSTORE,
       pushTag (t0 + 1), pushTag entry, op .JUMP,
       tag (t0 + 1),
       push 0, push k.ruleEngineLockLocation, op .SSTORE] := rfl

/-! ### The lock checks -/

theorem factInsert_locked (k : Consts) (ty : String) (t0 : Nat) (st : Nat → Nat)
    (stk : List Nat) (hlock : st k.ruleEngineLockLocation ≠ 0) :
    run (factInsertCode k ty t0) 6 (Machine.start stk st) =
      { stateAt 5 stk st 0 with status := Status.invalid } := by
  rw [factInsertCode_eq]
  simp [run, step, execItem, execOp, Machine.start, stateAt, Machine.next, boolWord, hlock]

theorem factDelete_locked (k : Consts) (t0 : Nat) (st : Nat → Nat)
    (stk : List Nat) (hlock : st k.ruleEngineLockLocation ≠ 0) :
    run (factDeleteCode k t0) 6 (Machine.start stk st) =
      { stateAt 5 stk st 0 with status := Status.invalid } := by
  rw [factDeleteCode_eq]
  simp [run, step, execItem, execOp, Machine.start, stateAt, Machine.next, boolWord, hlock]

/-! ### Insert -/

theorem factInsert_run (k : Consts) (ty : String) (t0 : Nat) (st : Nat → Nat)
    (id : Nat) (rest : List Nat) (hlock : st k.ruleEngineLockLocation = 0) :
    run (factInsertCode k ty t0) 29 (Machine.start (id :: rest) st) =
      { stateAt 28 (id :: rest)
          (setAt (setAt (setAt st (k.idToListXorMask ^^^ id) (listOfThisType k ty))
            (listOfThisType k ty)
            ((1 + setAt st (k.idToListXorMask ^^^ id) (listOfThisType k ty)
              (listOfThisType k ty)) % W))
            ((listOfThisType k ty +
              (1 + setAt st (k.idToListXorMask ^^^ id) (listOfThisType k ty)
                (listOfThisType k ty)) % W) % W) id) 3 with
        status := Status.stopped } := by
  rw [factInsertCode_eq]
  simp [run, step, execItem, execOp, Machine.start, stateAt, Machine.next, boolWord, hlock,
    Machine.jumpTo, tagPos]

theorem factInsert_run_clean (k : Consts) (ty : String) (t0 : Nat) (st : Nat → Nat)
    (id : Nat) (rest : List Nat) (hlock : st k.ruleEngineLockLocation = 0)
    (hwrap : listOfThisType k ty + st (listOfThisType k ty) + 1 < W)
    (hrev : reverseIndexSlot k id ≠ listOfThisType k ty) :
    run (factInsertCode k ty t0) 29 (Machine.start (id :: rest) st) =
      { stateAt 28 (id :: rest) (insertedStorage k ty st id) 3 with
        status := Status.stopped } := by
  rw [factInsert_run k ty t0 st id rest hlock]
  have hx : k.idToListXorMask ^^^ id = reverseIndexSlot k id := by
    unfold reverseIndexSlot; exact Nat.xor_comm _ _
  have h0 : setAt st (reverseIndexSlot k id) (listOfThisType k ty) (listOfThisType k ty)
      = st (listOfThisType k ty) := by
    simp [setAt, Ne.symm hrev]
  have h1 : (1 + st (listOfThisType k ty)) % W = st (listOfThisType k ty) + 1 := by
    rw [Nat.mod_eq_of_lt (by omega)]; omega
  have h2 : (listOfThisType k ty + (st (listOfThisType k ty) + 1)) % W
      = listOfThisType k ty + 1 + st (listOfThisType k ty) := by
    rw [Nat.mod_eq_of_lt (by omega)]; omega
  rw [hx, h0, h1, h2]
  rfl

/-! ### Delete -/

theorem factDelete_enter (k : Consts) (t0 : Nat) (st : Nat → Nat) (id : Nat)
    (rest : List Nat) (hlock : st k.ruleEngineLockLocation = 0) :
    run (factDeleteCode k t0) 11 (Machine.start (id :: rest) st) =
      stateAt 12 (0 :: st (reverseIndexSlot k id) :: id :: rest) st 0 := by
  rw [factDeleteCode_eq]
  have hx : k.idToListXorMask ^^^ id = reverseIndexSlot k id := by
    unfold reverseIndexSlot; exact Nat.xor_comm _ _
  simp [run, step, execItem, execOp, Machine.start, stateAt, Machine.next, boolWord, hlock,
    Machine.jumpTo, tagPos, hx]

set_option maxRecDepth 100000 in
theorem factDelete_miss (k : Consts) (t0 : Nat) (st : Nat → Nat) (i A id c : Nat)
    (rest : List Nat) (hi : i < st A) (hW : st A < W) (hmiss : st (elemSlot A i) ≠ id) :
    run (factDeleteCode k t0) 22 (stateAt 12 (i :: A :: id :: rest) st c) =
      stateAt 12 ((i + 1) :: A :: id :: rest) st c := by
  rw [factDeleteCode_eq]
  have hslot : ((1 + i) % W + A) % W = elemSlot A i := rfl
  have hinc : (1 + i) % W = i + 1 := by
    rw [Nat.mod_eq_of_lt (by omega)]; omega
  have hne : ¬ id = st (elemSlot A i) := fun h => hmiss h.symm
  simp [run, step, execItem, execOp, stateAt, Machine.next, boolWord, hi, hslot, hne,
    Machine.jumpTo, tagPos]
  exact hinc

set_option maxRecDepth 100000 in
theorem factDelete_notFound (k : Consts) (t0 : Nat) (st : Nat → Nat) (i A id c : Nat)
    (rest : List Nat) (hi : st A ≤ i) :
    run (factDeleteCode k t0) 10 (stateAt 12 (i :: A :: id :: rest) st c) =
      { stateAt 35 (i :: A :: id :: rest) st c with status := Status.invalid } := by
  rw [factDeleteCode_eq]
  have hi2 : ¬ i < st A := by omega
  simp [run, step, execItem, execOp, stateAt, Machine.next, boolWord, hi2,
    Machine.jumpTo, tagPos]

set_option maxRecDepth 100000 in
theorem factDelete_found (k : Consts) (t0 : Nat) (st : Nat → Nat) (i A id c : Nat)
    (rest : List Nat) (hi : i < st A) (hhit : st (elemSlot A i) = id) :
    run (factDeleteCode k t0) 18 (stateAt 12 (i :: A :: id :: rest) st c) =
      stateAt 36 (i :: A :: id :: rest) st c := by
  rw [factDeleteCode_eq]
  have hslot : ((1 + i) % W + A) % W = elemSlot A i := rfl
  simp [run, step, execItem, execOp, stateAt, Machine.next, boolWord, hi, hslot, hhit,
    Machine.jumpTo, tagPos]

set_option maxRecDepth 100000 in
theorem factDelete_remove (k : Consts) (t0 : Nat) (st : Nat → Nat) (i A id c : Nat)
    (rest : List Nat) (hi : i < st A) (hW : st A < W) :
    run (factDeleteCode k t0) 34 (stateAt 36 (i :: A :: id :: rest) st c) =
      { stateAt 69 rest (deletedStorage st A i) (c + 2) with status := Status.stopped } := by
  rw [factDeleteCode_eq]
  have h1 : (st A + (W - 1 % W)) % W = st A - 1 := sub_one_word _ (by omega) hW
  have h2 : (A + (1 + i) % W) % W = elemSlot A i := by
    unfold elemSlot; rw [Nat.add_comm]
  have h3 : ((1 + (st A - 1)) % W + A) % W = elemSlot A (st A - 1) := rfl
  have h4 : ∀ v, setAt st (elemSlot A i) v A = st A := by
    intro v
    have := elemSlot_ne_base A i (by omega)
    simp [setAt, Ne.symm this]
  simp [run, step, execItem, execOp, stateAt, Machine.next, boolWord, h1, h2, h3, h4,
    Machine.jumpTo, tagPos, deletedStorage]

theorem factDelete_scan (k : Consts) (t0 : Nat) (st : Nat → Nat) (A id c : Nat)
    (rest : List Nat) (hW : st A < W) (i : Nat) (hi : i ≤ st A)
    (hmiss : ∀ j, j < i → st (elemSlot A j) ≠ id) :
    run (factDeleteCode k t0) (22 * i) (stateAt 12 (0 :: A :: id :: rest) st c) =
      stateAt 12 (i :: A :: id :: rest) st c := by
  induction i with
  | zero => rfl
  | succ i ih =>
    rw [Nat.mul_succ, run_add, ih (by omega) (fun j hj => hmiss j (by omega))]
    exact factDelete_miss k t0 st i A id c rest (by omega) hW (hmiss i (by omega))

theorem factDelete_run_missing (k : Consts) (t0 : Nat) (st : Nat → Nat) (id : Nat)
    (rest : List Nat) (hlock : st k.ruleEngineLockLocation = 0)
    (hW : st (st (reverseIndexSlot k id)) < W)
    (hmiss : ∀ j, j < st (st (reverseIndexSlot k id)) →
      st (elemSlot (st (reverseIndexSlot k id)) j) ≠ id) :
    run (factDeleteCode k t0) (11 + 22 * st (st (reverseIndexSlot k id)) + 10)
        (Machine.start (id :: rest) st) =
      { stateAt 35 (st (st (reverseIndexSlot k id)) :: st (reverseIndexSlot k id) :: id :: rest)
          st 0 with status := Status.invalid } := by
  rw [run_add, run_add, factDelete_enter k t0 st id rest hlock,
    factDelete_scan k t0 st _ id 0 rest hW _ (Nat.le_refl _) hmiss]
  exact factDelete_notFound k t0 st _ _ id 0 rest (Nat.le_refl _)

theorem factDelete_run_found (k : Consts) (t0 : Nat) (st : Nat → Nat) (id : Nat)
    (rest : List Nat) (i : Nat) (hlock : st k.ruleEngineLockLocation = 0)
    (hW : st (st (reverseIndexSlot k id)) < W)
    (hi : i < st (st (reverseIndexSlot k id)))
    (hmiss : ∀ j, j < i → st (elemSlot (st (reverseIndexSlot k id)) j) ≠ id)
    (hhit : st (elemSlot (st (reverseIndexSlot k id)) i) = id) :
    run (factDeleteCode k t0) (11 + 22 * i + 18 + 34) (Machine.start (id :: rest) st) =
      { stateAt 69 rest (deletedStorage st (st (reverseIndexSlot k id)) i) 2 with
        status := Status.stopped } := by
  rw [run_add, run_add, run_add, factDelete_enter k t0 st id rest hlock,
    factDelete_scan k t0 st _ id 0 rest hW i (Nat.le_of_lt hi) hmiss,
    factDelete_found k t0 st i _ id 0 rest hi hhit]
  exact factDelete_remove k t0 st i _ id 0 rest hi hW

theorem deletedStorage_length (st : Nat → Nat) (A i : Nat) :
    deletedStorage st A i A = st A - 1 := by
  simp [deletedStorage, setAt]

theorem deletedStorage_elem (st : Nat → Nat) (A i j : Nat) (hi : i + 1 < W) (hj : j + 1 < W) :
    deletedStorage st A i (elemSlot A j) =
      if j = i then st (elemSlot A (st A - 1)) else st (elemSlot A j) := by
  have hA : elemSlot A j ≠ A := elemSlot_ne_base A j hj
  by_cases h : j = i
  · subst h; simp [deletedStorage, setAt, hA]
  · have : elemSlot A j ≠ elemSlot A i := fun e => h (elemSlot_inj A j i hj hi e)
    simp [deletedStorage, setAt, hA, this, h]

theorem deletedStorage_other (st : Nat → Nat) (A i x : Nat) (hA : x ≠ A)
    (hx : x ≠ elemSlot A i) : deletedStorage st A i x = st x := by
  simp [deletedStorage, setAt, hA, hx]

/-! ### The claims -/

/-- C1: with the engine lock clear, the list of the fact type at address `A`
of length `L`, `A + L + 1` not wrapping and the reverse-index slot of `id` not
among the list slots, the code emitted by `appendFactInsert` stops with
`storage[A] = L + 1`, `storage[A + 1 + L] = id`, the element slots `A+1..A+L`
unchanged, `storage[id XOR idToListXorMask] = A`, every other slot unchanged,
and the operand stack holding the same `id` on top of the untouched rest. -/
theorem factInsert_appends (k : Consts) (ty : String) (t0 : Nat) (st : Nat → Nat)
    (id : Nat) (rest : List Nat) (A L : Nat)
    (hA : listOfThisType k ty = A) (hL : st A = L)
    (hlock : st k.ruleEngineLockLocation = 0)
    (hwrap : A + L + 1 < W)
    (halias : ∀ j, j ≤ L + 1 → reverseIndexSlot k id ≠ A + j) :
    ∀ n, 29 ≤ n →
      let s := run (factInsertCode k ty t0) n (Machine.start (id :: rest) st)
      s.status = Status.stopped ∧ s.stack = id :: rest ∧
      s.storage A = L + 1 ∧
      s.storage (A + 1 + L) = id ∧
      (∀ j, 1 ≤ j → j ≤ L → s.storage (A + j) = st (A + j)) ∧
      s.storage (reverseIndexSlot k id) = A ∧
      (∀ x, x ≠ A → x ≠ A + 1 + L → x ≠ reverseIndexSlot k id → s.storage x = st x) := by
  intro n hn s
  subst hA hL
  have hrev : reverseIndexSlot k id ≠ listOfThisType k ty := by
    simpa using halias 0 (Nat.zero_le _)
  have hrun := factInsert_run_clean k ty t0 st id rest hlock hwrap hrev
  have hstop : (run (factInsertCode k ty t0) 29 (Machine.start (id :: rest) st)).status
      ≠ Status.running := by rw [hrun]; simp
  have hs : s = { stateAt 28 (id :: rest) (insertedStorage k ty st id) 3 with
      status := Status.stopped } := by
    show run _ n _ = _
    rw [run_of_le _ 29 n _ hn hstop, hrun]
  rw [hs]
  have hlast : reverseIndexSlot k id ≠ listOfThisType k ty + 1 + st (listOfThisType k ty) := by
    have := halias (st (listOfThisType k ty) + 1) (Nat.le_refl _)
    omega
  have hne : listOfThisType k ty ≠ listOfThisType k ty + 1 + st (listOfThisType k ty) := by
    omega
  refine ⟨rfl, rfl, ?_, ?_, ?_, ?_, ?_⟩
  · simp [stateAt, insertedStorage, setAt, hne]
  · simp [stateAt, insertedStorage, setAt]
  · intro j h1 h2
    have hj : reverseIndexSlot k id ≠ listOfThisType k ty + j := halias j (by omega)
    have h3 : listOfThisType k ty + j ≠ listOfThisType k ty + 1 + st (listOfThisType k ty) := by
      omega
    have h4 : listOfThisType k ty + j ≠ listOfThisType k ty := by omega
    simp [stateAt, insertedStorage, setAt, h3, h4, Ne.symm hj]
  · simp [stateAt, insertedStorage, setAt, hlast, hrev]
  · intro x h1 h2 h3
    simp [stateAt, insertedStorage, setAt, h1, h2, h3]

/-- Witness for C1: inserting identifier 5 into the empty list at address 1000. -/
theorem factInsert_appends_witness :
    (run (factInsertCode exampleConsts "Order" 0) 29
      (Machine.start [5] (fun _ => 0))).storage (1000 + 1 + 0) = 5 :=
  (factInsert_appends exampleConsts "Order" 0 (fun _ => 0) 5 [] 1000 0 rfl rfl rfl
    (by unfold W; decide)
    (by intro j hj; simp [reverseIndexSlot, exampleConsts]; omega)
    29 (Nat.le_refl 29)).2.2.2.1

/-- C2: with the lock clear, the reverse index of `id` resolving to the list
address `A`, the list of length `n` and `id` first occurring at index `i < n`,
the code emitted by `appendFactDelete` stops normally with `storage[A] = n - 1`,
slot `i` holding the element that was last, every other element slot of index
below `n - 1` (and every other storage slot) unchanged, and the operand stack
with the `id` consumed and nothing produced.  Slots are `A + 1 + i` in 256-bit
arithmetic, which is the plain sum when `A + n` does not wrap. -/
theorem factDelete_swap_remove (k : Consts) (t0 : Nat) (st : Nat → Nat) (id : Nat)
    (rest : List Nat) (A len i : Nat)
    (hlock : st k.ruleEngineLockLocation = 0)
    (hA : st (reverseIndexSlot k id) = A) (hlen : st A = len)
    (hW : len < W)
    (hi : i < len)
    (hfirst : ∀ j, j < i → st (elemSlot A j) ≠ id)
    (hhit : st (elemSlot A i) = id) :
    ∀ n, 22 * i + 63 ≤ n →
      let s := run (factDeleteCode k t0) n (Machine.start (id :: rest) st)
      s.status = Status.stopped ∧ s.stack = rest ∧
      s.storage A = len - 1 ∧
      s.storage (elemSlot A i) = st (elemSlot A (len - 1)) ∧
      (∀ j, j < len - 1 → j ≠ i → s.storage (elemSlot A j) = st (elemSlot A j)) ∧
      (∀ x, x ≠ A → x ≠ elemSlot A i → s.storage x = st x) ∧
      s.sstores = 2 ∧
      (A + len < W → elemSlot A i = A + 1 + i ∧ elemSlot A (len - 1) = A + len) := by
  intro n hn s
  subst hlen
  subst hA
  have hrun := factDelete_run_found k t0 st id rest i hlock hW hi hfirst hhit
  have hstop : (run (factDeleteCode k t0) (11 + 22 * i + 18 + 34)
      (Machine.start (id :: rest) st)).status ≠ Status.running := by rw [hrun]; simp
  have hs : s = { stateAt 69 rest (deletedStorage st (st (reverseIndexSlot k id)) i) 2 with
      status := Status.stopped } := by
    show run _ n _ = _
    rw [run_of_le _ (11 + 22 * i + 18 + 34) n _ (by omega) hstop, hrun]
  rw [hs]
  refine ⟨rfl, rfl, ?_, ?_, ?_, ?_, rfl, ?_⟩
  · exact deletedStorage_length st _ i
  · have := deletedStorage_elem st (st (reverseIndexSlot k id)) i i (by omega) (by omega)
    simpa using this
  · intro j hj hne
    have := deletedStorage_elem st (st (reverseIndexSlot k id)) i j (by omega) (by omega)
    simpa [hne] using this
  · intro x h1 h2
    exact deletedStorage_other st _ i x h1 h2
  · intro hA
    constructor
    · exact elemSlot_eq _ i (by omega)
    · rw [elemSlot_eq _ _ (by omega)]; omega

/-- Witness for C2: deleting 7 from `[7, 8, 9]` leaves length 2. -/
theorem factDelete_swap_remove_witness :
    (run (factDeleteCode exampleConsts 0) 63
      (Machine.start [7] exampleStorage)).storage 1000 = 3 - 1 :=
  (factDelete_swap_remove exampleConsts 0 exampleStorage 7 [] 1000 3 0 (by decide)
    (by decide) (by decide) (by unfold W; decide) (by decide) (by intro j hj; omega) (by decide)
    63 (Nat.le_refl 63)).2.2.1

/-- C4: with the engine lock set, the code emitted by `appendFactInsert` and
by `appendFactDelete` reaches `INVALID` on every operand stack, having
executed no `SSTORE`: the storage is the one it started from. -/
theorem mutation_aborts_when_locked (k : Consts) (ty : String) (t0 : Nat) (st : Nat → Nat)
    (stk : List Nat) (hlock : st k.ruleEngineLockLocation ≠ 0) :
    ∀ n, 6 ≤ n →
      (let s := run (factInsertCode k ty t0) n (Machine.start stk st)
       s.status = Status.invalid ∧ s.sstores = 0 ∧ s.storage = st) ∧
      (let s := run (factDeleteCode k t0) n (Machine.start stk st)
       s.status = Status.invalid ∧ s.sstores = 0 ∧ s.storage = st) := by
  intro n hn
  have h1 := factInsert_locked k ty t0 st stk hlock
  have h2 := factDelete_locked k t0 st stk hlock
  constructor
  · intro s
    have hs : s = { stateAt 5 stk st 0 with status := Status.invalid } := by
      show run _ n _ = _
      rw [run_of_le _ 6 n _ hn (by rw [h1]; simp), h1]
    rw [hs]
    exact ⟨rfl, rfl, rfl⟩
  · intro s
    have hs : s = { stateAt 5 stk st 0 with status := Status.invalid } := by
      show run _ n _ = _
      rw [run_of_le _ 6 n _ hn (by rw [h2]; simp), h2]
    rw [hs]
    exact ⟨rfl, rfl, rfl⟩

/-- Witness for C4: an insert attempted with the lock slot holding 1. -/
theorem mutation_aborts_when_locked_witness :
    (run (factInsertCode exampleConsts "Order" 0) 6
      (Machine.start [5] (fun x => if x = 2000 then 1 else 0))).status = Status.invalid :=
  (mutation_aborts_when_locked exampleConsts "Order" 0 (fun x => if x = 2000 then 1 else 0) [5]
    (by decide) 6 (Nat.le_refl 6)).1.1

/-- C9: with the lock clear and the reverse index of `id` resolving to a list
address `A` whose first `storage[A]` elements do not contain `id`, the code
emitted by `appendFactDelete` reaches `INVALID` without having executed any
`SSTORE`.  In particular, when `id` occurs exactly once in the list (at index
`i`) and the lock and reverse-index slots are not list slots, a first delete
succeeds and a second delete of the same `id` aborts in this way. -/
theorem factDelete_missing_aborts (k : Consts) (t0 : Nat) (st : Nat → Nat) (id : Nat)
    (rest : List Nat) (A len : Nat)
    (hlock : st k.ruleEngineLockLocation = 0)
    (hA : st (reverseIndexSlot k id) = A) (hlen : st A = len) (hW : len < W)
    (hmiss : ∀ j, j < len → st (elemSlot A j) ≠ id) :
    (∀ n, 22 * len + 21 ≤ n →
      let s := run (factDeleteCode k t0) n (Machine.start (id :: rest) st)
      s.status = Status.invalid ∧ s.sstores = 0 ∧ s.storage = st) ∧
    (∀ (st0 : Nat → Nat) (B i : Nat),
      st0 k.ruleEngineLockLocation = 0 → st0 (reverseIndexSlot k id) = B →
      st0 B < W → i < st0 B →
      (∀ j, j < st0 B → (st0 (elemSlot B j) = id ↔ j = i)) →
      k.ruleEngineLockLocation ≠ B → k.ruleEngineLockLocation ≠ elemSlot B i →
      reverseIndexSlot k id ≠ B → reverseIndexSlot k id ≠ elemSlot B i →
      let s1 := run (factDeleteCode k t0) (22 * i + 63) (Machine.start (id :: rest) st0)
      s1.status = Status.stopped ∧
      ∀ n, 22 * (st0 B - 1) + 21 ≤ n →
        let s2 := run (factDeleteCode k t0) n (Machine.start (id :: rest) s1.storage)
        s2.status = Status.invalid ∧ s2.sstores = 0 ∧ s2.storage = s1.storage) := by
  have general : ∀ (st : Nat → Nat) (A len : Nat), st k.ruleEngineLockLocation = 0 →
      st (reverseIndexSlot k id) = A → st A = len → len < W →
      (∀ j, j < len → st (elemSlot A j) ≠ id) →
      ∀ n, 22 * len + 21 ≤ n →
        let s := run (factDeleteCode k t0) n (Machine.start (id :: rest) st)
        s.status = Status.invalid ∧ s.sstores = 0 ∧ s.storage = st := by
    intro st A len hlock hA hlen hW hmiss n hn s
    subst hlen
    subst hA
    have hrun := factDelete_run_missing k t0 st id rest hlock hW hmiss
    have hs : s = { stateAt 35 (st (st (reverseIndexSlot k id)) :: st (reverseIndexSlot k id)
        :: id :: rest) st 0 with status := Status.invalid } := by
      show run _ n _ = _
      rw [run_of_le _ (11 + 22 * st (st (reverseIndexSlot k id)) + 10) n _ (by omega)
        (by rw [hrun]; simp), hrun]
    rw [hs]
    exact ⟨rfl, rfl, rfl⟩
  refine ⟨general st A len hlock hA hlen hW hmiss, ?_⟩
  intro st0 B i hlock0 hA0 hW0 hi honce hl1 hl2 hr1 hr2 s1
  subst hA0
  have hrun := factDelete_run_found k t0 st0 id rest i hlock0 hW0 hi
    (fun j hj => fun h => by have := (honce j (by omega)).1 h; omega)
    ((honce i hi).2 rfl)
  have hs1 : s1 = { stateAt 69 rest (deletedStorage st0 (st0 (reverseIndexSlot k id)) i) 2 with
      status := Status.stopped } := by
    show run _ (22 * i + 63) _ = _
    have hfuel : 22 * i + 63 = 11 + 22 * i + 18 + 34 := by omega
    rw [hfuel, hrun]
  rw [hs1]
  refine ⟨rfl, ?_⟩
  have hst : ({ stateAt 69 rest (deletedStorage st0 (st0 (reverseIndexSlot k id)) i) 2 with
      status := Status.stopped } : Machine).storage
      = deletedStorage st0 (st0 (reverseIndexSlot k id)) i := rfl
  rw [hst]
  have hlen1 := deletedStorage_length st0 (st0 (reverseIndexSlot k id)) i
  refine general _ (st0 (reverseIndexSlot k id)) (st0 (st0 (reverseIndexSlot k id)) - 1)
    ?_ ?_ hlen1 (by omega) ?_
  · rw [deletedStorage_other _ _ _ _ hl1 hl2]; exact hlock0
  · rw [deletedStorage_other _ _ _ _ hr1 hr2]
  · intro j hj
    rw [deletedStorage_elem _ _ _ _ (by omega) (by omega)]
    by_cases hji : j = i
    · subst hji
      simp only [if_true]
      intro h
      have := (honce (st0 (st0 (reverseIndexSlot k id)) - 1) (by omega)).1 h
      omega
    · simp only [hji, if_false]
      intro h
      exact hji ((honce j (by omega)).1 h)

/-- Witness for C9: deleting 6, whose reverse index names the list `[7, 8, 9]`. -/
theorem factDelete_missing_aborts_witness :
    (run (factDeleteCode exampleConsts 0) 87
      (Machine.start [6] (fun x => if x = 4102 then 1000 else exampleStorage x))).status
      = Status.invalid :=
  ((factDelete_missing_aborts exampleConsts 0
    (fun x => if x = 4102 then 1000 else exampleStorage x) 6 [] 1000 3
    (by decide) (by decide) (by decide) (by unfold W; decide)
    (by intro j hj; interval_cases j <;> decide)).1 87 (Nat.le_refl 87)).1

/-- C10 (the code departs from the claim): with the lock clear and no
reverse-index entry for `id` (its slot holds zero) the code emitted by
`appendFactDelete` has no check for the absent entry; it takes the loaded zero
as the list address and scans the words at storage address 0.  If `id` first
occurs there at an index `i` below `storage[0]`, the run never reaches
`INVALID`: it stops normally after two stores, having swap-removed word `i` and
decremented slot 0, so storage is modified.  Only when `id` is not among the
first `storage[0]` words at slots `1..storage[0]` does the run reach `INVALID`
with no store, as the claim says for every storage. -/
theorem factDelete_absent_reverse_index (k : Consts) (t0 : Nat) (st : Nat → Nat) (id : Nat)
    (rest : List Nat)
    (hlock : st k.ruleEngineLockLocation = 0)
    (habsent : st (reverseIndexSlot k id) = 0)
    (hW : st 0 < W) :
    (∀ i, i < st 0 → (∀ j, j < i → st (elemSlot 0 j) ≠ id) → st (elemSlot 0 i) = id →
      (∀ n, (run (factDeleteCode k t0) n (Machine.start (id :: rest) st)).status
          ≠ Status.invalid) ∧
      ∀ n, 22 * i + 63 ≤ n →
        let s := run (factDeleteCode k t0) n (Machine.start (id :: rest) st)
        s.status = Status.stopped ∧ s.sstores = 2 ∧ s.storage = deletedStorage st 0 i ∧
        s.storage 0 + 1 = st 0 ∧ s.storage ≠ st) ∧
    ((∀ j, j < st 0 → st (elemSlot 0 j) ≠ id) →
      ∀ n, 22 * st 0 + 21 ≤ n →
        let s := run (factDeleteCode k t0) n (Machine.start (id :: rest) st)
        s.status = Status.invalid ∧ s.sstores = 0 ∧ s.storage = st) := by
  refine ⟨?_, ?_⟩
  · intro i hi hfirst hhit
    have hrun := factDelete_run_found k t0 st id rest i hlock (by rw [habsent]; exact hW)
      (by rw [habsent]; exact hi) (by rw [habsent]; exact hfirst) (by rw [habsent]; exact hhit)
    rw [habsent] at hrun
    have hstop : (run (factDeleteCode k t0) (11 + 22 * i + 18 + 34)
        (Machine.start (id :: rest) st)).status = Status.stopped := by rw [hrun]
    refine ⟨?_, ?_⟩
    · intro n hinv
      rcases status_of_halted (factDeleteCode k t0) (11 + 22 * i + 18 + 34) n
        (Machine.start (id :: rest) st) (by rw [hstop]; simp) with h | h
      · rw [hinv, hstop] at h; cases h
      · rw [hinv] at h; cases h
    · intro n hn s
      have hs : s = { stateAt 69 rest (deletedStorage st 0 i) 2 with
          status := Status.stopped } := by
        show run _ n _ = _
        rw [run_of_le _ (11 + 22 * i + 18 + 34) n _ (by omega) (by rw [hrun]; simp), hrun]
      rw [hs]
      have hlen : deletedStorage st 0 i 0 + 1 = st 0 := by
        rw [deletedStorage_length]; omega
      refine ⟨rfl, rfl, rfl, hlen, ?_⟩
      intro e
      have := congrFun e 0
      simp only [stateAt] at this
      omega
  · intro hmiss n hn s
    have hW2 : st (st (reverseIndexSlot k id)) < W := by rw [habsent]; exact hW
    have hrun := factDelete_run_missing k t0 st id rest hlock hW2 (by rw [habsent]; exact hmiss)
    rw [habsent] at hrun
    have hs : s = { stateAt 35 (st 0 :: 0 :: id :: rest) st 0 with
        status := Status.invalid } := by
      show run _ n _ = _
      rw [run_of_le _ (11 + 22 * st 0 + 10) n _ (by omega) (by rw [hrun]; simp), hrun]
    rw [hs]
    exact ⟨rfl, rfl, rfl⟩

/-- Witness for C10.  Identifier 7 has no reverse-index entry in either storage.
With slot 0 holding 1 and slot 1 holding 7 the delete of 7 never reaches
`INVALID`, stops after 63 steps and has overwritten slot 0 with 0.  With slot 0
holding 2 and slots 1 and 2 holding 5 and 6 the scan runs over both words and
ends at `INVALID` with storage unchanged. -/
theorem factDelete_absent_reverse_index_witness :
    (zeroListStorage (reverseIndexSlot exampleConsts 7) = 0 ∧
      zeroListStorage exampleConsts.ruleEngineLockLocation = 0 ∧
      zeroListStorage 0 = 1 ∧
      (∀ n, (run (factDeleteCode exampleConsts 0) n
        (Machine.start [7] zeroListStorage)).status ≠ Status.invalid) ∧
      (run (factDeleteCode exampleConsts 0) 63
        (Machine.start [7] zeroListStorage)).status = Status.stopped ∧
      (run (factDeleteCode exampleConsts 0) 63
        (Machine.start [7] zeroListStorage)).storage 0 = 0) ∧
    (twoWordStorage (reverseIndexSlot exampleConsts 7) = 0 ∧
      (run (factDeleteCode exampleConsts 0) 65
        (Machine.start [7] twoWordStorage)).status = Status.invalid ∧
      (run (factDeleteCode exampleConsts 0) 65
        (Machine.start [7] twoWordStorage)).storage = twoWordStorage) := by
  have h1 := (factDelete_absent_reverse_index exampleConsts 0 zeroListStorage 7 []
    (by decide) (by decide) (by unfold W; decide)).1 0 (by decide) (by intro j hj; omega)
    (by decide)
  have h2 := (factDelete_absent_reverse_index exampleConsts 0 twoWordStorage 7 []
    (by decide) (by decide) (by unfold W; decide)).2
    (by
      intro j hj
      have hj2 : j < 2 := hj
      interval_cases j <;> decide) 65 (by decide)
  have h63 := h1.2 63 (by decide)
  refine ⟨⟨by decide, by decide, by decide, h1.1, h63.1, ?_⟩, by decide, h2.1, h2.2.2⟩
  have h0 := h63.2.2.2.1
  have hz : zeroListStorage 0 = 1 := by decide
  rw [hz] at h0
  omega

/-! ### Firing and update -/

theorem fireAllRules_locked (k : Consts) (entry t0 : Nat) (st : Nat → Nat)
    (stk : List Nat) (hlock : st k.ruleEngineLockLocation ≠ 0) :
    run (fireAllRulesCode k entry t0) 6 (Machine.start stk st) =
      { stateAt 5 stk st 0 with status := Status.invalid } := by
  rw [fireAllRulesCode_eq]
  simp [run, step, execItem, execOp, Machine.start, stateAt, Machine.next, boolWord, hlock]

theorem fireAllRules_call (k : Consts) (entry t0 : Nat) (st : Nat → Nat)
    (stk : List Nat) (hlock : st k.ruleEngineLockLocation = 0)
    (h0 : entry ≠ t0) (h1 : entry ≠ t0 + 1) :
    run (fireAllRulesCode k entry t0) 12 (Machine.start stk st) =
      { stateAt 12 ((t0 + 1) :: stk) (setAt st k.ruleEngineLockLocation 1) 1 with
        status := Status.jumpedOut entry } := by
  rw [fireAllRulesCode_eq]
  simp [run, step, execItem, execOp, Machine.start, stateAt, Machine.next, boolWord, hlock,
    Machine.jumpTo, tagPos, Ne.symm h0, Ne.symm h1]

theorem fireAllRules_return (k : Consts) (entry t0 : Nat) (st st1 : Nat → Nat)
    (stk : List Nat) (c : Nat) :
    run (fireAllRulesCode k entry t0) 5
        (Machine.returnFrom (fireAllRulesCode k entry t0)
          { stateAt 12 ((t0 + 1) :: stk) st c with status := Status.jumpedOut entry } st1) =
      { stateAt 17 stk (setAt st1 k.ruleEngineLockLocation 0) (c + 1) with
        status := Status.stopped } := by
  rw [fireAllRulesCode_eq]
  simp [run, step, execItem, execOp, stateAt, Machine.next, Machine.returnFrom,
    Machine.jumpTo, tagPos]

theorem update_unlocked (k : Consts) (t0 : Nat) (st : Nat → Nat)
    (stk : List Nat) (hlock : st k.ruleEngineLockLocation = 0) :
    run (updateCode k t0) 5 (Machine.start stk st) =
      { stateAt 4 stk st 0 with status := Status.invalid } := by
  rw [updateCode_eq]
  simp [run, step, execItem, execOp, Machine.start, stateAt, Machine.next, hlock]

theorem update_locked (k : Consts) (t0 : Nat) (st : Nat → Nat) (id : Nat)
    (rest : List Nat) (hlock : st k.ruleEngineLockLocation ≠ 0) :
    run (updateCode k t0) 10 (Machine.start (id :: rest) st) =
      { stateAt 10 rest (setAt st k.ruleEngineReevaluateLocation 1) 1 with
        status := Status.stopped } := by
  rw [updateCode_eq]
  simp [run, step, execItem, execOp, Machine.start, stateAt, Machine.next, hlock,
    Machine.jumpTo, tagPos]

/-- C5: the code emitted by `appendFireAllRules` reaches `INVALID` before any
storage write when the engine lock is set.  When the lock is clear it stores 1
to the lock and then jumps to the firing entry with the fresh return label on
top of the stack; the return label is placed in the code, and once the firing
routine returns through it (whatever storage it leaves) the code stores 0 to
the lock and stops, with the operand stack as it was before the firing. -/
theorem fireAllRules_lock_protocol (k : Consts) (entry t0 : Nat) (st : Nat → Nat)
    (stk : List Nat) (h0 : entry ≠ t0) (h1 : entry ≠ t0 + 1) :
    (st k.ruleEngineLockLocation ≠ 0 → ∀ n, 6 ≤ n →
      let s := run (fireAllRulesCode k entry t0) n (Machine.start stk st)
      s.status = Status.invalid ∧ s.sstores = 0 ∧ s.storage = st) ∧
    (st k.ruleEngineLockLocation = 0 →
      let s := run (fireAllRulesCode k entry t0) 12 (Machine.start stk st)
      s.status = Status.jumpedOut entry ∧ s.stack = (t0 + 1) :: stk ∧
      s.storage k.ruleEngineLockLocation = 1 ∧
      (∀ x, x ≠ k.ruleEngineLockLocation → s.storage x = st x) ∧
      s.sstores = 1 ∧
      tagPos (fireAllRulesCode k entry t0) (t0 + 1) = some 13 ∧
      ∀ (st1 : Nat → Nat) (n : Nat), 5 ≤ n →
        let e := run (fireAllRulesCode k entry t0) n
          (Machine.returnFrom (fireAllRulesCode k entry t0) s st1)
        e.status = Status.stopped ∧ e.stack = stk ∧
        e.storage k.ruleEngineLockLocation = 0 ∧
        (∀ x, x ≠ k.ruleEngineLockLocation → e.storage x = st1 x)) := by
  constructor
  · intro hlock n hn s
    have h := fireAllRules_locked k entry t0 st stk hlock
    have hs : s = { stateAt 5 stk st 0 with status := Status.invalid } := by
      show run _ n _ = _
      rw [run_of_le _ 6 n _ hn (by rw [h]; simp), h]
    rw [hs]
    exact ⟨rfl, rfl, rfl⟩
  · intro hlock s
    have h := fireAllRules_call k entry t0 st stk hlock h0 h1
    have hs : s = { stateAt 12 ((t0 + 1) :: stk) (setAt st k.ruleEngineLockLocation 1) 1 with
        status := Status.jumpedOut entry } := h
    rw [hs]
    refine ⟨rfl, rfl, ?_, ?_, rfl, ?_, ?_⟩
    · simp [stateAt, setAt]
    · intro x hx
      simp [stateAt, setAt, hx]
    · rw [fireAllRulesCode_eq]
      simp [tagPos]
    · intro st1 n hn e
      have hr := fireAllRules_return k entry t0 (setAt st k.ruleEngineLockLocation 1) st1 stk 1
      have he : e = { stateAt 17 stk (setAt st1 k.ruleEngineLockLocation 0) (1 + 1) with
          status := Status.stopped } := by
        show run _ n _ = _
        rw [run_of_le _ 5 n _ hn (by rw [hr]; simp), hr]
      rw [he]
      refine ⟨rfl, rfl, ?_, ?_⟩
      · simp [stateAt, setAt]
      · intro x hx
        simp [stateAt, setAt, hx]

/-- Witness for C5: firing on an all-zero storage, entry label 100. -/
theorem fireAllRules_lock_protocol_witness :
    (run (fireAllRulesCode exampleConsts 100 0) 12
      (Machine.start [] (fun _ => 0))).storage exampleConsts.ruleEngineLockLocation = 1 :=
  ((fireAllRules_lock_protocol exampleConsts 100 0 (fun _ => 0) [] (by decide) (by decide)).2
    rfl).2.2.1

/-- C6: the code emitted by `appendUpdate` reaches `INVALID`, with no storage
write, exactly when the engine lock is clear; when the lock is set it stops
with the identifier consumed and nothing produced, 1 written to the
re-evaluation flag slot and every other storage slot unchanged (the lock
included, its slot being another one). -/
theorem update_sets_flag_only (k : Consts) (t0 : Nat) (st : Nat → Nat) (id : Nat)
    (rest : List Nat) :
    (∀ n, 5 ≤ n →
      ((run (updateCode k t0) n (Machine.start (id :: rest) st)).status = Status.invalid
        ↔ st k.ruleEngineLockLocation = 0)) ∧
    (st k.ruleEngineLockLocation = 0 → ∀ n, 5 ≤ n →
      let s := run (updateCode k t0) n (Machine.start (id :: rest) st)
      s.sstores = 0 ∧ s.storage = st) ∧
    (st k.ruleEngineLockLocation ≠ 0 → ∀ n, 10 ≤ n →
      let s := run (updateCode k t0) n (Machine.start (id :: rest) st)
      s.status = Status.stopped ∧ s.stack = rest ∧
      s.storage k.ruleEngineReevaluateLocation = 1 ∧
      (∀ x, x ≠ k.ruleEngineReevaluateLocation → s.storage x = st x) ∧
      (k.ruleEngineLockLocation ≠ k.ruleEngineReevaluateLocation →
        s.storage k.ruleEngineLockLocation = st k.ruleEngineLockLocation)) := by
  have hclear : st k.ruleEngineLockLocation = 0 → ∀ n, 5 ≤ n →
      run (updateCode k t0) n (Machine.start (id :: rest) st) =
        { stateAt 4 (id :: rest) st 0 with status := Status.invalid } := by
    intro hlock n hn
    have h := update_unlocked k t0 st (id :: rest) hlock
    rw [run_of_le _ 5 n _ hn (by rw [h]; simp), h]
  have hset : st k.ruleEngineLockLocation ≠ 0 → ∀ n, 10 ≤ n →
      run (updateCode k t0) n (Machine.start (id :: rest) st) =
        { stateAt 10 rest (setAt st k.ruleEngineReevaluateLocation 1) 1 with
          status := Status.stopped } := by
    intro hlock n hn
    have h := update_locked k t0 st id rest hlock
    rw [run_of_le _ 10 n _ hn (by rw [h]; simp), h]
  refine ⟨?_, ?_, ?_⟩
  · intro n hn
    constructor
    · intro hinv
      by_contra hlock
      have h := update_locked k t0 st id rest hlock
      rcases status_of_halted (updateCode k t0) 10 n (Machine.start (id :: rest) st)
        (by rw [h]; simp) with h2 | h2
      · rw [hinv, h] at h2; cases h2
      · rw [hinv] at h2; cases h2
    · intro hlock
      rw [hclear hlock n hn]
  · intro hlock n hn s
    have hs : s = { stateAt 4 (id :: rest) st 0 with status := Status.invalid } :=
      hclear hlock n hn
    rw [hs]
    exact ⟨rfl, rfl⟩
  · intro hlock n hn s
    have hs : s = { stateAt 10 rest (setAt st k.ruleEngineReevaluateLocation 1) 1 with
        status := Status.stopped } := hset hlock n hn
    rw [hs]
    refine ⟨rfl, rfl, ?_, ?_, ?_⟩
    · simp [stateAt, setAt]
    · intro x hx
      simp [stateAt, setAt, hx]
    · intro hne
      simp [stateAt, setAt, hne]

/-- Witness for C6: an update while the lock slot holds 1. -/
theorem update_sets_flag_only_witness :
    (run (updateCode exampleConsts 0) 10
      (Machine.start [5] (fun x => if x = 2000 then 1 else 0))).storage
        exampleConsts.ruleEngineReevaluateLocation = 1 :=
  ((update_sets_flag_only exampleConsts 0 (fun x => if x = 2000 then 1 else 0) 5 []).2.2
    (by decide) 10 (Nat.le_refl 10)).2.2.1

/-! ### Sequences of operations -/

theorem perm_swap_remove : ∀ (l : List Nat) (i : Nat) (v : Nat), i < l.length →
    l.getLast? = some v → ((l.set i v).dropLast).Perm (l.eraseIdx i)
  | [], i, v, hi, _ => by simp at hi
  | [x], i, v, hi, hv => by
      have : i = 0 := by simpa using hi
      subst this
      simp
  | x :: y :: t, 0, v, _, hv => by
      have hv2 : (y :: t).getLast? = some v := by simpa using hv
      have h := List.dropLast_append_getLast? v hv2
      simp only [List.set_cons_zero, List.dropLast_cons₂, List.eraseIdx_cons_zero]
      have h2 : (v :: (y :: t).dropLast).Perm ((y :: t).dropLast ++ [v]) :=
        (List.perm_append_singleton v _).symm
      rw [h] at h2
      exact h2
  | x :: y :: t, i + 1, v, hi, hv => by
      have hv2 : (y :: t).getLast? = some v := by simpa using hv
      have hi2 : i < (y :: t).length := by simpa using hi
      have ih := perm_swap_remove (y :: t) i v hi2 hv2
      have hne : (y :: t).set i v ≠ [] := by
        intro h
        have := congrArg List.length h
        simp at this
      simp only [List.set_cons_succ, List.eraseIdx_cons_succ]
      rw [List.dropLast_cons_of_ne_nil hne]
      exact ih.cons x

theorem exists_first_index : ∀ (l : List Nat) (d : Nat), d ∈ l →
    ∃ i, i < l.length ∧ l[i]? = some d ∧ (∀ j, j < i → l[j]? ≠ some d) ∧
      l.eraseIdx i = l.erase d
  | [], d, h => by simp at h
  | x :: t, d, h => by
      by_cases hx : x = d
      · subst hx
        exact ⟨0, by simp, by simp, by intro j hj; omega, by simp⟩
      · have hd : d ∈ t := by
          rcases List.mem_cons.1 h with h1 | h1
          · exact absurd h1.symm hx
          · exact h1
        obtain ⟨i, hi, hget, hfirst, her⟩ := exists_first_index t d hd
        refine ⟨i + 1, by simpa using hi, by simpa using hget, ?_, ?_⟩
        · intro j hj
          cases j with
          | zero => simpa using hx
          | succ j => simpa using hfirst j (by omega)
        · simp [List.erase_cons, hx, her]

theorem factInsertOp_eq (k : Consts) (ty : String) (t0 : Nat) (st : Nat → Nat) (id : Nat)
    (hlock : st k.ruleEngineLockLocation = 0)
    (hwrap : listOfThisType k ty + st (listOfThisType k ty) + 1 < W)
    (hrev : reverseIndexSlot k id ≠ listOfThisType k ty) :
    factInsertOp k ty t0 st id = some (insertedStorage k ty st id) := by
  unfold factInsertOp runToStop
  rw [factInsert_run_clean k ty t0 st id [] hlock hwrap hrev]
  simp [stateAt]

theorem insertAll_spec (k : Consts) (ty : String) (t0 : Nat) :
    ∀ (ids : List Nat) (st : Nat → Nat),
      st k.ruleEngineLockLocation = 0 →
      listOfThisType k ty + st (listOfThisType k ty) + ids.length < W →
      (∀ id, id ∈ ids → ∀ j, j ≤ st (listOfThisType k ty) + ids.length →
        reverseIndexSlot k id ≠ listOfThisType k ty + j) →
      (∀ j, j ≤ st (listOfThisType k ty) + ids.length →
        k.ruleEngineLockLocation ≠ listOfThisType k ty + j) →
      (∀ id, id ∈ ids → reverseIndexSlot k id ≠ k.ruleEngineLockLocation) →
      ∃ st1, insertAll k ty t0 st ids = some st1 ∧
        st1 (listOfThisType k ty) = st (listOfThisType k ty) + ids.length ∧
        st1 k.ruleEngineLockLocation = 0 ∧
        (∀ j, j < ids.length →
          ids[j]? = some (st1 (listOfThisType k ty + 1 + st (listOfThisType k ty) + j))) ∧
        (∀ j, 1 ≤ j → j ≤ st (listOfThisType k ty) →
          st1 (listOfThisType k ty + j) = st (listOfThisType k ty + j)) ∧
        (∀ id, id ∈ ids → st1 (reverseIndexSlot k id) = listOfThisType k ty) ∧
        (∀ x, st x = listOfThisType k ty →
          (∀ j, j ≤ st (listOfThisType k ty) + ids.length → x ≠ listOfThisType k ty + j) →
          st1 x = listOfThisType k ty)
  | [], st, hlock, _, _, _, _ =>
      ⟨st, rfl, by simp, hlock, by intro j hj; simp at hj, fun _ _ _ => rfl,
        by intro id hid; simp at hid, fun x hx _ => hx⟩
  | id :: ids, st, hlock, hwrap, hrev, hlk, hlk2 => by
      simp only [List.length_cons] at hwrap hrev hlk
      have hrevA : reverseIndexSlot k id ≠ listOfThisType k ty := by
        simpa using hrev id (List.mem_cons_self _ _) 0 (by omega)
      have hrevL : reverseIndexSlot k id ≠
          listOfThisType k ty + 1 + st (listOfThisType k ty) := by
        have := hrev id (List.mem_cons_self _ _) (st (listOfThisType k ty) + 1) (by omega)
        omega
      have hlkA : k.ruleEngineLockLocation ≠ listOfThisType k ty := by
        simpa using hlk 0 (by omega)
      have hlkL : k.ruleEngineLockLocation ≠
          listOfThisType k ty + 1 + st (listOfThisType k ty) := by
        have := hlk (st (listOfThisType k ty) + 1) (by omega)
        omega
      have hlkR : k.ruleEngineLockLocation ≠ reverseIndexSlot k id :=
        Ne.symm (hlk2 id (List.mem_cons_self _ _))
      have hop := factInsertOp_eq k ty t0 st id hlock (by omega) hrevA
      have hne : listOfThisType k ty ≠ listOfThisType k ty + 1 + st (listOfThisType k ty) := by
        omega
      have hA1 : insertedStorage k ty st id (listOfThisType k ty)
          = st (listOfThisType k ty) + 1 := by
        simp [insertedStorage, setAt, hne]
      have hlock1 : insertedStorage k ty st id k.ruleEngineLockLocation = 0 := by
        simp [insertedStorage, setAt, hlkA, hlkL, hlkR, hlock]
      obtain ⟨st1, hall, hlen, hlockf, helems, hold, hrevs, hframe⟩ :=
        insertAll_spec k ty t0 ids (insertedStorage k ty st id) hlock1
          (by rw [hA1]; omega)
          (by
            intro id1 hid1 j hj
            rw [hA1] at hj
            exact hrev id1 (List.mem_cons_of_mem _ hid1) j (by omega))
          (by
            intro j hj
            rw [hA1] at hj
            exact hlk j (by omega))
          (fun id1 hid1 => hlk2 id1 (List.mem_cons_of_mem _ hid1))
      rw [hA1] at hlen helems hold hframe
      refine ⟨st1, ?_, ?_, hlockf, ?_, ?_, ?_, ?_⟩
      · simp [insertAll, hop, hall]
      · rw [hlen, List.length_cons]; omega
      · intro j hj
        cases j with
        | zero =>
          have h1 := hold (st (listOfThisType k ty) + 1) (by omega) (by omega)
          have h2 : insertedStorage k ty st id
              (listOfThisType k ty + (st (listOfThisType k ty) + 1)) = id := by
            have : listOfThisType k ty + (st (listOfThisType k ty) + 1)
                = listOfThisType k ty + 1 + st (listOfThisType k ty) := by omega
            rw [this]
            simp [insertedStorage, setAt]
          have h3 : listOfThisType k ty + 1 + st (listOfThisType k ty) + 0
              = listOfThisType k ty + (st (listOfThisType k ty) + 1) := by omega
          rw [h3, h1, h2]
          simp
        | succ j =>
          have h1 := helems j (by simpa using hj)
          have h3 : listOfThisType k ty + 1 + st (listOfThisType k ty) + (j + 1)
              = listOfThisType k ty + 1 + (st (listOfThisType k ty) + 1) + j := by omega
          rw [h3]
          simpa using h1
      · intro j h1 h2
        rw [hold j h1 (by omega)]
        have ha : listOfThisType k ty + j ≠ listOfThisType k ty := by omega
        have hb : listOfThisType k ty + j ≠
            listOfThisType k ty + 1 + st (listOfThisType k ty) := by omega
        have hc : listOfThisType k ty + j ≠ reverseIndexSlot k id :=
          Ne.symm (hrev id (List.mem_cons_self _ _) j (by omega))
        simp [insertedStorage, setAt, ha, hb, hc]
      · intro id1 hid1
        rcases List.mem_cons.1 hid1 with h | h
        · subst h
          apply hframe
          · simp [insertedStorage, setAt, hrevL, hrevA]
          · intro j hj
            exact hrev id1 (List.mem_cons_self _ _) j (by omega)
        · exact hrevs id1 h
      · intro x hx hrange
        simp only [List.length_cons] at hrange
        apply hframe
        · have ha : x ≠ listOfThisType k ty := by simpa using hrange 0 (by omega)
          have hb : x ≠ listOfThisType k ty + 1 + st (listOfThisType k ty) := by
            have := hrange (st (listOfThisType k ty) + 1) (by omega)
            omega
          by_cases hc : x = reverseIndexSlot k id
          · simp [insertedStorage, setAt, hb, ha, hc, hrevL, hrevA]
          · simp [insertedStorage, setAt, hb, ha, hc, hx]
        · intro j hj
          exact hrange j (by omega)

theorem liveList_length (st : Nat → Nat) (A : Nat) : (liveList st A).length = st A := by
  simp [liveList]

theorem liveList_getElem? (st : Nat → Nat) (A j : Nat) (hj : j < st A) :
    (liveList st A)[j]? = some (st (elemSlot A j)) := by
  simp [liveList, List.getElem?_range hj]

theorem liveList_of_elems (st : Nat → Nat) (A : Nat) (ids : List Nat)
    (hlen : st A = ids.length) (hwrap : A + ids.length < W)
    (helems : ∀ j, j < ids.length → ids[j]? = some (st (A + 1 + j))) :
    liveList st A = ids := by
  apply List.ext_getElem?
  intro j
  by_cases hj : j < ids.length
  · rw [liveList_getElem? st A j (by omega), helems j hj, elemSlot_eq A j (by omega)]
  · rw [List.getElem?_eq_none (by rw [liveList_length]; omega),
      List.getElem?_eq_none (by omega)]

theorem liveList_deleted (st : Nat → Nat) (A i : Nat) (hi : i < st A) (hW : st A < W) :
    (liveList (deletedStorage st A i) A).Perm ((liveList st A).eraseIdx i) := by
  have hlast : (liveList st A).getLast? = some (st (elemSlot A (st A - 1))) := by
    rw [List.getLast?_eq_getElem?, liveList_length, liveList_getElem? st A _ (by omega)]
  have heq : liveList (deletedStorage st A i) A
      = ((liveList st A).set i (st (elemSlot A (st A - 1)))).dropLast := by
    apply List.ext_getElem?
    intro j
    by_cases hj : j < st A - 1
    · rw [liveList_getElem? _ A j (by rw [deletedStorage_length]; exact hj),
        deletedStorage_elem st A i j (by omega) (by omega)]
      have hj2 : j < ((liveList st A).set i (st (elemSlot A (st A - 1)))).dropLast.length := by
        simp [liveList_length]; exact hj
      rw [List.getElem?_eq_getElem hj2, List.getElem_dropLast, List.getElem_set]
      by_cases hji : j = i
      · subst hji; simp
      · have hij : ¬ i = j := fun h => hji h.symm
        simp only [hji, hij, if_false]
        have := liveList_getElem? st A j (by omega)
        rw [List.getElem?_eq_getElem (by rw [liveList_length]; omega)] at this
        exact this.symm
    · rw [List.getElem?_eq_none (by rw [liveList_length, deletedStorage_length]; omega),
        List.getElem?_eq_none (by simp [liveList_length]; omega)]
  rw [heq]
  exact perm_swap_remove _ i _ (by rw [liveList_length]; exact hi) hlast

theorem insert_delete_general (k : Consts) (ty : String) (t0 t1 : Nat) (st0 : Nat → Nat)
    (ids : List Nat) (d : Nat)
    (hlock : st0 k.ruleEngineLockLocation = 0)
    (hempty : st0 (listOfThisType k ty) = 0)
    (hwrap : listOfThisType k ty + ids.length < W)
    (hrev : ∀ id, id ∈ ids → ∀ j, j ≤ ids.length →
      reverseIndexSlot k id ≠ listOfThisType k ty + j)
    (hlk : ∀ j, j ≤ ids.length → k.ruleEngineLockLocation ≠ listOfThisType k ty + j)
    (hlk2 : ∀ id, id ∈ ids → reverseIndexSlot k id ≠ k.ruleEngineLockLocation)
    (hd : d ∈ ids) :
    ∃ st1 st2, insertAll k ty t0 st0 ids = some st1 ∧
      liveList st1 (listOfThisType k ty) = ids ∧
      factDeleteOp k t1 (22 * ids.length + 63) st1 d = some st2 ∧
      st2 (listOfThisType k ty) = ids.length - 1 ∧
      (liveList st2 (listOfThisType k ty)).Perm (ids.erase d) := by
  obtain ⟨st1, hall, hlen, hlock1, helems, _, hrevs, _⟩ :=
    insertAll_spec k ty t0 ids st0 hlock (by rw [hempty]; omega)
      (by intro id hid j hj; rw [hempty] at hj; exact hrev id hid j (by omega))
      (by intro j hj; rw [hempty] at hj; exact hlk j (by omega)) hlk2
  rw [hempty] at hlen helems
  simp only [Nat.zero_add, Nat.add_zero] at hlen helems
  have hlive : liveList st1 (listOfThisType k ty) = ids :=
    liveList_of_elems st1 _ ids hlen hwrap helems
  obtain ⟨i, hi, hget, hfirst, her⟩ := exists_first_index ids d hd
  have hA : st1 (reverseIndexSlot k d) = listOfThisType k ty := hrevs d hd
  have helem : ∀ j, j < ids.length →
      ids[j]? = some (st1 (elemSlot (listOfThisType k ty) j)) := by
    intro j hj
    rw [helems j hj, elemSlot_eq _ j (by omega)]
  have hrun := factDelete_run_found k t1 st1 d [] i hlock1
    (by rw [hA, hlen]; omega) (by rw [hA, hlen]; exact hi)
    (by
      intro j hj h
      rw [hA] at h
      have := helem j (by omega)
      rw [h] at this
      exact hfirst j hj this)
    (by
      rw [hA]
      have := helem i hi
      rw [hget] at this
      exact (Option.some.inj this).symm)
  rw [hA] at hrun
  refine ⟨st1, deletedStorage st1 (listOfThisType k ty) i, hall, hlive, ?_, ?_, ?_⟩
  · unfold factDeleteOp runToStop
    rw [run_of_le _ (11 + 22 * i + 18 + 34) (22 * ids.length + 63) _ (by omega)
      (by rw [hrun]; simp), hrun]
    simp [stateAt]
  · rw [deletedStorage_length, hlen]
  · have := liveList_deleted st1 (listOfThisType k ty) i (by rw [hlen]; exact hi)
      (by rw [hlen]; omega)
    rw [hlive, her] at this
    exact this

/-- C3 fails as stated: after inserting identifier 5 twice into the empty
list at address 1000 and deleting 5, the live list is `[5]`: its length went
from 2 to 1, but the set of remaining identifiers still contains the deleted
one, so it is not the set before the delete minus 5. -/
theorem insert_delete_round_trip_counterexample :
    ∃ st1 st2, insertAll exampleConsts "Order" 0 (fun _ => 0) [5, 5] = some st1 ∧
      factDeleteOp exampleConsts 0 107 st1 5 = some st2 ∧
      liveList st1 1000 = [5, 5] ∧ liveList st2 1000 = [5] ∧
      (liveList st2 1000).toFinset ≠ (liveList st1 1000).toFinset.erase 5 := by
  obtain ⟨st1, st2, h1, h3, h2, _, h5⟩ :=
    insert_delete_general exampleConsts "Order" 0 0 (fun _ => 0) [5, 5] 5 rfl rfl
      (by unfold W; decide)
      (by
        intro id hid j hj
        simp at hid hj
        subst hid
        simp [reverseIndexSlot, exampleConsts, listOfThisType]
        omega)
      (by
        intro j hj
        simp at hj
        simp [exampleConsts, listOfThisType]
        omega)
      (by
        intro id hid
        simp at hid
        subst hid
        simp [reverseIndexSlot, exampleConsts])
      (by simp)
  have h5b : liveList st2 1000 = [5] := by
    have : (liveList st2 1000).Perm [5] := by simpa using h5
    exact List.perm_singleton.1 this
  have h2b : factDeleteOp exampleConsts 0 107 st1 5 = some st2 := by
    have hf : 22 * [5, 5].length + 63 = 107 := rfl
    rw [hf] at h2
    exact h2
  have h3b : liveList st1 1000 = [5, 5] := h3
  refine ⟨st1, st2, h1, h2b, h3b, h5b, ?_⟩
  rw [h5b, h3b]
  decide

/-- C3, amended: starting from an empty list with the lock clear, after any
sequence of inserts of one fact type (list and reverse-index slots not
aliasing each other or the lock, no address wrap-around) followed by the
delete of a previously inserted identifier, the live-list length has
decreased by exactly one and the remaining identifiers are, as a multiset,
those before the delete with one occurrence of the deleted identifier removed;
when the inserted identifiers are pairwise distinct, the remaining set is the
set before the delete minus the deleted identifier. -/
theorem insert_delete_round_trip (k : Consts) (ty : String) (t0 t1 : Nat) (st0 : Nat → Nat)
    (ids : List Nat) (d : Nat)
    (hlock : st0 k.ruleEngineLockLocation = 0)
    (hempty : st0 (listOfThisType k ty) = 0)
    (hwrap : listOfThisType k ty + ids.length < W)
    (hrev : ∀ id, id ∈ ids → ∀ j, j ≤ ids.length →
      reverseIndexSlot k id ≠ listOfThisType k ty + j)
    (hlk : ∀ j, j ≤ ids.length → k.ruleEngineLockLocation ≠ listOfThisType k ty + j)
    (hlk2 : ∀ id, id ∈ ids → reverseIndexSlot k id ≠ k.ruleEngineLockLocation)
    (hd : d ∈ ids) :
    ∃ st1 st2, insertAll k ty t0 st0 ids = some st1 ∧
      factDeleteOp k t1 (22 * ids.length + 63) st1 d = some st2 ∧
      liveList st1 (listOfThisType k ty) = ids ∧
      st2 (listOfThisType k ty) + 1 = st1 (listOfThisType k ty) ∧
      (liveList st2 (listOfThisType k ty)).length + 1
        = (liveList st1 (listOfThisType k ty)).length ∧
      (liveList st2 (listOfThisType k ty)).Perm
        ((liveList st1 (listOfThisType k ty)).erase d) ∧
      (ids.Nodup → ∀ x, x ∈ liveList st2 (listOfThisType k ty) ↔
        (x ∈ liveList st1 (listOfThisType k ty) ∧ x ≠ d)) := by
  obtain ⟨st1, st2, h1, h2, h3, h4, h5⟩ :=
    insert_delete_general k ty t0 t1 st0 ids d hlock hempty hwrap hrev hlk hlk2 hd
  have hpos : 0 < ids.length := List.length_pos_of_mem hd
  have hlen1 : st1 (listOfThisType k ty) = ids.length := by
    have := liveList_length st1 (listOfThisType k ty)
    rw [h2] at this
    exact this.symm
  refine ⟨st1, st2, h1, h3, h2, ?_, ?_, ?_, ?_⟩
  · rw [h4, hlen1]; omega
  · rw [liveList_length, liveList_length, h4, hlen1]; omega
  · rw [h2]; exact h5
  · intro hnd x
    rw [h2, h5.mem_iff, hnd.mem_erase_iff]
    exact And.comm

/-- Witness for the amended C3: inserting 5 then 6, deleting 5. -/
theorem insert_delete_round_trip_witness :
    ∃ st1 st2, insertAll exampleConsts "Order" 0 (fun _ => 0) [5, 6] = some st1 ∧
      factDeleteOp exampleConsts 0 (22 * 2 + 63) st1 5 = some st2 ∧
      st2 1000 + 1 = st1 1000 := by
  obtain ⟨st1, st2, h1, h2, _, h4, _⟩ :=
    insert_delete_round_trip exampleConsts "Order" 0 0 (fun _ => 0) [5, 6] 5 rfl rfl
      (by unfold W; decide)
      (by
        intro id hid j hj
        simp at hid hj
        rcases hid with hid | hid <;> subst hid <;>
          simp [reverseIndexSlot, exampleConsts, listOfThisType] <;> omega)
      (by
        intro j hj
        simp at hj
        simp [exampleConsts, listOfThisType]
        omega)
      (by
        intro id hid
        simp at hid
        rcases hid with hid | hid <;> subst hid <;> simp [reverseIndexSlot, exampleConsts])
      (by simp)
  exact ⟨st1, st2, h1, h2, h4⟩

/-! ### Nodes -/

theorem items_append (e : List AssemblyItem) (n : Nat) (new : List AssemblyItem) :
    (CompilerContext.append ⟨e, n⟩ new).items = CompilerContext.items ⟨e, n⟩ ++ new := by
  simp [CompilerContext.append, CompilerContext.items, List.reverseAux_eq]

theorem emittedBy_reverseAux (c0 c1 : RuleEngineCompiler) (new : List AssemblyItem)
    (h : c1.m_context.emitted = List.reverseAux new c0.m_context.emitted) :
    emittedBy c0 c1 = new := by
  simp [emittedBy, CompilerContext.items, h, List.reverseAux_eq]

theorem visitFactDeclaration_eq (k : Consts) (fact : FactDeclaration) (rule : Rule)
    (e : List AssemblyItem) (t : Nat) (order addrs : List Nat) (cf : Option FactDeclaration)
    (fno : Nat) (ef efi : List (Nat × Nat)) (hentry : ef.lookup fact.id = none) :
    visitFactDeclaration k
        { m_context := ⟨e, t⟩, m_nodeOrder := order, m_nodeOutListPtrAddr := addrs,
          m_currentRule := some rule, m_currentFact := cf, m_currentFieldNo := fno,
          m_entryFact := ef, m_entryField := efi } fact =
      some
        { m_context :=
            ⟨List.reverseAux
              (sourceNodeItems (k.keccak256 (fact.typeRichIdentifier ++ "-factlist"))
                (k.keccak256 (rule.name ++ fact.name ++ "-factlist")) t) e, t + 3⟩,
          m_nodeOrder := order ++ [t],
          m_nodeOutListPtrAddr := addrs ++ [k.keccak256 (rule.name ++ fact.name ++ "-factlist")],
          m_currentRule := some rule, m_currentFact := some fact, m_currentFieldNo := 0,
          m_entryFact := (fact.id, t) :: ef, m_entryField := efi } := by
  simp only [visitFactDeclaration, entryFact, hentry]
  rfl

theorem visitFactDeclaration_code (k : Consts) (c : RuleEngineCompiler)
    (fact : FactDeclaration) (rule : Rule)
    (hrule : c.m_currentRule = some rule)
    (hentry : c.m_entryFact.lookup fact.id = none) :
    ∃ c1, visitFactDeclaration k c fact = some c1 ∧
      emittedBy c c1 =
        sourceNodeItems (k.keccak256 (fact.typeRichIdentifier ++ "-factlist"))
          (k.keccak256 (rule.name ++ fact.name ++ "-factlist")) c.m_context.nextTag ∧
      c1.m_nodeOutListPtrAddr = c.m_nodeOutListPtrAddr ++
        [k.keccak256 (rule.name ++ fact.name ++ "-factlist")] ∧
      c1.m_nodeOrder = c.m_nodeOrder ++ [c.m_context.nextTag] := by
  obtain ⟨⟨e, t⟩, order, addrs, cr, cf, fno, ef, efi⟩ := c
  simp only at hrule hentry
  subst hrule
  exact ⟨_, visitFactDeclaration_eq k fact rule e t order addrs cf fno ef efi hentry,
    emittedBy_reverseAux _ _ _ rfl, rfl, rfl⟩

/-! ### The source node -/

theorem source_enter (A out t ret : Nat) (stk : List Nat) (st mem : Nat → Nat) (fm : Nat)
    (ls : Nat → List Nat) (c : Nat) :
    run (sourceNodeItems A out t) 8 ⟨0, ret :: stk, st, mem, fm, ls, c, Status.running⟩ =
      ⟨8, setAt st out fm A :: 0 :: ret :: stk, setAt st out fm, mem, fm + 96, ls, c + 1,
        Status.running⟩ := by
  simp [sourceNodeItems, run, step, execItem, execOp, execAllocateMemory, Machine.next]

set_option maxRecDepth 100000 in
theorem source_iter (A out t ret : Nat) (stk : List Nat) (st mem : Nat → Nat) (fm : Nat)
    (ls : Nat → List Nat) (c i len : Nat) (hi : i < len) (hW : len < W) :
    run (sourceNodeItems A out t) 24
        ⟨8, len :: i :: ret :: stk, st, mem, fm, ls, c, Status.running⟩ =
      ⟨8, len :: (i + 1) :: ret :: stk, st, setAt mem fm (st (elemSlot A i)), fm + 32,
        setAt ls (st out) (ls (st out) ++ [fm]), c, Status.running⟩ := by
  have hslot : ((1 + i) % W + A) % W = elemSlot A i := rfl
  have hinc : (1 + i) % W = i + 1 := by
    rw [Nat.mod_eq_of_lt (by omega)]; omega
  simp [sourceNodeItems, run, step, execItem, execOp, execDynArr, execAllocateMemory, execExpression, Machine.next, boolWord, hi,
    hslot, Machine.jumpTo, tagPos]
  exact hinc

set_option maxRecDepth 100000 in
theorem source_exit (A out t ret : Nat) (stk : List Nat) (st mem : Nat → Nat) (fm : Nat)
    (ls : Nat → List Nat) (c i len : Nat) (hi : len ≤ i)
    (hret : ret < t ∨ t + 2 < ret) :
    run (sourceNodeItems A out t) 11
        ⟨8, len :: i :: ret :: stk, st, mem, fm, ls, c, Status.running⟩ =
      ⟨35, stk, st, mem, fm, ls, c, Status.jumpedOut ret⟩ := by
  have hi2 : ¬ i < len := by omega
  have h0 : ¬ t = ret := by omega
  have h1 : ¬ t + 1 = ret := by omega
  have h2 : ¬ t + 2 = ret := by omega
  simp [sourceNodeItems, run, step, execItem, execOp, Machine.next, boolWord, hi2,
    Machine.jumpTo, tagPos, h0, h1, h2]

theorem source_loop (A out t ret : Nat) (stk : List Nat) (st : Nat → Nat) (c len : Nat)
    (hW : len < W) (hret : ret < t ∨ t + 2 < ret) :
    ∀ (d i : Nat) (hp : Heap), i + d = len →
      run (sourceNodeItems A out t) (24 * d + 11)
          ⟨8, len :: i :: ret :: stk, st, hp.memory, hp.freeMemory, hp.lists, c,
            Status.running⟩ =
        ⟨35, stk, st,
          (sourceLoop (st out) ((List.range' i d).map (fun j => st (elemSlot A j))) hp).memory,
          (sourceLoop (st out) ((List.range' i d).map (fun j => st (elemSlot A j))) hp).freeMemory,
          (sourceLoop (st out) ((List.range' i d).map (fun j => st (elemSlot A j))) hp).lists,
          c, Status.jumpedOut ret⟩
  | 0, i, hp, h => by
      simpa [sourceLoop] using
        source_exit A out t ret stk st hp.memory hp.freeMemory hp.lists c i len (by omega) hret
  | d + 1, i, hp, h => by
      have hfuel : 24 * (d + 1) + 11 = 24 + (24 * d + 11) := by omega
      rw [hfuel, run_add,
        source_iter A out t ret stk st hp.memory hp.freeMemory hp.lists c i len (by omega) hW]
      have ih := source_loop A out t ret stk st c len hW hret d (i + 1)
        (hp.pushItem (st out) (st (elemSlot A i))) (by omega)
      simpa [sourceLoop, List.range'_succ, Heap.pushItem] using ih

theorem contents_pushItem (hp : Heap) (h v : Nat)
    (hwf : ∀ a, a ∈ hp.lists h → a < hp.freeMemory) :
    (hp.pushItem h v).contents h = hp.contents h ++ [v] := by
  have hl : (hp.pushItem h v).lists h = hp.lists h ++ [hp.freeMemory] := by
    simp [Heap.pushItem, setAt]
  have hm : (hp.pushItem h v).memory = setAt hp.memory hp.freeMemory v := rfl
  unfold Heap.contents
  rw [hl, hm, List.map_append]
  congr 1
  · apply List.map_congr_left
    intro a ha
    have := hwf a ha
    have hne : a ≠ hp.freeMemory := by omega
    simp [setAt, hne]
  · simp [setAt]

theorem source_node_run (A out t ret : Nat) (stk : List Nat) (st mem : Nat → Nat) (fm : Nat)
    (ls : Nat → List Nat) (c L : Nat) (hL : st A = L) (hW : L < W)
    (hA : out ≠ A) (hslots : ∀ j, j < L → out ≠ elemSlot A j)
    (hret : ret < t ∨ t + 2 < ret) :
    run (sourceNodeItems A out t) (24 * L + 19)
        ⟨0, ret :: stk, st, mem, fm, ls, c, Status.running⟩ =
      ⟨35, stk, setAt st out fm,
        (sourceLoop fm (liveList st A) ⟨mem, fm + 96, ls⟩).memory,
        (sourceLoop fm (liveList st A) ⟨mem, fm + 96, ls⟩).freeMemory,
        (sourceLoop fm (liveList st A) ⟨mem, fm + 96, ls⟩).lists,
        c + 1, Status.jumpedOut ret⟩ := by
  have hfuel : 24 * L + 19 = 8 + (24 * L + 11) := by omega
  have hlen : setAt st out fm A = L := by simp [setAt, Ne.symm hA, hL]
  have hout : setAt st out fm out = fm := by simp [setAt]
  have hvals : (List.range' 0 L).map (fun j => setAt st out fm (elemSlot A j))
      = liveList st A := by
    unfold liveList
    rw [hL, List.range_eq_range']
    apply List.map_congr_left
    intro j hj
    have hj2 : j < L := by simpa using hj
    have := hslots j hj2
    simp [setAt, Ne.symm this]
  rw [hfuel, run_add, source_enter, hlen]
  have h := source_loop A out t ret stk (setAt st out fm) (c + 1) L hW hret L 0
    ⟨mem, fm + 96, ls⟩ (by omega)
  rw [hout, hvals] at h
  exact h

theorem getElem?_append_two (prevs : List Nat) (a b : Nat) :
    (prevs ++ [a] ++ [b])[(prevs ++ [a] ++ [b]).length - 2]? = some a ∧
    (prevs ++ [a] ++ [b])[(prevs ++ [a] ++ [b]).length - 1]? = some b ∧
    2 ≤ (prevs ++ [a] ++ [b]).length := by
  refine ⟨?_, ?_, by simp⟩
  · have h : (prevs ++ [a] ++ [b]).length - 2 = prevs.length := by simp
    rw [h, List.append_assoc, List.getElem?_append_right (Nat.le_refl _)]
    simp
  · have h : (prevs ++ [a] ++ [b]).length - 1 = (prevs ++ [a]).length := by simp
    rw [h, List.getElem?_append_right (Nat.le_refl _)]
    simp

theorem visitFieldExpression_eq (k : Consts) (field : FieldExpression) (rule : Rule)
    (fact : FactDeclaration)
    (e : List AssemblyItem) (t : Nat) (order prevs : List Nat) (inPtr : Nat)
    (fno : Nat) (ef efi : List (Nat × Nat)) (hentry : efi.lookup field.id = none) :
    visitFieldExpression k
        { m_context := ⟨e, t⟩, m_nodeOrder := order, m_nodeOutListPtrAddr := prevs ++ [inPtr],
          m_currentRule := some rule, m_currentFact := some fact, m_currentFieldNo := fno,
          m_entryFact := ef, m_entryField := efi } field =
      some
        { m_context :=
            ⟨List.reverseAux
              (filterNodeItems inPtr
                (k.keccak256 (rule.name ++ "-" ++ fact.name ++ "-" ++ toString fno ++ "-factlist"))
                field.expression t) e, t + 4⟩,
          m_nodeOrder := order ++ [t],
          m_nodeOutListPtrAddr := prevs ++ [inPtr] ++
            [k.keccak256 (rule.name ++ "-" ++ fact.name ++ "-" ++ toString fno ++ "-factlist")],
          m_currentRule := some rule, m_currentFact := some fact, m_currentFieldNo := fno,
          m_entryFact := ef, m_entryField := (field.id, t) :: efi } := by
  obtain ⟨h1, h2, h3⟩ := getElem?_append_two prevs inPtr
    (k.keccak256 (rule.name ++ "-" ++ fact.name ++ "-" ++ toString fno ++ "-factlist"))
  simp only [visitFieldExpression, entryField, hentry]
  simp only [CompilerContext.newTag, Option.bind_eq_bind, Option.some_bind, h1, h2, h3, if_true]
  rfl

theorem filter_enter (inPtr out : Nat) (p : Nat → Nat) (t ret : Nat) (stk : List Nat)
    (st mem : Nat → Nat) (fm : Nat) (ls : Nat → List Nat) (c : Nat) :
    run (filterNodeItems inPtr out p t) 8
        ⟨0, ret :: stk, st, mem, fm, ls, c, Status.running⟩ =
      ⟨8, 0 :: setAt st out fm inPtr :: ret :: stk, setAt st out fm, mem, fm + 96, ls, c + 1,
        Status.running⟩ := by
  simp [filterNodeItems, run, step, execItem, execOp, execAllocateMemory, Machine.next]

set_option maxRecDepth 100000 in
theorem filter_iter_keep (inPtr out : Nat) (p : Nat → Nat) (t ret : Nat) (stk : List Nat)
    (st mem : Nat → Nat) (fm : Nat) (ls : Nat → List Nat) (c i hin cell : Nat)
    (hcell : (ls hin)[i]? = some cell) (hi : i < (ls hin).length)
    (hW : (ls hin).length < W) (hp : p (mem cell) ≠ 0) :
    run (filterNodeItems inPtr out p t) 26
        ⟨8, i :: hin :: ret :: stk, st, mem, fm, ls, c, Status.running⟩ =
      ⟨8, (i + 1) :: hin :: ret :: stk, st, setAt mem fm (mem cell), fm + 32,
        setAt ls (st out) (ls (st out) ++ [fm]), c, Status.running⟩ := by
  have hinc : (1 + i) % W = i + 1 := by
    rw [Nat.mod_eq_of_lt (by omega)]; omega
  simp [filterNodeItems, run, step, execItem, execOp, execDynArr, execAllocateMemory, execExpression, Machine.next, boolWord, hi,
    hcell, hp, Machine.jumpTo, tagPos]
  exact hinc

set_option maxRecDepth 100000 in
theorem filter_iter_skip (inPtr out : Nat) (p : Nat → Nat) (t ret : Nat) (stk : List Nat)
    (st mem : Nat → Nat) (fm : Nat) (ls : Nat → List Nat) (c i hin cell : Nat)
    (hcell : (ls hin)[i]? = some cell) (hi : i < (ls hin).length)
    (hW : (ls hin).length < W) (hp : p (mem cell) = 0) :
    run (filterNodeItems inPtr out p t) 22
        ⟨8, i :: hin :: ret :: stk, st, mem, fm, ls, c, Status.running⟩ =
      ⟨8, (i + 1) :: hin :: ret :: stk, st, mem, fm, ls, c, Status.running⟩ := by
  have hinc : (1 + i) % W = i + 1 := by
    rw [Nat.mod_eq_of_lt (by omega)]; omega
  simp [filterNodeItems, run, step, execItem, execOp, execDynArr, execAllocateMemory, execExpression, Machine.next, boolWord, hi,
    hcell, hp, Machine.jumpTo, tagPos]
  exact hinc

set_option maxRecDepth 100000 in
theorem filter_exit (inPtr out : Nat) (p : Nat → Nat) (t ret : Nat) (stk : List Nat)
    (st mem : Nat → Nat) (fm : Nat) (ls : Nat → List Nat) (c i hin : Nat)
    (hi : (ls hin).length ≤ i) (hret : ret < t ∨ t + 3 < ret) :
    run (filterNodeItems inPtr out p t) 12
        ⟨8, i :: hin :: ret :: stk, st, mem, fm, ls, c, Status.running⟩ =
      ⟨37, stk, st, mem, fm, ls, c, Status.jumpedOut ret⟩ := by
  have hi2 : ¬ i < (ls hin).length := by omega
  have h0 : ¬ t = ret := by omega
  have h1 : ¬ t + 1 = ret := by omega
  have h2 : ¬ t + 2 = ret := by omega
  have h3 : ¬ t + 3 = ret := by omega
  simp [filterNodeItems, run, step, execItem, execOp, execDynArr, execAllocateMemory, execExpression, Machine.next, boolWord, hi2,
    Machine.jumpTo, tagPos, h0, h1, h2, h3]

theorem filter_loop (inPtr out : Nat) (p : Nat → Nat) (t ret : Nat) (stk : List Nat)
    (st : Nat → Nat) (c hin : Nat) (hne : hin ≠ st out) (hret : ret < t ∨ t + 3 < ret) :
    ∀ (cs done : List Nat) (hp : Heap), hp.lists hin = done ++ cs →
      (done ++ cs).length < W →
      ∃ n, run (filterNodeItems inPtr out p t) n
          ⟨8, done.length :: hin :: ret :: stk, st, hp.memory, hp.freeMemory, hp.lists, c,
            Status.running⟩ =
        ⟨37, stk, st, (filterLoop p (st out) cs hp).memory,
          (filterLoop p (st out) cs hp).freeMemory, (filterLoop p (st out) cs hp).lists, c,
          Status.jumpedOut ret⟩
  | [], done, hp, hl, _ => by
      refine ⟨12, ?_⟩
      simpa [filterLoop] using
        filter_exit inPtr out p t ret stk st hp.memory hp.freeMemory hp.lists c done.length hin
          (by rw [hl]; simp) hret
  | cell :: cs, done, hp, hl, hW => by
      have hcell : (hp.lists hin)[done.length]? = some cell := by
        rw [hl, List.getElem?_append_right (Nat.le_refl _)]
        simp
      have hi : done.length < (hp.lists hin).length := by rw [hl]; simp
      have hW2 : (hp.lists hin).length < W := by rw [hl]; exact hW
      by_cases hpz : p (hp.memory cell) = 0
      · obtain ⟨n, hn⟩ := filter_loop inPtr out p t ret stk st c hin hne hret cs (done ++ [cell])
          hp (by rw [hl]; simp) (by simpa using hW)
        refine ⟨22 + n, ?_⟩
        rw [run_add, filter_iter_skip inPtr out p t ret stk st hp.memory hp.freeMemory hp.lists
          c done.length hin cell hcell hi hW2 hpz]
        simp only [List.length_append, List.length_singleton] at hn
        rw [hn]
        simp [filterLoop, hpz]
      · obtain ⟨n, hn⟩ := filter_loop inPtr out p t ret stk st c hin hne hret cs (done ++ [cell])
          (hp.pushItem (st out) (hp.memory cell))
          (by simp [Heap.pushItem, setAt, hne, hl]) (by simpa using hW)
        refine ⟨26 + n, ?_⟩
        rw [run_add, filter_iter_keep inPtr out p t ret stk st hp.memory hp.freeMemory hp.lists
          c done.length hin cell hcell hi hW2 hpz]
        simp only [List.length_append, List.length_singleton] at hn
        have hn2 := hn
        simp only [Heap.pushItem] at hn2
        rw [hn2]
        simp [filterLoop, hpz, Heap.pushItem]

theorem filterLoop_spec (p : Nat → Nat) (h : Nat) : ∀ (cs : List Nat) (hp : Heap),
    (∀ a, a ∈ hp.lists h → a < hp.freeMemory) →
    (∀ a, a ∈ cs → a < hp.freeMemory) →
    (filterLoop p h cs hp).contents h
      = hp.contents h ++ (cs.map hp.memory).filter (fun v => decide (p v ≠ 0)) ∧
    (∀ a, a < hp.freeMemory → (filterLoop p h cs hp).memory a = hp.memory a) ∧
    (∀ g, g ≠ h → (filterLoop p h cs hp).lists g = hp.lists g) ∧
    hp.freeMemory ≤ (filterLoop p h cs hp).freeMemory
  | [], hp, _, _ => by simp [filterLoop]
  | cell :: cs, hp, hwf, hcs => by
      by_cases hpz : p (hp.memory cell) = 0
      · obtain ⟨h1, h2, h3, h4⟩ := filterLoop_spec p h cs hp hwf
          (fun a ha => hcs a (List.mem_cons_of_mem _ ha))
        simp only [filterLoop, hpz, if_true]
        refine ⟨?_, h2, h3, h4⟩
        rw [h1]
        simp [hpz]
      · have hwf1 : ∀ a, a ∈ (hp.pushItem h (hp.memory cell)).lists h →
            a < (hp.pushItem h (hp.memory cell)).freeMemory := by
          intro a ha
          simp only [Heap.pushItem, setAt, if_true, List.mem_append, List.mem_singleton] at ha ⊢
          rcases ha with ha | ha
          · have := hwf a ha; omega
          · omega
        have hcs1 : ∀ a, a ∈ cs → a < (hp.pushItem h (hp.memory cell)).freeMemory := by
          intro a ha
          have := hcs a (List.mem_cons_of_mem _ ha)
          simp only [Heap.pushItem]; omega
        obtain ⟨h1, h2, h3, h4⟩ :=
          filterLoop_spec p h cs (hp.pushItem h (hp.memory cell)) hwf1 hcs1
        have hmem : ∀ a, a < hp.freeMemory →
            (hp.pushItem h (hp.memory cell)).memory a = hp.memory a := by
          intro a ha
          have hne : a ≠ hp.freeMemory := by omega
          simp [Heap.pushItem, setAt, hne]
        have hmap : cs.map (hp.pushItem h (hp.memory cell)).memory = cs.map hp.memory := by
          apply List.map_congr_left
          intro a ha
          exact hmem a (hcs a (List.mem_cons_of_mem _ ha))
        simp only [filterLoop, hpz, if_false]
        refine ⟨?_, ?_, ?_, ?_⟩
        · rw [h1, contents_pushItem hp h _ hwf, hmap]
          simp [hpz]
        · intro a ha
          rw [h2 a (by simp only [Heap.pushItem]; omega), hmem a ha]
        · intro g hg
          rw [h3 g hg]
          simp [Heap.pushItem, setAt, hg]
        · have : hp.freeMemory ≤ (hp.pushItem h (hp.memory cell)).freeMemory := by
            simp only [Heap.pushItem]; omega
          omega

theorem visitFieldExpression_code (k : Consts) (c : RuleEngineCompiler)
    (field : FieldExpression) (rule : Rule) (fact : FactDeclaration) (inPtr : Nat)
    (hrule : c.m_currentRule = some rule) (hfact : c.m_currentFact = some fact)
    (hentry : c.m_entryField.lookup field.id = none)
    (hin : c.m_nodeOutListPtrAddr.getLast? = some inPtr) :
    ∃ c1, visitFieldExpression k c field = some c1 ∧
      emittedBy c c1 =
        filterNodeItems inPtr
          (k.keccak256 (rule.name ++ "-" ++ fact.name ++ "-" ++ toString c.m_currentFieldNo
            ++ "-factlist"))
          field.expression c.m_context.nextTag := by
  obtain ⟨⟨e, t⟩, order, addrs, cr, cf, fno, ef, efi⟩ := c
  simp only at hrule hfact hentry hin
  subst hrule hfact
  obtain ⟨prevs, rfl⟩ : ∃ prevs, addrs = prevs ++ [inPtr] := by
    rcases List.eq_nil_or_concat addrs with h | ⟨prevs, a, h⟩
    · subst h; simp at hin
    · subst h
      rw [List.concat_eq_append, List.getLast?_concat] at hin
      have ha : a = inPtr := Option.some.inj hin
      subst ha
      exact ⟨prevs, by simp⟩
  exact ⟨_, visitFieldExpression_eq k field rule fact e t order prevs inPtr fno ef efi hentry,
    emittedBy_reverseAux _ _ _ rfl⟩

theorem filter_node_run (inPtr out : Nat) (p : Nat → Nat) (t ret : Nat) (stk : List Nat)
    (st mem : Nat → Nat) (fm : Nat) (ls : Nat → List Nat) (c hin : Nat)
    (hptr : inPtr ≠ out) (hH : st inPtr = hin) (hlen : (ls hin).length < W)
    (hne : hin ≠ fm) (hret : ret < t ∨ t + 3 < ret) :
    ∃ n, run (filterNodeItems inPtr out p t) n
        ⟨0, ret :: stk, st, mem, fm, ls, c, Status.running⟩ =
      ⟨37, stk, setAt st out fm,
        (filterLoop p fm (ls hin) ⟨mem, fm + 96, ls⟩).memory,
        (filterLoop p fm (ls hin) ⟨mem, fm + 96, ls⟩).freeMemory,
        (filterLoop p fm (ls hin) ⟨mem, fm + 96, ls⟩).lists,
        c + 1, Status.jumpedOut ret⟩ := by
  have hout : setAt st out fm out = fm := by simp [setAt]
  have hinv : setAt st out fm inPtr = hin := by simp [setAt, hptr, hH]
  obtain ⟨n, hn⟩ := filter_loop inPtr out p t ret stk (setAt st out fm) (c + 1) hin
    (by rw [hout]; exact hne) hret (ls hin) [] ⟨mem, fm + 96, ls⟩ (by simp) (by simpa using hlen)
  refine ⟨8 + n, ?_⟩
  rw [run_add, filter_enter, hinv]
  rw [hout] at hn
  exact hn

/-- C7: for the input transient list produced by the predecessor node (its
pointer stored at the predecessor's slot, its header and cells allocated
before the node runs) and the predicate `p` of the field expression, the
filter node emitted by `visit(FieldExpression)` returns to the label it found
on the stack with its output list holding exactly the input elements on which
`p` is non-zero, in input order, and with the input list unchanged. -/
theorem filter_node_filters (k : Consts) (c : RuleEngineCompiler)
    (field : FieldExpression) (rule : Rule) (fact : FactDeclaration)
    (inPtr out hdr ret : Nat) (stk : List Nat) (s0 : Machine)
    (hrule : c.m_currentRule = some rule) (hfact : c.m_currentFact = some fact)
    (hentry : c.m_entryField.lookup field.id = none)
    (hlast : c.m_nodeOutListPtrAddr.getLast? = some inPtr)
    (hout : k.keccak256 (rule.name ++ "-" ++ fact.name ++ "-" ++ toString c.m_currentFieldNo
      ++ "-factlist") = out)
    (hpc : s0.pc = 0) (hstack : s0.stack = ret :: stk) (hstatus : s0.status = Status.running)
    (hptr : inPtr ≠ out) (hH : s0.storage inPtr = hdr)
    (hlen : (s0.lists hdr).length < W)
    (halloc : hdr < s0.freeMemory)
    (hcells : ∀ a, a ∈ s0.lists hdr → a < s0.freeMemory)
    (hfresh : s0.lists s0.freeMemory = [])
    (hret : ret < c.m_context.nextTag ∨ c.m_context.nextTag + 3 < ret) :
    ∃ c1, visitFieldExpression k c field = some c1 ∧
      ∃ n, ∀ m, n ≤ m →
        let s := run (emittedBy c c1) m s0
        s.status = Status.jumpedOut ret ∧ s.stack = stk ∧
        listContents s (s.storage out)
          = (listContents s0 hdr).filter (fun e => decide (field.expression e ≠ 0)) ∧
        s.storage inPtr = hdr ∧
        s.lists hdr = s0.lists hdr ∧
        listContents s hdr = listContents s0 hdr ∧
        (∀ x, x ≠ out → s.storage x = s0.storage x) := by
  obtain ⟨c1, hc1, hcode⟩ :=
    visitFieldExpression_code k c field rule fact inPtr hrule hfact hentry hlast
  refine ⟨c1, hc1, ?_⟩
  obtain ⟨pc, stack, st, mem, fm, ls, cnt, status⟩ := s0
  simp only at hpc hstack hstatus hH hlen halloc hcells hfresh
  subst hpc hstack hstatus
  rw [hout] at hcode
  obtain ⟨n, hrun⟩ := filter_node_run inPtr out field.expression c.m_context.nextTag ret stk st
    mem fm ls cnt hdr hptr hH hlen (by omega) hret
  refine ⟨n, ?_⟩
  intro m hm s
  have hs : s = ⟨37, stk, setAt st out fm,
      (filterLoop field.expression fm (ls hdr) ⟨mem, fm + 96, ls⟩).memory,
      (filterLoop field.expression fm (ls hdr) ⟨mem, fm + 96, ls⟩).freeMemory,
      (filterLoop field.expression fm (ls hdr) ⟨mem, fm + 96, ls⟩).lists,
      cnt + 1, Status.jumpedOut ret⟩ := by
    show run (emittedBy c c1) m _ = _
    rw [hcode, run_of_le _ n m _ hm (by rw [hrun]; simp), hrun]
  obtain ⟨h1, h2, h3, _⟩ := filterLoop_spec field.expression fm (ls hdr) ⟨mem, fm + 96, ls⟩
    (by intro a ha; simp only [hfresh] at ha; cases ha)
    (by intro a ha; have := hcells a ha; simp only; omega)
  have hlists : (filterLoop field.expression fm (ls hdr) ⟨mem, fm + 96, ls⟩).lists hdr
      = ls hdr := h3 hdr (by omega)
  have hsame : List.map (filterLoop field.expression fm (ls hdr) ⟨mem, fm + 96, ls⟩).memory
      (ls hdr) = List.map mem (ls hdr) := by
    apply List.map_congr_left
    intro a ha
    exact h2 a (by have := hcells a ha; simp only; omega)
  refine ⟨by rw [hs], by rw [hs], ?_, ?_, ?_, ?_, ?_⟩
  · rw [hs]
    have ho : setAt st out fm out = fm := by simp [setAt]
    show Heap.contents _ (setAt st out fm out) = _
    rw [ho]
    simp only [Heap.contents, hfresh, List.map_nil, List.nil_append] at h1
    exact h1
  · rw [hs]
    simp [setAt, hptr, hH]
  · rw [hs]
    exact hlists
  · rw [hs]
    show List.map _ ((filterLoop field.expression fm (ls hdr) ⟨mem, fm + 96, ls⟩).lists hdr)
      = List.map mem (ls hdr)
    rw [hlists]
    exact hsame
  · intro x hx
    rw [hs]
    simp [setAt, hx]

/-! ### Worked examples for the nodes -/

/-- Witness for C7: the filter of the example on the input list `[7, 8]`. -/
theorem filter_node_filters_witness :
    ∃ c1, visitFieldExpression nodeConsts filterCompiler exampleField = some c1 ∧
      ∃ n, listContents (run (emittedBy filterCompiler c1) n filterStart)
        ((run (emittedBy filterCompiler c1) n filterStart).storage 3014) = [8] := by
  obtain ⟨c1, h1, n, h2⟩ := filter_node_filters nodeConsts filterCompiler exampleField
    exampleRule exampleFact 3011 3014 200 50 [] filterStart rfl rfl rfl rfl (by decide)
    rfl rfl rfl (by decide) (by decide) (by unfold W; decide) (by decide)
    (by intro a ha; simp [filterStart] at ha; rcases ha with h | h <;> subst h <;> decide)
    (by decide) (by decide)
  refine ⟨c1, h1, n, ?_⟩
  have h3 := (h2 n (Nat.le_refl n)).2.2.1
  rw [h3]
  decide

/-! ### Insert followed by delete -/

theorem insertedStorage_rev (k : Consts) (ty : String) (st : Nat → Nat) (id : Nat)
    (hA : reverseIndexSlot k id ≠ listOfThisType k ty)
    (hE : reverseIndexSlot k id ≠ listOfThisType k ty + 1 + st (listOfThisType k ty)) :
    insertedStorage k ty st id (reverseIndexSlot k id) = listOfThisType k ty := by
  simp [insertedStorage, setAt, hA, hE]

theorem insertedStorage_length (k : Consts) (ty : String) (st : Nat → Nat) (id : Nat) :
    insertedStorage k ty st id (listOfThisType k ty) = st (listOfThisType k ty) + 1 := by
  have h : listOfThisType k ty ≠ listOfThisType k ty + 1 + st (listOfThisType k ty) := by omega
  simp [insertedStorage, setAt, h]

theorem insertedStorage_last (k : Consts) (ty : String) (st : Nat → Nat) (id : Nat) :
    insertedStorage k ty st id (listOfThisType k ty + 1 + st (listOfThisType k ty)) = id := by
  simp [insertedStorage, setAt]

theorem insertedStorage_other (k : Consts) (ty : String) (st : Nat → Nat) (id x : Nat)
    (hR : x ≠ reverseIndexSlot k id) (hA : x ≠ listOfThisType k ty)
    (hE : x ≠ listOfThisType k ty + 1 + st (listOfThisType k ty)) :
    insertedStorage k ty st id x = st x := by
  simp [insertedStorage, setAt, hA, hE, hR]

/-- C18: for a persistent list of length `L` at address `A` that does not
contain `id` (lock clear, `A + L + 1` not wrapping, the reverse-index slot of
`id` and the lock slot not among the list slots), the insert code run on `id`
and then the delete code run on `id` both stop normally and leave
`storage[A] = L` and every element slot `A+1..A+L` as before, so the live list
is the same list in the same order: the inserted identifier sits at index `L`,
where the scan finds it and swap-removes it with itself. -/
theorem insert_then_delete_identity (k : Consts) (ty : String) (t0 t1 : Nat) (st : Nat → Nat)
    (id L : Nat)
    (hlock : st k.ruleEngineLockLocation = 0)
    (hL : st (listOfThisType k ty) = L)
    (hwrap : listOfThisType k ty + L + 1 < W)
    (hnot : ∀ j, j < L → st (listOfThisType k ty + 1 + j) ≠ id)
    (hrev : ∀ j, j ≤ L + 1 → reverseIndexSlot k id ≠ listOfThisType k ty + j)
    (hlk : ∀ j, j ≤ L + 1 → k.ruleEngineLockLocation ≠ listOfThisType k ty + j)
    (hlk2 : reverseIndexSlot k id ≠ k.ruleEngineLockLocation) :
    ∃ st1 st2, factInsertOp k ty t0 st id = some st1 ∧
      factDeleteOp k t1 (22 * L + 63) st1 id = some st2 ∧
      st1 (listOfThisType k ty) = L + 1 ∧
      st1 (listOfThisType k ty + 1 + L) = id ∧
      st2 (listOfThisType k ty) = L ∧
      (∀ j, 1 ≤ j → j ≤ L → st2 (listOfThisType k ty + j) = st (listOfThisType k ty + j)) ∧
      liveList st2 (listOfThisType k ty) = liveList st (listOfThisType k ty) := by
  have hrevA : reverseIndexSlot k id ≠ listOfThisType k ty := by
    have := hrev 0 (by omega); simpa using this
  have hrevE : reverseIndexSlot k id ≠ listOfThisType k ty + 1 + st (listOfThisType k ty) := by
    have := hrev (1 + L) (by omega); rw [hL]; omega
  have hins := factInsertOp_eq k ty t0 st id hlock (by rw [hL]; exact hwrap) hrevA
  have h1A : insertedStorage k ty st id (reverseIndexSlot k id) = listOfThisType k ty :=
    insertedStorage_rev k ty st id hrevA hrevE
  have h1len : insertedStorage k ty st id (listOfThisType k ty) = L + 1 := by
    rw [insertedStorage_length, hL]
  have h1last : insertedStorage k ty st id (listOfThisType k ty + 1 + L) = id := by
    have := insertedStorage_last k ty st id; rw [hL] at this; exact this
  have h1old : ∀ j, j < L →
      insertedStorage k ty st id (listOfThisType k ty + 1 + j) = st (listOfThisType k ty + 1 + j) := by
    intro j hj
    apply insertedStorage_other
    · have := hrev (1 + j) (by omega); intro h; apply this; rw [← h]; omega
    · omega
    · rw [hL]; omega
  have h1lock : insertedStorage k ty st id k.ruleEngineLockLocation = 0 := by
    rw [insertedStorage_other, hlock]
    · exact fun h => hlk2 h.symm
    · have := hlk 0 (by omega); simpa using this
    · have := hlk (1 + L) (by omega); rw [hL]; omega
  have hrun := factDelete_run_found k t1 (insertedStorage k ty st id) id [] L h1lock
    (by rw [h1A, h1len]; omega) (by rw [h1A, h1len]; omega)
    (by
      intro j hj h
      rw [h1A, elemSlot_eq _ j (by omega), h1old j hj] at h
      exact hnot j hj h)
    (by rw [h1A, elemSlot_eq _ L (by omega), h1last])
  rw [h1A] at hrun
  have hfuel : 11 + 22 * L + 18 + 34 = 22 * L + 63 := by omega
  rw [hfuel] at hrun
  have h2 : ∀ j, 1 ≤ j → j ≤ L →
      deletedStorage (insertedStorage k ty st id) (listOfThisType k ty) L
        (listOfThisType k ty + j) = st (listOfThisType k ty + j) := by
    intro j hj1 hjL
    rw [deletedStorage_other _ _ _ _ (by omega)
      (by rw [elemSlot_eq _ L (by omega)]; omega)]
    have := h1old (j - 1) (by omega)
    have e : listOfThisType k ty + 1 + (j - 1) = listOfThisType k ty + j := by omega
    rw [e] at this
    exact this
  have h2len : deletedStorage (insertedStorage k ty st id) (listOfThisType k ty) L
      (listOfThisType k ty) = L := by
    rw [deletedStorage_length, h1len]; omega
  refine ⟨insertedStorage k ty st id, _, hins, ?_, h1len, h1last, h2len, h2, ?_⟩
  · unfold factDeleteOp runToStop
    rw [hrun]
    simp [stateAt]
  · apply List.ext_getElem?
    intro j
    by_cases hj : j < L
    · rw [liveList_getElem? _ _ j (by rw [h2len]; exact hj),
        liveList_getElem? _ _ j (by rw [hL]; exact hj), elemSlot_eq _ j (by omega)]
      have := h2 (1 + j) (by omega) (by omega)
      have e : listOfThisType k ty + (1 + j) = listOfThisType k ty + 1 + j := by omega
      rw [e] at this
      rw [this]
    · rw [List.getElem?_eq_none (by rw [liveList_length, h2len]; omega),
        List.getElem?_eq_none (by rw [liveList_length, hL]; omega)]

theorem insert_then_delete_identity_witness :
    ∃ st1 st2, factInsertOp exampleConsts "Order" 0 exampleStorage 5 = some st1 ∧
      factDeleteOp exampleConsts 0 (22 * 3 + 63) st1 5 = some st2 ∧
      st1 1000 = 3 + 1 ∧ st1 (1000 + 1 + 3) = 5 ∧ st2 1000 = 3 ∧
      (∀ j, 1 ≤ j → j ≤ 3 → st2 (1000 + j) = exampleStorage (1000 + j)) ∧
      liveList st2 1000 = liveList exampleStorage 1000 :=
  insert_then_delete_identity exampleConsts "Order" 0 0 exampleStorage 5 3
    (by decide) (by decide) (by unfold W; decide)
    (by intro j hj; interval_cases j <;> decide)
    (by intro j hj; interval_cases j <;> decide)
    (by intro j hj; interval_cases j <;> decide)
    (by decide)

/-! ### The keys of the lists -/

theorem insert_key_ne_source_key (r : String) : r ++ "_ptr-factlist" ≠ r ++ "-factlist" := by
  intro h
  have h1 := congrArg String.length h
  rw [String.length_append, String.length_append] at h1
  have h2 : "_ptr-factlist".length = 13 := by decide
  have h3 : "-factlist".length = 9 := by decide
  omega

theorem insert_key_eq_pointer_source_key (k : Consts) (r : String) :
    listOfThisType k r = k.keccak256 ((r ++ "_ptr") ++ "-factlist") := by
  unfold listOfThisType
  rw [String.append_assoc]
  rfl

/-- C14 fails on the code: `appendFactInsert` hashes the rich identifier
followed by `_ptr-factlist`, the source node of `visit(FactDeclaration)` hashes
the rich identifier followed by `-factlist`.  For one and the same rich
identifier the two key strings differ, and the insert key is the source key of
the identifier with `_ptr` appended.  With a hash that tells the two keys
apart and the type identifier `Order`: insert appends to the list at 3018, the
source node compiled for a fact declaration of that type reads the list at
3014, and after inserting identifier 5 the list at 3018 is `[5]` while the
source node materialises the empty list. -/
theorem insert_list_differs_from_source_list :
    (∀ r : String, r ++ "_ptr-factlist" ≠ r ++ "-factlist") ∧
    (∀ (k : Consts) (r : String),
      listOfThisType k r = k.keccak256 ((r ++ "_ptr") ++ "-factlist")) ∧
    listOfThisType nodeConsts exampleFact.typeRichIdentifier = 3018 ∧
    (∃ c1, visitFactDeclaration nodeConsts (visitRule (RuleEngineCompiler.fresh 0) exampleRule)
        exampleFact = some c1 ∧
      emittedBy (visitRule (RuleEngineCompiler.fresh 0) exampleRule) c1 =
        sourceNodeItems 3014 3011 0) ∧
    (∃ st1, factInsertOp nodeConsts exampleFact.typeRichIdentifier 0 (fun _ => 0) 5 = some st1 ∧
      liveList st1 3018 = [5] ∧ liveList st1 3014 = [] ∧
      ∀ n, 19 ≤ n →
        listContents (run (sourceNodeItems 3014 3011 0) n (Machine.start [50] st1))
          ((run (sourceNodeItems 3014 3011 0) n (Machine.start [50] st1)).storage 3011) = []) := by
  refine ⟨insert_key_ne_source_key, insert_key_eq_pointer_source_key, by decide, ?_, ?_⟩
  · obtain ⟨c1, hc1, hcode, _, _⟩ := visitFactDeclaration_code nodeConsts
      (visitRule (RuleEngineCompiler.fresh 0) exampleRule) exampleFact exampleRule rfl rfl
    have h1 : nodeConsts.keccak256 (exampleFact.typeRichIdentifier ++ "-factlist") = 3014 := by
      decide
    have h2 : nodeConsts.keccak256 (exampleRule.name ++ exampleFact.name ++ "-factlist")
        = 3011 := by decide
    rw [h1, h2] at hcode
    exact ⟨c1, hc1, hcode⟩
  · have hA : listOfThisType nodeConsts exampleFact.typeRichIdentifier = 3018 := by decide
    have hins := factInsertOp_eq nodeConsts exampleFact.typeRichIdentifier 0 (fun _ => 0) 5
      rfl (by rw [hA]; unfold W; decide) (by rw [hA]; decide)
    refine ⟨_, hins, ?_, ?_, ?_⟩
    · simp only [liveList, insertedStorage, hA]
      simp [setAt, elemSlot, reverseIndexSlot, W, List.range_succ, nodeConsts]
    · simp only [liveList, insertedStorage, hA]
      simp [setAt, elemSlot, reverseIndexSlot, W, nodeConsts]
    · intro n hn
      have h0 : insertedStorage nodeConsts exampleFact.typeRichIdentifier (fun _ => 0) 5 3014 = 0 := by
        simp only [insertedStorage, hA]
        simp [setAt, reverseIndexSlot, nodeConsts]
      have hrun := source_node_run 3014 3011 0 50 [] _ (fun _ => 0) 128 (fun _ => []) 0 0 h0
        W_pos (by decide) (by intro j hj; omega) (by omega)
      have hst : Machine.start [50]
          (insertedStorage nodeConsts exampleFact.typeRichIdentifier (fun _ => 0) 5) =
          ⟨0, [50], insertedStorage nodeConsts exampleFact.typeRichIdentifier (fun _ => 0) 5,
            fun _ => 0, 128, fun _ => [], 0, Status.running⟩ := rfl
      rw [hst, run_of_le _ (24 * 0 + 19) n _ (by omega) (by rw [hrun]; simp), hrun]
      simp [listContents, Machine.heap, Heap.contents, liveList, h0, sourceLoop, setAt]

/-- C15 fails on the code: the key of a source node's list is the rule name
followed directly by the fact name, with no separator, so the source node of
fact `c` in rule `ab` and the source node of fact `bc` in rule `a`, which
differ in rule name and in fact name, get the same key string, hence under
every hash the same pointer slot: compiled one after the other by one
compiler they record the same address twice. -/
theorem source_node_keys_collide (k : Consts) (t : Nat) :
    (ruleAB.name ≠ ruleA.name ∧ factC.name ≠ factBC.name) ∧
    ruleAB.name ++ factC.name ++ "-factlist" = ruleA.name ++ factBC.name ++ "-factlist" ∧
    ∃ c1 c2 x,
      visitFactDeclaration k (visitRule (RuleEngineCompiler.fresh t) ruleAB) factC = some c1 ∧
      visitFactDeclaration k
        (visitRule (endVisitRule (endVisitFactDeclaration c1)) ruleA) factBC = some c2 ∧
      c1.m_nodeOutListPtrAddr = [x] ∧
      c2.m_nodeOutListPtrAddr = [x, x] := by
  refine ⟨⟨by decide, by decide⟩, by decide, ?_⟩
  obtain ⟨c1, hc1, _, haddr1, _⟩ := visitFactDeclaration_code k
    (visitRule (RuleEngineCompiler.fresh t) ruleAB) factC ruleAB rfl rfl
  have hef : c1.m_entryFact = [(1, t)] := by
    have := visitFactDeclaration_eq k factC ruleAB [] t [] [] none 0 [] [] rfl
    have e : visitRule (RuleEngineCompiler.fresh t) ruleAB =
        { m_context := ⟨[], t⟩, m_nodeOrder := [], m_nodeOutListPtrAddr := [],
          m_currentRule := some ruleAB, m_currentFact := none, m_currentFieldNo := 0,
          m_entryFact := [], m_entryField := [] } := rfl
    rw [e, this] at hc1
    rw [← Option.some.inj hc1]
    rfl
  obtain ⟨c2, hc2, _, haddr2, _⟩ := visitFactDeclaration_code k
    (visitRule (endVisitRule (endVisitFactDeclaration c1)) ruleA) factBC ruleA rfl
    (by show c1.m_entryFact.lookup 2 = none; rw [hef]; rfl)
  refine ⟨c1, c2, k.keccak256 (ruleAB.name ++ factC.name ++ "-factlist"), hc1, hc2, ?_, ?_⟩
  · rw [haddr1]; rfl
  · rw [haddr2]
    show c1.m_nodeOutListPtrAddr ++ _ = _
    rw [haddr1]
    rfl

/-! ### The clean-up pass -/

theorem cleanUp_fold (ptrs : List Nat) : ∀ (e : List AssemblyItem) (n : Nat),
    (ptrs.foldl (fun m ptr => ((CompilerContext.push m ptr).op .SLOAD).dynArr .clearArray)
      ⟨e, n⟩).items = e.reverse ++ cleanUpItems ptrs := by
  induction ptrs with
  | nil => intro e n; simp [CompilerContext.items, cleanUpItems]
  | cons p ps ih =>
      intro e n
      have h : ((CompilerContext.push ⟨e, n⟩ p).op .SLOAD).dynArr .clearArray
          = ⟨AssemblyItem.dynArr .clearArray :: op .SLOAD :: push p :: e, n⟩ := rfl
      rw [List.foldl_cons, h, ih]
      simp [cleanUpItems]

theorem appendCleanUpNodes_code (c : RuleEngineCompiler) :
    emittedBy c (appendCleanUpNodes c) = cleanUpItems c.m_nodeOutListPtrAddr := by
  obtain ⟨⟨e, n⟩, order, addrs, cr, cf, fno, ef, efi⟩ := c
  unfold emittedBy appendCleanUpNodes
  simp only
  rw [cleanUp_fold]
  simp [CompilerContext.items]

theorem getElem?_append_offset (pre post : List AssemblyItem) (j : Nat) :
    (pre ++ post)[pre.length + j]? = post[j]? := by
  rw [List.getElem?_append_right (by omega)]
  congr 1
  omega

theorem cleanUp_run (st mem : Nat → Nat) (fm c : Nat) (stk : List Nat) :
    ∀ (ptrs : List Nat) (pre : List AssemblyItem) (ls : Nat → List Nat),
      run (pre ++ cleanUpItems ptrs) (3 * ptrs.length)
          ⟨pre.length, stk, st, mem, fm, ls, c, Status.running⟩ =
        ⟨pre.length + 3 * ptrs.length, stk, st, mem, fm, clearAll st ptrs ls, c,
          Status.running⟩
  | [], pre, ls => by simp [run, clearAll]
  | p :: ps, pre, ls => by
      have hfuel : 3 * (p :: ps).length = 3 + 3 * ps.length := by simp; omega
      have h0 : (pre ++ cleanUpItems (p :: ps))[pre.length]? = some (push p) := by
        have := getElem?_append_offset pre (cleanUpItems (p :: ps)) 0
        rw [Nat.add_zero] at this
        rw [this]; rfl
      have h1 : (pre ++ cleanUpItems (p :: ps))[pre.length + 1]? = some (op .SLOAD) := by
        rw [getElem?_append_offset]; rfl
      have h2 : (pre ++ cleanUpItems (p :: ps))[pre.length + 2]?
          = some (AssemblyItem.dynArr .clearArray) := by
        rw [getElem?_append_offset]; simp [cleanUpItems]
      have h3 : run (pre ++ cleanUpItems (p :: ps)) 3
          ⟨pre.length, stk, st, mem, fm, ls, c, Status.running⟩ =
          ⟨pre.length + 3, stk, st, mem, fm, setAt ls (st p) [], c, Status.running⟩ := by
        simp [run, step, h0, h1, h2, execItem, execOp, execDynArr, Machine.next]
      have hsplit : pre ++ cleanUpItems (p :: ps)
          = (pre ++ [push p, op .SLOAD, AssemblyItem.dynArr .clearArray]) ++ cleanUpItems ps := by
        simp [cleanUpItems]
      have ih := cleanUp_run st mem fm c stk ps
        (pre ++ [push p, op .SLOAD, AssemblyItem.dynArr .clearArray]) (setAt ls (st p) [])
      rw [hfuel, run_add, h3, hsplit]
      simp only [List.length_append, List.length_cons, List.length_nil] at ih
      rw [ih]
      simp [clearAll]
      omega

theorem clearAll_other (st : Nat → Nat) (h : Nat) : ∀ (ptrs : List Nat) (ls : Nat → List Nat),
    (∀ p, p ∈ ptrs → st p ≠ h) → clearAll st ptrs ls h = ls h
  | [], _, _ => rfl
  | p :: ps, ls, hne => by
      rw [clearAll, clearAll_other st h ps _ (fun q hq => hne q (List.mem_cons_of_mem _ hq))]
      have := hne p (List.mem_cons_self _ _)
      simp [setAt, Ne.symm this]

theorem clearAll_cleared (st : Nat → Nat) : ∀ (ptrs : List Nat) (ls : Nat → List Nat) (p : Nat),
    p ∈ ptrs → clearAll st ptrs ls (st p) = []
  | [], _, _, h => by cases h
  | q :: qs, ls, p, h => by
      rw [clearAll]
      by_cases hin : p ∈ qs
      · exact clearAll_cleared st qs _ p hin
      · have hpq : p = q := by
          rcases List.mem_cons.mp h with h | h
          · exact h
          · exact absurd h hin
        subst hpq
        by_cases hex : ∃ r, r ∈ qs ∧ st r = st p
        · obtain ⟨r, hr, hrp⟩ := hex
          rw [← hrp]
          exact clearAll_cleared st qs _ r hr
        · rw [clearAll_other st (st p) qs _ (fun r hr hrp => hex ⟨r, hr, hrp⟩)]
          simp [setAt]

theorem cleanUp_run_stop (st mem : Nat → Nat) (fm c : Nat) (stk : List Nat)
    (ls : Nat → List Nat) (ptrs : List Nat) :
    run (cleanUpItems ptrs) (3 * ptrs.length + 1)
        ⟨0, stk, st, mem, fm, ls, c, Status.running⟩ =
      ⟨3 * ptrs.length, stk, st, mem, fm, clearAll st ptrs ls, c, Status.stopped⟩ := by
  have h := cleanUp_run st mem fm c stk ptrs [] ls
  simp only [List.nil_append, List.length_nil, Nat.zero_add] at h
  have hlen : ∀ qs : List Nat, (cleanUpItems qs).length = 3 * qs.length := by
    intro qs
    induction qs with
    | nil => rfl
    | cons q qs ih => simp [cleanUpItems, ih]; omega
  have hnone : (cleanUpItems ptrs)[3 * ptrs.length]? = none :=
    List.getElem?_eq_none (by rw [hlen])
  rw [run_add, h]
  simp [run, step, hnone]

/-- C13: the code emitted by `appendCleanUpNodes`, run from its first item,
takes three steps per recorded pointer slot and stops; afterwards the
transient list named by every slot recorded in `m_nodeOutListPtrAddr` has
length zero, the stack and the memory cells are as before, and no `SSTORE` has
been executed: the whole storage (persistent lists and their lengths, reverse
index, engine lock, re-evaluation flag) is as before. -/
theorem cleanUp_clears_lists (c : RuleEngineCompiler) (s0 : Machine)
    (hpc : s0.pc = 0) (hstatus : s0.status = Status.running) :
    ∀ n, 3 * c.m_nodeOutListPtrAddr.length + 1 ≤ n →
      (run (emittedBy c (appendCleanUpNodes c)) n s0).status = Status.stopped ∧
      (∀ ptr, ptr ∈ c.m_nodeOutListPtrAddr →
        ((run (emittedBy c (appendCleanUpNodes c)) n s0).lists
          ((run (emittedBy c (appendCleanUpNodes c)) n s0).storage ptr)).length = 0 ∧
        listContents (run (emittedBy c (appendCleanUpNodes c)) n s0)
          ((run (emittedBy c (appendCleanUpNodes c)) n s0).storage ptr) = []) ∧
      (run (emittedBy c (appendCleanUpNodes c)) n s0).storage = s0.storage ∧
      (run (emittedBy c (appendCleanUpNodes c)) n s0).sstores = s0.sstores ∧
      (run (emittedBy c (appendCleanUpNodes c)) n s0).stack = s0.stack ∧
      (run (emittedBy c (appendCleanUpNodes c)) n s0).memory = s0.memory := by
  intro n hn
  obtain ⟨pc, stk, st, mem, fm, ls, cnt, status⟩ := s0
  simp only at hpc hstatus
  subst hpc hstatus
  have hrun := cleanUp_run_stop st mem fm cnt stk ls c.m_nodeOutListPtrAddr
  rw [appendCleanUpNodes_code,
    run_of_le _ (3 * c.m_nodeOutListPtrAddr.length + 1) n _ hn (by rw [hrun]; simp), hrun]
  refine ⟨rfl, ?_, rfl, rfl, rfl, rfl⟩
  intro ptr hptr
  have := clearAll_cleared st c.m_nodeOutListPtrAddr ls ptr hptr
  simp [listContents, Machine.heap, Heap.contents, this]

theorem cleanUp_clears_lists_witness :
    (run (emittedBy cleanUpCompiler (appendCleanUpNodes cleanUpCompiler)) 7
        cleanUpStart).status = Status.stopped ∧
    (∀ ptr, ptr ∈ cleanUpCompiler.m_nodeOutListPtrAddr →
      ((run (emittedBy cleanUpCompiler (appendCleanUpNodes cleanUpCompiler)) 7
          cleanUpStart).lists
        ((run (emittedBy cleanUpCompiler (appendCleanUpNodes cleanUpCompiler)) 7
          cleanUpStart).storage ptr)).length = 0 ∧
      listContents (run (emittedBy cleanUpCompiler (appendCleanUpNodes cleanUpCompiler)) 7
          cleanUpStart)
        ((run (emittedBy cleanUpCompiler (appendCleanUpNodes cleanUpCompiler)) 7
          cleanUpStart).storage ptr) = []) ∧
    (run (emittedBy cleanUpCompiler (appendCleanUpNodes cleanUpCompiler)) 7
        cleanUpStart).storage = cleanUpStart.storage ∧
    (run (emittedBy cleanUpCompiler (appendCleanUpNodes cleanUpCompiler)) 7
        cleanUpStart).sstores = cleanUpStart.sstores ∧
    (run (emittedBy cleanUpCompiler (appendCleanUpNodes cleanUpCompiler)) 7
        cleanUpStart).stack = cleanUpStart.stack ∧
    (run (emittedBy cleanUpCompiler (appendCleanUpNodes cleanUpCompiler)) 7
        cleanUpStart).memory = cleanUpStart.memory :=
  cleanUp_clears_lists cleanUpCompiler cleanUpStart rfl rfl 7 (by decide)

/-! ### The reverse index over sequences of operations -/

theorem factDeleteOp_some (k : Consts) (t1 : Nat) (st st1 : Nat → Nat) (id : Nat)
    (hlock : st k.ruleEngineLockLocation = 0)
    (hW : st (st (reverseIndexSlot k id)) < W)
    (h : factDeleteOp k t1 (22 * st (st (reverseIndexSlot k id)) + 63) st id = some st1) :
    ∃ i, i < st (st (reverseIndexSlot k id)) ∧
      st (elemSlot (st (reverseIndexSlot k id)) i) = id ∧
      st1 = deletedStorage st (st (reverseIndexSlot k id)) i := by
  classical
  by_cases hex : ∃ j, j < st (st (reverseIndexSlot k id)) ∧
      st (elemSlot (st (reverseIndexSlot k id)) j) = id
  · have hi := Nat.find_spec hex
    have hmin : ∀ j, j < Nat.find hex →
        st (elemSlot (st (reverseIndexSlot k id)) j) ≠ id := by
      intro j hj he
      exact Nat.find_min hex hj ⟨by omega, he⟩
    have hrun := factDelete_run_found k t1 st id [] (Nat.find hex) hlock hW hi.1 hmin hi.2
    unfold factDeleteOp runToStop at h
    rw [run_of_le _ (11 + 22 * Nat.find hex + 18 + 34) _ _ (by omega) (by rw [hrun]; simp),
      hrun] at h
    simp [stateAt] at h
    exact ⟨Nat.find hex, hi.1, hi.2, h.symm⟩
  · have hrun := factDelete_run_missing k t1 st id [] hlock hW
      (fun j hj he => hex ⟨j, hj, he⟩)
    unfold factDeleteOp runToStop at h
    rw [run_of_le _ (11 + 22 * st (st (reverseIndexSlot k id)) + 10) _ _ (by omega)
      (by rw [hrun]; simp), hrun] at h
    simp at h

theorem lastInsertList_snoc (k : Consts) (x : Nat) (pre : List StoreOp) (o : StoreOp) :
    lastInsertList k x (pre ++ [o]) = entryStep k x (lastInsertList k x pre) o := by
  simp [lastInsertList, List.foldl_append]

theorem entryFold_source (k : Consts) (x : Nat) :
    ∀ (l : List StoreOp) (a : Nat),
      l.foldl (entryStep k x) a = a ∨
      ∃ ty, StoreOp.insert ty x ∈ l ∧ l.foldl (entryStep k x) a = listOfThisType k ty
  | [], a => Or.inl rfl
  | o :: os, a => by
      simp only [List.foldl_cons]
      rcases entryFold_source k x os (entryStep k x a o) with h | ⟨ty, hmem, h⟩
      · rw [h]
        cases o with
        | insert ty id =>
            by_cases hx : id = x
            · subst hx
              right
              exact ⟨ty, List.mem_cons_self _ _, by simp [entryStep]⟩
            · left
              simp [entryStep, hx]
        | delete id => left; rfl
      · right
        exact ⟨ty, List.mem_cons_of_mem _ hmem, h⟩

theorem lastInsertList_source (k : Consts) (x : Nat) (ops : List StoreOp)
    (h : lastInsertList k x ops ≠ 0) :
    ∃ ty, StoreOp.insert ty x ∈ ops ∧ lastInsertList k x ops = listOfThisType k ty := by
  rcases entryFold_source k x ops 0 with h0 | h1
  · exact absurd h0 h
  · exact h1

theorem reverseIndexSlot_inj (k : Consts) (x y : Nat)
    (h : reverseIndexSlot k x = reverseIndexSlot k y) : x = y :=
  Nat.xor_left_inj.mp h

theorem storeInv_insert (k : Consts) (t0 : Nat) (As : List Nat) (N : Nat)
    (pre : List StoreOp) (st st1 : Nat → Nat) (ty : String) (id : Nat)
    (hga : GoodAddrs k As N) (hinv : StoreInv k As N pre st) (hn : pre.length + 1 ≤ N)
    (hA : listOfThisType k ty ∈ As) (hg : GoodId k As N id)
    (h : factInsertOp k ty t0 st id = some st1) :
    StoreInv k As N (pre ++ [StoreOp.insert ty id]) st1 := by
  obtain ⟨hA0, hwrap, hlk⟩ := hga.1 _ hA
  have hlen := hinv.len _ hA
  have hrevA : reverseIndexSlot k id ≠ listOfThisType k ty := by
    have := hg.2.2 _ hA 0 (by omega); simpa using this
  have hrevE : reverseIndexSlot k id ≠
      listOfThisType k ty + 1 + st (listOfThisType k ty) := by
    have := hg.2.2 _ hA (1 + st (listOfThisType k ty)) (by omega); omega
  rw [factInsertOp_eq k ty t0 st id hinv.lock (by omega) hrevA] at h
  have hst1 := Option.some.inj h
  subst hst1
  have hother : ∀ B, B ∈ As → B ≠ listOfThisType k ty → ∀ j, j ≤ N →
      insertedStorage k ty st id (B + j) = st (B + j) := by
    intro B hB hBA j hj
    apply insertedStorage_other
    · exact Ne.symm (hg.2.2 B hB j hj)
    · have := hga.2 B _ hB hA hBA j 0 hj (by omega); simpa using this
    · have := hga.2 B _ hB hA hBA j (1 + st (listOfThisType k ty)) hj (by omega); omega
  refine ⟨?_, ?_, ?_, ?_, ?_, ?_, ?_⟩
  · rw [insertedStorage_other k ty st id _ (Ne.symm hg.2.1)
      (by have := hlk 0 (by omega); simpa using this)
      (by have := hlk (1 + st (listOfThisType k ty)) (by omega); omega)]
    exact hinv.lock
  · rw [insertedStorage_other k ty st id 0 (Ne.symm hg.1) (Ne.symm hA0) (by omega)]
    exact hinv.zero
  · intro B hB
    rw [List.length_append, List.length_singleton]
    by_cases hBA : B = listOfThisType k ty
    · subst hBA
      rw [insertedStorage_length]; omega
    · have := hother B hB hBA 0 (by omega)
      rw [Nat.add_zero] at this
      rw [this]
      have := hinv.len B hB
      omega
  · intro x hx
    rw [lastInsertList_snoc]
    by_cases hxi : id = x
    · subst hxi
      rw [insertedStorage_rev k ty st id hrevA hrevE]
      simp [entryStep]
    · have hne : reverseIndexSlot k x ≠ reverseIndexSlot k id :=
        fun e => hxi (reverseIndexSlot_inj k x id e).symm
      rw [insertedStorage_other k ty st id _ hne
        (by have := hx.2.2 _ hA 0 (by omega); simpa using this)
        (by have := hx.2.2 _ hA (1 + st (listOfThisType k ty)) (by omega); omega)]
      simp only [entryStep, if_neg hxi]
      exact hinv.rev x hx
  · intro x
    rw [lastInsertList_snoc]
    by_cases hxi : id = x
    · right; simp only [entryStep, if_pos hxi]; exact hA
    · simp only [entryStep, if_neg hxi]; exact hinv.range x
  · intro B hB j hj
    by_cases hBA : B = listOfThisType k ty
    · subst hBA
      rw [insertedStorage_length] at hj
      by_cases hjl : j < st (listOfThisType k ty)
      · rw [insertedStorage_other k ty st id _
          (by have := hg.2.2 _ hA (1 + j) (by omega); omega) (by omega) (by omega)]
        obtain ⟨ty2, hmem, he⟩ := hinv.elems _ hA j hjl
        exact ⟨ty2, List.mem_append_left _ hmem, he⟩
      · have hj2 : j = st (listOfThisType k ty) := by omega
        subst hj2
        rw [insertedStorage_last]
        exact ⟨ty, by simp, rfl⟩
    · have hB0 := hother B hB hBA 0 (by omega)
      rw [Nat.add_zero] at hB0
      rw [hB0] at hj
      have hlenB := hinv.len B hB
      have hslot := hother B hB hBA (1 + j) (by omega)
      have e : B + 1 + j = B + (1 + j) := by omega
      rw [e, hslot, ← e]
      obtain ⟨ty2, hmem, he⟩ := hinv.elems B hB j hj
      exact ⟨ty2, List.mem_append_left _ hmem, he⟩
  · intro o ho
    rw [lastInsertList_snoc]
    by_cases hxi : id = o.id
    · simp only [entryStep, if_pos hxi]; exact hA0
    · simp only [entryStep, if_neg hxi]
      rcases List.mem_append.mp ho with hin | hin
      · exact hinv.seen o hin
      · exfalso
        have e : o = StoreOp.insert ty id := by simpa using hin
        subst e
        exact hxi rfl

theorem storeInv_delete (k : Consts) (t1 : Nat) (As : List Nat) (N : Nat)
    (pre : List StoreOp) (st st1 : Nat → Nat) (id : Nat)
    (hga : GoodAddrs k As N) (hinv : StoreInv k As N pre st) (hn : pre.length + 1 ≤ N)
    (hg : GoodId k As N id)
    (h : factDeleteOp k t1 (22 * st (st (reverseIndexSlot k id)) + 63) st id = some st1) :
    StoreInv k As N (pre ++ [StoreOp.delete id]) st1 := by
  have hrev := hinv.rev id hg
  have hB0 : st (reverseIndexSlot k id) ≠ 0 := by
    intro h0
    rw [h0] at h
    obtain ⟨i, hi, _, _⟩ := factDeleteOp_some k t1 st st1 id hinv.lock
      (by rw [h0, hinv.zero]; exact W_pos) (by rw [h0]; exact h)
    rw [h0, hinv.zero] at hi
    omega
  have hBin : st (reverseIndexSlot k id) ∈ As := by
    rcases hinv.range id with h0 | hin
    · rw [hrev] at hB0; exact absurd h0 hB0
    · rw [hrev]; exact hin
  obtain ⟨B, hB⟩ : ∃ B, st (reverseIndexSlot k id) = B := ⟨_, rfl⟩
  rw [hB] at hBin hB0 h
  obtain ⟨hBne, hwrap, hlk⟩ := hga.1 B hBin
  have hlen := hinv.len B hBin
  obtain ⟨i, hi, hhit, hst1⟩ := factDeleteOp_some k t1 st st1 id hinv.lock
    (by rw [hB]; omega) (by rw [hB]; exact h)
  rw [hB] at hi hhit hst1
  subst hst1
  have hslot : elemSlot B i = B + 1 + i := elemSlot_eq _ i (by omega)
  have hkeep : ∀ x, GoodId k As N x →
      deletedStorage st B i (reverseIndexSlot k x) = st (reverseIndexSlot k x) := by
    intro x hx
    apply deletedStorage_other
    · have := hx.2.2 B hBin 0 (by omega); simpa using this
    · rw [hslot]; have := hx.2.2 B hBin (1 + i) (by omega); omega
  have hother : ∀ C, C ∈ As → C ≠ B → ∀ j, j ≤ N →
      deletedStorage st B i (C + j) = st (C + j) := by
    intro C hC hCB j hj
    apply deletedStorage_other
    · have := hga.2 C B hC hBin hCB j 0 hj (by omega); simpa using this
    · rw [hslot]; have := hga.2 C B hC hBin hCB j (1 + i) hj (by omega); omega
  have hsnoc : ∀ x, lastInsertList k x (pre ++ [StoreOp.delete id]) = lastInsertList k x pre := by
    intro x; rw [lastInsertList_snoc]; rfl
  refine ⟨?_, ?_, ?_, ?_, ?_, ?_, ?_⟩
  · rw [deletedStorage_other st _ i _ (by have := hlk 0 (by omega); simpa using this)
      (by rw [hslot]; have := hlk (1 + i) (by omega); omega)]
    exact hinv.lock
  · rw [deletedStorage_other st _ i _ (fun e => hBne e.symm) (by rw [hslot]; omega)]
    exact hinv.zero
  · intro C hC
    rw [List.length_append, List.length_singleton]
    by_cases hCB : C = B
    · subst hCB
      rw [deletedStorage_length]; omega
    · have := hother C hC hCB 0 (by omega)
      rw [Nat.add_zero] at this
      rw [this]
      have := hinv.len C hC
      omega
  · intro x hx
    rw [hkeep x hx, hsnoc]
    exact hinv.rev x hx
  · intro x
    rw [hsnoc]; exact hinv.range x
  · intro C hC j hj
    by_cases hCB : C = B
    · subst hCB
      rw [deletedStorage_length] at hj
      have hsj : C + 1 + j = elemSlot C j := (elemSlot_eq _ j (by omega)).symm
      rw [hsj, deletedStorage_elem st _ i j (by unfold W at *; omega) (by unfold W at *; omega)]
      by_cases hji : j = i
      · rw [if_pos hji, elemSlot_eq _ _ (by omega)]
        obtain ⟨ty2, hmem, he⟩ := hinv.elems C hC (st C - 1) (by omega)
        exact ⟨ty2, List.mem_append_left _ hmem, he⟩
      · rw [if_neg hji, ← hsj]
        obtain ⟨ty2, hmem, he⟩ := hinv.elems C hC j (by omega)
        exact ⟨ty2, List.mem_append_left _ hmem, he⟩
    · have hC0 := hother C hC hCB 0 (by omega)
      rw [Nat.add_zero] at hC0
      rw [hC0] at hj
      have hlenC := hinv.len C hC
      have hs := hother C hC hCB (1 + j) (by omega)
      have e : C + 1 + j = C + (1 + j) := by omega
      rw [e, hs, ← e]
      obtain ⟨ty2, hmem, he⟩ := hinv.elems C hC j hj
      exact ⟨ty2, List.mem_append_left _ hmem, he⟩
  · intro o ho
    rw [hsnoc]
    rcases List.mem_append.mp ho with hin | hin
    · exact hinv.seen o hin
    · have e : o = StoreOp.delete id := by simpa using hin
      subst e
      show lastInsertList k id pre ≠ 0
      rw [← hrev, hB]; exact hB0

theorem applyOps_inv (k : Consts) (t0 t1 : Nat) (As : List Nat) (N : Nat)
    (hga : GoodAddrs k As N) :
    ∀ (ops pre : List StoreOp) (st st1 : Nat → Nat),
      StoreInv k As N pre st → pre.length + ops.length ≤ N →
      (∀ o, o ∈ ops → GoodId k As N o.id) →
      (∀ A, A ∈ listAddrs k ops → A ∈ As) →
      applyOps k t0 t1 st ops = some st1 →
      StoreInv k As N (pre ++ ops) st1
  | [], pre, st, st1, hinv, _, _, _, h => by
      have e : st = st1 := Option.some.inj h
      subst e
      rw [List.append_nil]
      exact hinv
  | o :: os, pre, st, st1, hinv, hn, hg, hsub, h => by
      simp only [List.length_cons] at hn
      rw [applyOps] at h
      cases h1 : applyOp k t0 t1 st o with
      | none => rw [h1] at h; simp at h
      | some st2 =>
          rw [h1] at h
          simp only [Option.bind] at h
          have hgo := hg o (List.mem_cons_self _ _)
          have hstep : StoreInv k As N (pre ++ [o]) st2 := by
            cases o with
            | insert ty id =>
                exact storeInv_insert k t0 As N pre st st2 ty id hga hinv (by omega)
                  (hsub _ (by simp [listAddrs])) hgo h1
            | delete id =>
                exact storeInv_delete k t1 As N pre st st2 id hga hinv (by omega) hgo h1
          have hsub2 : ∀ A, A ∈ listAddrs k os → A ∈ As := by
            intro A hA
            apply hsub
            cases o with
            | insert ty id => simp [listAddrs, hA]
            | delete id => simpa [listAddrs] using hA
          have := applyOps_inv k t0 t1 As N hga os (pre ++ [o]) st2 st1 hstep
            (by simp only [List.length_append, List.length_singleton]; omega)
            (fun o2 ho2 => hg o2 (List.mem_cons_of_mem _ ho2)) hsub2 h
          rw [List.append_assoc, List.singleton_append] at this
          exact this

theorem applyOps_insert_delete_example :
    applyOps exampleConsts 0 0 (fun _ => 0) [StoreOp.insert "Order" 5, StoreOp.delete 5] =
      some (deletedStorage (insertedStorage exampleConsts "Order" (fun _ => 0) 5) 1000 0) := by
  have hA : listOfThisType exampleConsts "Order" = 1000 := rfl
  have hins := factInsertOp_eq exampleConsts "Order" 0 (fun _ => 0) 5 rfl
    (by rw [hA]; unfold W; decide) (by rw [hA]; decide)
  have hrev : insertedStorage exampleConsts "Order" (fun _ => 0) 5
      (reverseIndexSlot exampleConsts 5) = 1000 := by
    simp only [insertedStorage, hA]
    simp [setAt, reverseIndexSlot, exampleConsts]
  have hlen : insertedStorage exampleConsts "Order" (fun _ => 0) 5 1000 = 1 := by
    simp only [insertedStorage, hA]
    simp [setAt]
  have hrun := factDelete_run_found exampleConsts 0
    (insertedStorage exampleConsts "Order" (fun _ => 0) 5) 5 [] 0
    (by simp only [insertedStorage, hA]; simp [setAt, reverseIndexSlot, exampleConsts])
    (by rw [hrev, hlen]; unfold W; decide) (by rw [hrev, hlen]; decide)
    (by intro j hj; omega)
    (by rw [hrev]; simp only [insertedStorage, hA]; simp [setAt, elemSlot, W])
  rw [hrev] at hrun
  simp only [applyOps, applyOp, hins, Option.bind, hrev, hlen]
  unfold factDeleteOp runToStop
  rw [run_of_le _ (11 + 22 * 0 + 18 + 34) _ _ (by decide) (by rw [hrun]; simp), hrun]
  simp [stateAt]

/-- C11 fails as stated: from the empty store, inserting identifier 5 and
then deleting it succeed, and afterwards the reverse-index slot of 5 still
holds the list address 1000, a non-zero entry, although 5 is not live: the
list at 1000 is empty.  Delete never writes the reverse index. -/
theorem reverse_index_iff_live_counterexample :
    ∃ st, applyOps exampleConsts 0 0 (fun _ => 0)
        [StoreOp.insert "Order" 5, StoreOp.delete 5] = some st ∧
      st (reverseIndexSlot exampleConsts 5) = 1000 ∧
      st (reverseIndexSlot exampleConsts 5) ≠ 0 ∧
      liveList st (st (reverseIndexSlot exampleConsts 5)) = [] ∧
      ¬ (st (reverseIndexSlot exampleConsts 5) ≠ 0 ↔
          5 ∈ liveList st (st (reverseIndexSlot exampleConsts 5))) := by
  refine ⟨_, applyOps_insert_delete_example, ?_⟩
  have hA : listOfThisType exampleConsts "Order" = 1000 := rfl
  have h1 : deletedStorage (insertedStorage exampleConsts "Order" (fun _ => 0) 5) 1000 0
      (reverseIndexSlot exampleConsts 5) = 1000 := by
    simp only [deletedStorage, insertedStorage, hA]
    simp [setAt, reverseIndexSlot, exampleConsts, elemSlot, W]
  have h2 : liveList (deletedStorage (insertedStorage exampleConsts "Order" (fun _ => 0) 5)
      1000 0) 1000 = [] := by
    simp only [liveList, deletedStorage, insertedStorage, hA]
    simp [setAt]
  rw [h1, h2]
  simp

/-- C11 (amended): in every state reached from the empty store by a sequence
of successful inserts, into the lists of any number of fact types, and deletes
(list addresses not 0, not wrapping within the number of operations, the slots
of different lists disjoint, the lock slot and the reverse-index slots of the
identifiers used not slot 0 and not list slots), the reverse index is written
by inserts only.  Every identifier that occurs in the list of any fact type was
inserted into that list and has a non-zero entry, the address of the list of
its most recent insert; if all its inserts went to one list, the entry names
the list it occurs in.  An identifier that occurs in the list its entry names
has a non-zero entry (the direction of the claim that holds).  The entry of
every good identifier is exactly the list address of its most recent insert,
zero if it was never inserted, whatever was deleted; so every identifier
inserted or deleted in the sequence still has a non-zero entry at the end,
live or not. -/
theorem reverse_index_covers_live (k : Consts) (t0 t1 : Nat) (ops : List StoreOp)
    (st : Nat → Nat)
    (haddr : GoodAddrs k (listAddrs k ops) ops.length)
    (hgood : ∀ o, o ∈ ops → GoodId k (listAddrs k ops) ops.length o.id)
    (hreach : applyOps k t0 t1 (fun _ => 0) ops = some st) :
    (∀ A, A ∈ listAddrs k ops → ∀ x, x ∈ liveList st A →
      (∃ ty, StoreOp.insert ty x ∈ ops ∧ listOfThisType k ty = A) ∧
      st (reverseIndexSlot k x) ≠ 0 ∧
      st (reverseIndexSlot k x) = lastInsertList k x ops ∧
      ((∀ ty, StoreOp.insert ty x ∈ ops → listOfThisType k ty = A) →
        st (reverseIndexSlot k x) = A)) ∧
    (∀ x, x ∈ liveList st (st (reverseIndexSlot k x)) → st (reverseIndexSlot k x) ≠ 0) ∧
    (∀ x, GoodId k (listAddrs k ops) ops.length x →
      st (reverseIndexSlot k x) = lastInsertList k x ops) ∧
    (∀ o, o ∈ ops → st (reverseIndexSlot k o.id) ≠ 0) := by
  have hinv0 : StoreInv k (listAddrs k ops) ops.length [] (fun _ => 0) :=
    ⟨rfl, rfl, fun _ _ => Nat.le_refl _, fun _ _ => rfl, fun _ => Or.inl rfl,
      by intro A _ j hj; simp at hj, by intro o ho; cases ho⟩
  have hinv := applyOps_inv k t0 t1 (listAddrs k ops) ops.length haddr ops [] (fun _ => 0) st
    hinv0 (by simp) hgood (fun _ h => h) hreach
  rw [List.nil_append] at hinv
  refine ⟨?_, ?_, hinv.rev, ?_⟩
  · intro A hA x hx
    unfold liveList at hx
    obtain ⟨j, hj, hjx⟩ := List.mem_map.mp hx
    have hj2 : j < st A := by simpa using hj
    have hlen := hinv.len A hA
    obtain ⟨_, hwrap, _⟩ := haddr.1 A hA
    rw [elemSlot_eq _ j (by omega)] at hjx
    obtain ⟨ty, hmem, hty⟩ := hinv.elems A hA j hj2
    rw [hjx] at hmem
    have hgx : GoodId k (listAddrs k ops) ops.length x := hgood _ hmem
    have hne : lastInsertList k x ops ≠ 0 := hinv.seen _ hmem
    have hrev := hinv.rev x hgx
    refine ⟨⟨ty, hmem, hty⟩, by rw [hrev]; exact hne, hrev, ?_⟩
    intro hall
    obtain ⟨ty2, hmem2, he⟩ := lastInsertList_source k x ops hne
    rw [hrev, he]
    exact hall ty2 hmem2
  · intro x hx h0
    rw [h0] at hx
    simp [liveList, hinv.zero] at hx
  · intro o ho
    rw [hinv.rev _ (hgood o ho)]
    exact hinv.seen o ho

set_option maxRecDepth 1000000 in
/-- Witness for the amended C11: five operations on the fact types `Order`
(list at 18000) and `Item` (list at 17000).  Identifier 5 is inserted under
both and deleted once, which removes it from the list of `Item`, the list of
its most recent insert.  At the end the list of `Order` is `[5, 7]` and the
list of `Item` is `[6]`; the entry of 5 names the list of `Item`, in which it
no longer occurs. -/
theorem reverse_index_covers_live_witness :
    ∃ st, applyOps storeConsts 0 0 (fun _ => 0) exampleOps = some st ∧
      liveList st 18000 = [5, 7] ∧ liveList st 17000 = [6] ∧
      st (reverseIndexSlot storeConsts 5) = 17000 ∧
      st (reverseIndexSlot storeConsts 6) = 17000 ∧
      st (reverseIndexSlot storeConsts 7) = 18000 ∧
      (∀ A, A ∈ listAddrs storeConsts exampleOps → ∀ x, x ∈ liveList st A →
        (∃ ty, StoreOp.insert ty x ∈ exampleOps ∧ listOfThisType storeConsts ty = A) ∧
        st (reverseIndexSlot storeConsts x) ≠ 0 ∧
        st (reverseIndexSlot storeConsts x) = lastInsertList storeConsts x exampleOps ∧
        ((∀ ty, StoreOp.insert ty x ∈ exampleOps → listOfThisType storeConsts ty = A) →
          st (reverseIndexSlot storeConsts x) = A)) ∧
      (∀ o, o ∈ exampleOps → st (reverseIndexSlot storeConsts o.id) ≠ 0) := by
  have hsome : (applyOps storeConsts 0 0 (fun _ => 0) exampleOps).isSome = true := by decide
  obtain ⟨st, hst⟩ := Option.isSome_iff_exists.mp hsome
  have hval : ∀ f : (Nat → Nat) → List Nat, ∀ v,
      (applyOps storeConsts 0 0 (fun _ => 0) exampleOps).map f = some v → f st = v := by
    intro f v h
    rw [hst] at h
    exact Option.some.inj h
  have hL : listAddrs storeConsts exampleOps = [18000, 17000, 18000, 17000] := by decide
  have hN : exampleOps.length = 5 := rfl
  have hlock : storeConsts.ruleEngineLockLocation = 2000 := rfl
  have hthm := reverse_index_covers_live storeConsts 0 0 exampleOps st
    (by
      unfold GoodAddrs
      rw [hL, hN, hlock]
      refine ⟨?_, ?_⟩
      · intro A hA
        have hA2 : A = 18000 ∨ A = 17000 := by simp at hA; omega
        refine ⟨by omega, by unfold W; omega, ?_⟩
        intro j hj
        omega
      · intro A B hA hB hAB i j hi hj
        have hA2 : A = 18000 ∨ A = 17000 := by simp at hA; omega
        have hB2 : B = 18000 ∨ B = 17000 := by simp at hB; omega
        omega)
    (by
      intro o ho
      have hid : reverseIndexSlot storeConsts o.id = 4101 ∨
          reverseIndexSlot storeConsts o.id = 4102 ∨
          reverseIndexSlot storeConsts o.id = 4103 := by
        simp only [exampleOps, List.mem_cons, List.mem_singleton, List.not_mem_nil,
          or_false] at ho
        rcases ho with e | e | e | e | e <;> subst e <;> decide
      unfold GoodId
      rw [hL, hN, hlock]
      refine ⟨by omega, by omega, ?_⟩
      intro A hA j hj
      have hA2 : A = 18000 ∨ A = 17000 := by simp at hA; omega
      omega)
    hst
  refine ⟨st, hst, hval (fun s => liveList s 18000) _ (by decide),
    hval (fun s => liveList s 17000) _ (by decide), ?_, ?_, ?_, hthm.1, hthm.2.2.2⟩
  · have := hval (fun s => [s (reverseIndexSlot storeConsts 5)]) [17000] (by decide)
    simpa using this
  · have := hval (fun s => [s (reverseIndexSlot storeConsts 6)]) [17000] (by decide)
    simpa using this
  · have := hval (fun s => [s (reverseIndexSlot storeConsts 7)]) [18000] (by decide)
    simpa using this

/-! ### The scan of the delete and the length -/

theorem deleteItemCode_eq (t0 : Nat) :
    deleteItemCode t0 =
      [push 0, tag t0,
       op .DUP2, op .SLOAD, op .DUP2, op .LT, op .ISZERO,
       pushTag (t0 + 2), op .JUMPI,
       op .DUP2, op .DUP2, push 1, op .ADD, op .ADD, op .SLOAD,
       op .DUP4, op .EQ, pushTag (t0 + 1), op .JUMPI,
       push 1, op .ADD, pushTag t0, op .JUMP,
       tag (t0 + 2), op .INVALID,
       tag (t0 + 1),
       op .DUP2, op .SLOAD, push 1, op .SWAP1, op .SUB, op .DUP3, op .SWAP1,
       push 1, op .ADD, op .ADD, op .SLOAD,
       op .DUP3, op .DUP3, op .DUP3,
       op .DUP2, push 1, op .ADD, op .DUP4, op .ADD, op .SSTORE, op .POP, op .POP,
       op .POP, op .POP,
       op .DUP1, op .SLOAD, push 1, op .SWAP1, op .SUB, op .SWAP1, op .SSTORE,
       op .POP] := rfl

theorem execOp_pc (prog : List AssemblyItem) (s : Machine) (i : Instruction)
    (hj : i ≠ Instruction.JUMP) (hji : i ≠ Instruction.JUMPI)
    (h : (execOp prog s i).status = Status.running) :
    (execOp prog s i).pc = s.pc + 1 := by
  cases i <;> simp only [execOp] at h ⊢ <;> first
    | exact absurd rfl hj
    | exact absurd rfl hji
    | (split at h <;> simp_all [Machine.next, Machine.fail])
    | simp_all

theorem execItem_pc (prog : List AssemblyItem) (s : Machine) (item : AssemblyItem)
    (hj : item ≠ op .JUMP) (hji : item ≠ op .JUMPI)
    (h : (execItem prog s item).status = Status.running) :
    (execItem prog s item).pc = s.pc + 1 := by
  cases item with
  | op i =>
      exact execOp_pc prog s i (fun e => hj (by rw [e])) (fun e => hji (by rw [e])) h
  | push v => rfl
  | pushTag t => rfl
  | tag t => rfl
  | allocateMemory =>
      simp only [execItem, execAllocateMemory] at h ⊢
      split at h <;> simp_all [Machine.fail]
  | dynArr o =>
      simp only [execItem] at h ⊢
      cases o <;> simp only [execDynArr] at h ⊢ <;> first
        | (split at h <;> simp_all [Machine.next, Machine.fail]; done)
        | (split at h
           · split at h <;> simp_all [Machine.next, Machine.fail]
           · simp_all [Machine.fail])
  | expression p =>
      simp only [execItem, execExpression] at h ⊢
      split at h <;> simp_all [Machine.next, Machine.fail]

theorem deleteItemCode_tail (t0 pc : Nat) (h23 : 23 ≤ pc) (item : AssemblyItem)
    (h : (deleteItemCode t0)[pc]? = some item) :
    item ≠ op .JUMP ∧ item ≠ op .JUMPI := by
  by_cases hlt : pc < 58
  · rw [deleteItemCode_eq] at h
    interval_cases pc <;> simp at h <;> subst h <;> simp
  · rw [List.getElem?_eq_none (by rw [deleteItemCode_eq]; simp; omega)] at h
    cases h

set_option maxRecDepth 100000 in
theorem deleteScanInv_step (t0 A item : Nat) (st : Nat → Nat) (rest : List Nat) (s : Machine)
    (h : DeleteScanInv t0 A item st rest s) :
    DeleteScanInv t0 A item st rest (step (deleteItemCode t0) s) := by
  obtain ⟨pc, stk, sto, mem, fm, ls, c, status⟩ := s
  by_cases hs : status = Status.running
  swap
  · rw [step_of_not_running _ _ hs]; exact h
  subst hs
  by_cases hpc : pc ≤ 22 ∨ pc = 25
  · obtain ⟨hst, i, hstk, hcond⟩ := h rfl hpc
    simp only at hst hstk hcond
    subst hst hstk
    have h01 : ¬ t0 + 1 = t0 := by omega
    have h02 : ¬ t0 + 2 = t0 := by omega
    have h12 : ¬ t0 + 2 = t0 + 1 := by omega
    have h21 : ¬ t0 + 1 = t0 + 2 := by omega
    have h10 : ¬ t0 = t0 + 1 := by omega
    have h20 : ¬ t0 = t0 + 2 := by omega
    unfold DeleteScanInv
    rw [deleteItemCode_eq]
    rcases hpc with hle | h25
    · interval_cases pc
      all_goals simp [step, execItem, execOp, scanStack, Machine.next, Machine.jumpTo, tagPos,
        h01, h02, h12, h21, h10, h20] at hcond ⊢
      all_goals first
        | exact hcond
        | exact ⟨i, ⟨rfl, rfl⟩, hcond⟩
        | exact ⟨i, ⟨by simp [elemSlot], rfl⟩, hcond⟩
        | skip
      · by_cases hlt : i < sto A <;> simp [boolWord, hlt]
      · by_cases heq : item = sto (elemSlot A i) <;> simp [boolWord, heq] <;> exact hcond

    · subst h25
      simp [step, execItem, execOp, scanStack, Machine.next, Machine.jumpTo, tagPos]
  · intro hrun hpc2
    exfalso
    have h23 : 23 ≤ pc := by omega
    by_cases h24 : pc = 24
    · subst h24
      rw [deleteItemCode_eq] at hrun
      simp [step, execItem, execOp] at hrun
    cases hitem : (deleteItemCode t0)[pc]? with
    | none => simp [step, hitem] at hrun
    | some it =>
        obtain ⟨hj, hji⟩ := deleteItemCode_tail t0 pc h23 it hitem
        have hstep : step (deleteItemCode t0)
            ⟨pc, stk, sto, mem, fm, ls, c, Status.running⟩ =
            execItem (deleteItemCode t0) ⟨pc, stk, sto, mem, fm, ls, c, Status.running⟩ it := by
          simp [step, hitem]
        rw [hstep] at hrun hpc2
        have hnext := execItem_pc _ _ it hj hji hrun
        rw [hnext] at hpc2
        dsimp only at hpc2
        omega

theorem deleteScanInv_run (t0 A item : Nat) (st : Nat → Nat) (rest : List Nat) :
    ∀ (n : Nat) (s : Machine), DeleteScanInv t0 A item st rest s →
      DeleteScanInv t0 A item st rest (run (deleteItemCode t0) n s)
  | 0, _, h => h
  | n + 1, s, h =>
      deleteScanInv_run t0 A item st rest n _ (deleteScanInv_step t0 A item st rest s h)

set_option maxRecDepth 100000 in
theorem deleteItem_remove (t0 : Nat) (st mem : Nat → Nat) (fm : Nat) (ls : Nat → List Nat)
    (i A item c : Nat) (rest : List Nat) (hi : i < st A) (hW : st A < W) :
    run (deleteItemCode t0) 34
        ⟨25, i :: A :: item :: rest, st, mem, fm, ls, c, Status.running⟩ =
      ⟨58, rest, deletedStorage st A i, mem, fm, ls, c + 2, Status.stopped⟩ := by
  rw [deleteItemCode_eq]
  have h1 : (st A + (W - 1 % W)) % W = st A - 1 := sub_one_word _ (by omega) hW
  have h2 : (A + (1 + i) % W) % W = elemSlot A i := by
    unfold elemSlot; rw [Nat.add_comm]
  have h3 : ((1 + (st A - 1)) % W + A) % W = elemSlot A (st A - 1) := rfl
  have h4 : ∀ v, setAt st (elemSlot A i) v A = st A := by
    intro v
    have := elemSlot_ne_base A i (by omega)
    simp [setAt, Ne.symm this]
  simp [run, step, execItem, execOp, Machine.next, boolWord, h1, h2, h3, h4,
    Machine.jumpTo, tagPos, deletedStorage]

theorem deleteItem_empty (t0 : Nat) (st mem : Nat → Nat) (fm : Nat) (ls : Nat → List Nat)
    (A item c : Nat) (rest : List Nat) (h0 : st A = 0) :
    run (deleteItemCode t0) 11 ⟨0, A :: item :: rest, st, mem, fm, ls, c, Status.running⟩ =
      ⟨24, 0 :: A :: item :: rest, st, mem, fm, ls, c, Status.invalid⟩ := by
  rw [deleteItemCode_eq]
  have h01 : ¬ t0 + 1 = t0 := by omega
  have h02 : ¬ t0 + 2 = t0 := by omega
  have h12 : ¬ t0 + 2 = t0 + 1 := by omega
  have h21 : ¬ t0 + 1 = t0 + 2 := by omega
  have h10 : ¬ t0 = t0 + 1 := by omega
  have h20 : ¬ t0 = t0 + 2 := by omega
  simp [run, step, execItem, execOp, Machine.next, boolWord, h0, Machine.jumpTo, tagPos,
    h01, h02, h12, h21, h10, h20]

/-- C19: in every run of the code emitted by `appendDeleteItemInStorageArray`,
entered with `listAddr = A` on top of `itemValue` and a stored length that is
a 256-bit word, every state at the `loopEnd` label (position 25) has the found
index `i` on top of `A` and `itemValue`, nothing stored yet, `i` below the
stored length and the stored length at least 1; hence `length - 1` does not
wrap in the first subtraction, the length read again after the element write
is the old length, the code stops 34 steps later, and the stored new length
is the old length minus one.  For a stored length 0 the run ends at the
`INVALID` after the `elementNotFound` label and never is at `loopEnd`. -/
theorem delete_no_length_underflow (t0 A item c fm : Nat) (rest : List Nat)
    (st mem : Nat → Nat) (ls : Nat → List Nat) (hW : st A < W) :
    (∀ n,
      (run (deleteItemCode t0) n
        ⟨0, A :: item :: rest, st, mem, fm, ls, c, Status.running⟩).status = Status.running →
      (run (deleteItemCode t0) n
        ⟨0, A :: item :: rest, st, mem, fm, ls, c, Status.running⟩).pc = 25 →
      ∃ i,
        (run (deleteItemCode t0) n
          ⟨0, A :: item :: rest, st, mem, fm, ls, c, Status.running⟩).stack
            = i :: A :: item :: rest ∧
        (run (deleteItemCode t0) n
          ⟨0, A :: item :: rest, st, mem, fm, ls, c, Status.running⟩).storage = st ∧
        i < st A ∧ 1 ≤ st A ∧
        (st A + (W - 1 % W)) % W = st A - 1 ∧
        setAt st (elemSlot A i) (st (elemSlot A (st A - 1))) A = st A ∧
        (run (deleteItemCode t0) (n + 34)
          ⟨0, A :: item :: rest, st, mem, fm, ls, c, Status.running⟩).status = Status.stopped ∧
        (run (deleteItemCode t0) (n + 34)
          ⟨0, A :: item :: rest, st, mem, fm, ls, c, Status.running⟩).storage
            = deletedStorage st A i ∧
        deletedStorage st A i A + 1 = st A) ∧
    (st A = 0 →
      (∀ n, 11 ≤ n →
        run (deleteItemCode t0) n ⟨0, A :: item :: rest, st, mem, fm, ls, c, Status.running⟩ =
          ⟨24, 0 :: A :: item :: rest, st, mem, fm, ls, c, Status.invalid⟩) ∧
      (∀ n,
        (run (deleteItemCode t0) n
          ⟨0, A :: item :: rest, st, mem, fm, ls, c, Status.running⟩).status = Status.running →
        (run (deleteItemCode t0) n
          ⟨0, A :: item :: rest, st, mem, fm, ls, c, Status.running⟩).pc ≠ 25)) := by
  have hinv0 : DeleteScanInv t0 A item st rest
      ⟨0, A :: item :: rest, st, mem, fm, ls, c, Status.running⟩ := by
    intro _ _
    exact ⟨rfl, 0, rfl, by intro h; simp at h⟩
  have hkey : ∀ n,
      (run (deleteItemCode t0) n
        ⟨0, A :: item :: rest, st, mem, fm, ls, c, Status.running⟩).status = Status.running →
      (run (deleteItemCode t0) n
        ⟨0, A :: item :: rest, st, mem, fm, ls, c, Status.running⟩).pc = 25 →
      ∃ i,
        (run (deleteItemCode t0) n
          ⟨0, A :: item :: rest, st, mem, fm, ls, c, Status.running⟩).stack
            = i :: A :: item :: rest ∧
        (run (deleteItemCode t0) n
          ⟨0, A :: item :: rest, st, mem, fm, ls, c, Status.running⟩).storage = st ∧
        i < st A := by
    intro n hrun hpc
    obtain ⟨hst, i, hstk, hcond⟩ := deleteScanInv_run t0 A item st rest n _ hinv0 hrun
      (Or.inr hpc)
    rw [hpc] at hstk
    exact ⟨i, hstk, hst, hcond (Or.inr hpc)⟩
  refine ⟨?_, ?_⟩
  · intro n hrun hpc
    obtain ⟨i, hstk, hst, hi⟩ := hkey n hrun hpc
    have h4 : setAt st (elemSlot A i) (st (elemSlot A (st A - 1))) A = st A := by
      have := elemSlot_ne_base A i (by omega)
      simp [setAt, Ne.symm this]
    have hboth :
        (run (deleteItemCode t0) (n + 34)
          ⟨0, A :: item :: rest, st, mem, fm, ls, c, Status.running⟩).status = Status.stopped ∧
        (run (deleteItemCode t0) (n + 34)
          ⟨0, A :: item :: rest, st, mem, fm, ls, c, Status.running⟩).storage
            = deletedStorage st A i := by
      rw [run_add]
      generalize run (deleteItemCode t0) n
        ⟨0, A :: item :: rest, st, mem, fm, ls, c, Status.running⟩ = s at hrun hpc hstk hst
      obtain ⟨pc, stk, sto, m, f, l, cc, status⟩ := s
      simp only at hrun hpc hstk hst
      subst hrun hpc hstk hst
      rw [deleteItem_remove t0 _ _ _ _ i A item _ rest hi hW]
      exact ⟨rfl, rfl⟩
    refine ⟨i, hstk, hst, hi, by omega, sub_one_word _ (by omega) hW, h4, hboth.1, hboth.2, ?_⟩
    · rw [deletedStorage_length]; omega
  · intro h0
    refine ⟨?_, ?_⟩
    · intro n hn
      have hrun := deleteItem_empty t0 st mem fm ls A item c rest h0
      rw [run_of_le _ 11 n _ hn (by rw [hrun]; simp), hrun]
    · intro n hrun hpc
      obtain ⟨i, _, _, hi⟩ := hkey n hrun hpc
      omega

/-- Witness for C19.  With the list `[9]` at address 1000 the scan for 9 is at
the `loopEnd` label after 19 steps, with index 0 found and nothing stored; 34
steps later the code has stopped and the stored length is 0 = 1 - 1.  With an
empty list at 1000 the run ends at `INVALID`. -/
theorem delete_no_length_underflow_witness :
    ((run (deleteItemCode 0) 19
        ⟨0, [1000, 9], oneItemStorage, fun _ => 0, 128, fun _ => [], 0, Status.running⟩).pc
        = 25 ∧
      (run (deleteItemCode 0) 19
        ⟨0, [1000, 9], oneItemStorage, fun _ => 0, 128, fun _ => [], 0, Status.running⟩).stack
        = [0, 1000, 9] ∧
      oneItemStorage 1000 = 1 ∧
      (run (deleteItemCode 0) (19 + 34)
        ⟨0, [1000, 9], oneItemStorage, fun _ => 0, 128, fun _ => [], 0, Status.running⟩).status
        = Status.stopped ∧
      (run (deleteItemCode 0) (19 + 34)
        ⟨0, [1000, 9], oneItemStorage, fun _ => 0, 128, fun _ => [], 0, Status.running⟩).storage
        1000 = 0) ∧
    (run (deleteItemCode 0) 12
        ⟨0, [1000, 5], fun _ => 0, fun _ => 0, 128, fun _ => [], 0, Status.running⟩).status
      = Status.invalid := by
  have hpc : (run (deleteItemCode 0) 19
      ⟨0, [1000, 9], oneItemStorage, fun _ => 0, 128, fun _ => [], 0, Status.running⟩).pc
      = 25 := by decide
  obtain ⟨i, hstk, _, hi, _, _, _, hstop, hsto, hlen⟩ :=
    (delete_no_length_underflow 0 1000 9 0 128 [] oneItemStorage (fun _ => 0)
      (fun _ => []) (by unfold W; decide)).1 19 (by decide) hpc
  have h1 : oneItemStorage 1000 = 1 := by decide
  have hi0 : i = 0 := by rw [h1] at hi; omega
  subst hi0
  have h := (delete_no_length_underflow 0 1000 5 0 128 [] (fun _ => 0) (fun _ => 0)
    (fun _ => []) W_pos).2 rfl
  refine ⟨⟨hpc, hstk, h1, hstop, ?_⟩, by rw [h.1 12 (by decide)]⟩
  rw [hsto]
  rw [h1] at hlen
  omega

/-! ### The stack at the return of a node -/

theorem source_jumps (A out t : Nat) :
    outOfFunctionJumps (sourceNodeItems A out t) = [35] := rfl

theorem filter_jumps (inPtr out : Nat) (p : Nat → Nat) (t : Nat) :
    outOfFunctionJumps (filterNodeItems inPtr out p t) = [37] := rfl

theorem source_exit_pre (A out t ret : Nat) (stk : List Nat) (st mem : Nat → Nat) (fm : Nat)
    (ls : Nat → List Nat) (c i len : Nat) (hi : len ≤ i) :
    run (sourceNodeItems A out t) 10
        ⟨8, len :: i :: ret :: stk, st, mem, fm, ls, c, Status.running⟩ =
      ⟨35, ret :: stk, st, mem, fm, ls, c, Status.running⟩ := by
  have hi2 : ¬ i < len := by omega
  simp [sourceNodeItems, run, step, execItem, execOp, Machine.next, boolWord, hi2,
    Machine.jumpTo, tagPos]

theorem source_loop_pre (A out t ret : Nat) (stk : List Nat) (st : Nat → Nat) (c len : Nat)
    (hW : len < W) :
    ∀ (d i : Nat) (hp : Heap), i + d = len →
      run (sourceNodeItems A out t) (24 * d + 10)
          ⟨8, len :: i :: ret :: stk, st, hp.memory, hp.freeMemory, hp.lists, c,
            Status.running⟩ =
        ⟨35, ret :: stk, st,
          (sourceLoop (st out) ((List.range' i d).map (fun j => st (elemSlot A j))) hp).memory,
          (sourceLoop (st out) ((List.range' i d).map (fun j => st (elemSlot A j))) hp).freeMemory,
          (sourceLoop (st out) ((List.range' i d).map (fun j => st (elemSlot A j))) hp).lists,
          c, Status.running⟩
  | 0, i, hp, h => by
      simpa [sourceLoop] using
        source_exit_pre A out t ret stk st hp.memory hp.freeMemory hp.lists c i len (by omega)
  | d + 1, i, hp, h => by
      have hfuel : 24 * (d + 1) + 10 = 24 + (24 * d + 10) := by omega
      rw [hfuel, run_add,
        source_iter A out t ret stk st hp.memory hp.freeMemory hp.lists c i len (by omega) hW]
      have ih := source_loop_pre A out t ret stk st c len hW d (i + 1)
        (hp.pushItem (st out) (st (elemSlot A i))) (by omega)
      simpa [sourceLoop, List.range'_succ, Heap.pushItem] using ih

theorem source_node_arrive (A out t ret : Nat) (stk : List Nat) (st mem : Nat → Nat) (fm : Nat)
    (ls : Nat → List Nat) (c : Nat) (hW : setAt st out fm A < W) :
    ∃ mem1 fm1 ls1,
      run (sourceNodeItems A out t) (24 * setAt st out fm A + 18)
          ⟨0, ret :: stk, st, mem, fm, ls, c, Status.running⟩ =
        ⟨35, ret :: stk, setAt st out fm, mem1, fm1, ls1, c + 1, Status.running⟩ := by
  have hfuel : 24 * setAt st out fm A + 18 = 8 + (24 * setAt st out fm A + 10) := by omega
  rw [hfuel, run_add, source_enter]
  have h := source_loop_pre A out t ret stk (setAt st out fm) (c + 1) (setAt st out fm A) hW
    (setAt st out fm A) 0 ⟨mem, fm + 96, ls⟩ (by omega)
  exact ⟨_, _, _, h⟩

theorem source_return (A out t ret : Nat) (stk : List Nat) (st mem : Nat → Nat) (fm : Nat)
    (ls : Nat → List Nat) (c : Nat) (hret : ret < t ∨ t + 2 < ret) :
    step (sourceNodeItems A out t) ⟨35, ret :: stk, st, mem, fm, ls, c, Status.running⟩ =
      ⟨35, stk, st, mem, fm, ls, c, Status.jumpedOut ret⟩ := by
  have h0 : ¬ t = ret := by omega
  have h1 : ¬ t + 1 = ret := by omega
  have h2 : ¬ t + 2 = ret := by omega
  simp [sourceNodeItems, step, execItem, execOp, Machine.jumpTo, tagPos, h0, h1, h2]

theorem filter_exit_pre (inPtr out : Nat) (p : Nat → Nat) (t ret : Nat) (stk : List Nat)
    (st mem : Nat → Nat) (fm : Nat) (ls : Nat → List Nat) (c i hin : Nat)
    (hi : (ls hin).length ≤ i) :
    run (filterNodeItems inPtr out p t) 11
        ⟨8, i :: hin :: ret :: stk, st, mem, fm, ls, c, Status.running⟩ =
      ⟨37, ret :: stk, st, mem, fm, ls, c, Status.running⟩ := by
  have hi2 : ¬ i < (ls hin).length := by omega
  simp [filterNodeItems, run, step, execItem, execOp, execDynArr, Machine.next, boolWord, hi2,
    Machine.jumpTo, tagPos]

theorem filter_loop_pre (inPtr out : Nat) (p : Nat → Nat) (t ret : Nat) (stk : List Nat)
    (st : Nat → Nat) (c hin : Nat) (hne : hin ≠ st out) :
    ∀ (cs done : List Nat) (hp : Heap), hp.lists hin = done ++ cs →
      (done ++ cs).length < W →
      ∃ n, run (filterNodeItems inPtr out p t) n
          ⟨8, done.length :: hin :: ret :: stk, st, hp.memory, hp.freeMemory, hp.lists, c,
            Status.running⟩ =
        ⟨37, ret :: stk, st, (filterLoop p (st out) cs hp).memory,
          (filterLoop p (st out) cs hp).freeMemory, (filterLoop p (st out) cs hp).lists, c,
          Status.running⟩
  | [], done, hp, hl, _ => by
      refine ⟨11, ?_⟩
      simpa [filterLoop] using
        filter_exit_pre inPtr out p t ret stk st hp.memory hp.freeMemory hp.lists c done.length
          hin (by rw [hl]; simp)
  | cell :: cs, done, hp, hl, hW => by
      have hcell : (hp.lists hin)[done.length]? = some cell := by
        rw [hl, List.getElem?_append_right (Nat.le_refl _)]
        simp
      have hi : done.length < (hp.lists hin).length := by rw [hl]; simp
      have hW2 : (hp.lists hin).length < W := by rw [hl]; exact hW
      by_cases hpz : p (hp.memory cell) = 0
      · obtain ⟨n, hn⟩ := filter_loop_pre inPtr out p t ret stk st c hin hne cs (done ++ [cell])
          hp (by rw [hl]; simp) (by simpa using hW)
        refine ⟨22 + n, ?_⟩
        rw [run_add, filter_iter_skip inPtr out p t ret stk st hp.memory hp.freeMemory hp.lists
          c done.length hin cell hcell hi hW2 hpz]
        simp only [List.length_append, List.length_singleton] at hn
        rw [hn]
        simp [filterLoop, hpz]
      · obtain ⟨n, hn⟩ := filter_loop_pre inPtr out p t ret stk st c hin hne cs (done ++ [cell])
          (hp.pushItem (st out) (hp.memory cell))
          (by simp [Heap.pushItem, setAt, hne, hl]) (by simpa using hW)
        refine ⟨26 + n, ?_⟩
        rw [run_add, filter_iter_keep inPtr out p t ret stk st hp.memory hp.freeMemory hp.lists
          c done.length hin cell hcell hi hW2 hpz]
        simp only [List.length_append, List.length_singleton] at hn
        have hn2 := hn
        simp only [Heap.pushItem] at hn2
        rw [hn2]
        simp [filterLoop, hpz, Heap.pushItem]

theorem filter_node_arrive (inPtr out : Nat) (p : Nat → Nat) (t ret : Nat) (stk : List Nat)
    (st mem : Nat → Nat) (fm : Nat) (ls : Nat → List Nat) (c : Nat)
    (hlen : (ls (setAt st out fm inPtr)).length < W)
    (hne : setAt st out fm inPtr ≠ fm) :
    ∃ n, run (filterNodeItems inPtr out p t) n
        ⟨0, ret :: stk, st, mem, fm, ls, c, Status.running⟩ =
      ⟨37, ret :: stk, setAt st out fm,
        (filterLoop p fm (ls (setAt st out fm inPtr)) ⟨mem, fm + 96, ls⟩).memory,
        (filterLoop p fm (ls (setAt st out fm inPtr)) ⟨mem, fm + 96, ls⟩).freeMemory,
        (filterLoop p fm (ls (setAt st out fm inPtr)) ⟨mem, fm + 96, ls⟩).lists,
        c + 1, Status.running⟩ := by
  have hout : setAt st out fm out = fm := by simp [setAt]
  obtain ⟨n, hn⟩ := filter_loop_pre inPtr out p t ret stk (setAt st out fm) (c + 1)
    (setAt st out fm inPtr) (by rw [hout]; exact hne) (ls (setAt st out fm inPtr)) []
    ⟨mem, fm + 96, ls⟩ (by simp) (by simpa using hlen)
  refine ⟨8 + n, ?_⟩
  rw [run_add, filter_enter]
  rw [hout] at hn
  exact hn

theorem filter_return (inPtr out : Nat) (p : Nat → Nat) (t ret : Nat) (stk : List Nat)
    (st mem : Nat → Nat) (fm : Nat) (ls : Nat → List Nat) (c : Nat)
    (hret : ret < t ∨ t + 3 < ret) :
    step (filterNodeItems inPtr out p t) ⟨37, ret :: stk, st, mem, fm, ls, c, Status.running⟩ =
      ⟨37, stk, st, mem, fm, ls, c, Status.jumpedOut ret⟩ := by
  have h0 : ¬ t = ret := by omega
  have h1 : ¬ t + 1 = ret := by omega
  have h2 : ¬ t + 2 = ret := by omega
  have h3 : ¬ t + 3 = ret := by omega
  simp [filterNodeItems, step, execItem, execOp, Machine.jumpTo, tagPos, h0, h1, h2, h3]

/-- C17: the source node emitted by `visit(FactDeclaration)` and the filter
node emitted by `visit(FieldExpression)` each contain exactly one indirect
jump, their last item.  Entered at their first item with the return label
`ret` on top of the stack `stk`, the source node (for every stored length of
the persistent list that is a word) and the filter node (for every input list
and every predicate) reach that jump with the stack `ret :: stk`, exactly as
at entry, and the jump then leaves the node for the label `ret` with `stk`
below.  The pointer slot of the source node is assumed not to be the length
slot of the persistent list, and the input list of the filter node to have
been allocated before the node runs. -/
theorem node_stack_neutral (k : Consts) (c cf : RuleEngineCompiler)
    (fact factf : FactDeclaration) (rule rulef : Rule) (field : FieldExpression)
    (A out inPtr outf ret retf : Nat) (stk stkf : List Nat) (s0 sf : Machine)
    (hrule : c.m_currentRule = some rule)
    (hentry : c.m_entryFact.lookup fact.id = none)
    (hA : k.keccak256 (fact.typeRichIdentifier ++ "-factlist") = A)
    (hout : k.keccak256 (rule.name ++ fact.name ++ "-factlist") = out)
    (hpc : s0.pc = 0) (hstack : s0.stack = ret :: stk) (hstatus : s0.status = Status.running)
    (hW : s0.storage A < W) (hoA : out ≠ A)
    (hret : ret < c.m_context.nextTag ∨ c.m_context.nextTag + 2 < ret)
    (hrulef : cf.m_currentRule = some rulef) (hfactf : cf.m_currentFact = some factf)
    (hentryf : cf.m_entryField.lookup field.id = none)
    (hin : cf.m_nodeOutListPtrAddr.getLast? = some inPtr)
    (houtf : k.keccak256 (rulef.name ++ "-" ++ factf.name ++ "-" ++ toString cf.m_currentFieldNo
      ++ "-factlist") = outf)
    (hpcf : sf.pc = 0) (hstackf : sf.stack = retf :: stkf)
    (hstatusf : sf.status = Status.running)
    (hptr : inPtr ≠ outf)
    (hlen : (sf.lists (sf.storage inPtr)).length < W)
    (hne : sf.storage inPtr ≠ sf.freeMemory)
    (hretf : retf < cf.m_context.nextTag ∨ cf.m_context.nextTag + 3 < retf) :
    (∃ c1, visitFactDeclaration k c fact = some c1 ∧
      outOfFunctionJumps (emittedBy c c1) = [35] ∧
      ∃ n, (run (emittedBy c c1) n s0).status = Status.running ∧
        (run (emittedBy c c1) n s0).pc = 35 ∧
        (run (emittedBy c c1) n s0).stack = ret :: stk ∧
        (run (emittedBy c c1) (n + 1) s0).status = Status.jumpedOut ret ∧
        (run (emittedBy c c1) (n + 1) s0).stack = stk) ∧
    (∃ c2, visitFieldExpression k cf field = some c2 ∧
      outOfFunctionJumps (emittedBy cf c2) = [37] ∧
      ∃ n, (run (emittedBy cf c2) n sf).status = Status.running ∧
        (run (emittedBy cf c2) n sf).pc = 37 ∧
        (run (emittedBy cf c2) n sf).stack = retf :: stkf ∧
        (run (emittedBy cf c2) (n + 1) sf).status = Status.jumpedOut retf ∧
        (run (emittedBy cf c2) (n + 1) sf).stack = stkf) := by
  constructor
  · obtain ⟨c1, hc1, hcode, _, _⟩ := visitFactDeclaration_code k c fact rule hrule hentry
    refine ⟨c1, hc1, ?_, ?_⟩
    · rw [hcode]; rfl
    · obtain ⟨pc, stack, st, mem, fm, ls, cnt, status⟩ := s0
      simp only at hpc hstack hstatus hW
      subst hpc hstack hstatus
      rw [hA, hout] at hcode
      have hlenA : setAt st out fm A = st A := by simp [setAt, Ne.symm hoA]
      obtain ⟨mem1, fm1, ls1, harr⟩ := source_node_arrive A out c.m_context.nextTag ret stk st
        mem fm ls cnt (by rw [hlenA]; exact hW)
      refine ⟨24 * setAt st out fm A + 18, ?_⟩
      have h1 : ∀ (prog : List AssemblyItem) (m : Nat) (s : Machine),
          run prog (m + 1) s = step prog (run prog m s) := by
        intro prog m s; rw [run_add]; rfl
      rw [hcode, h1 _ (24 * setAt st out fm A + 18), harr, source_return A out _ ret stk _ _ _ _ _ hret]
      exact ⟨rfl, rfl, rfl, rfl, rfl⟩
  · obtain ⟨c2, hc2, hcode⟩ := visitFieldExpression_code k cf field rulef factf inPtr hrulef
      hfactf hentryf hin
    refine ⟨c2, hc2, ?_, ?_⟩
    · rw [hcode]; rfl
    · obtain ⟨pc, stack, st, mem, fm, ls, cnt, status⟩ := sf
      simp only at hpcf hstackf hstatusf hlen hne
      subst hpcf hstackf hstatusf
      rw [houtf] at hcode
      have hinv : setAt st outf fm inPtr = st inPtr := by simp [setAt, hptr]
      obtain ⟨n, harr⟩ := filter_node_arrive inPtr outf field.expression cf.m_context.nextTag
        retf stkf st mem fm ls cnt (by rw [hinv]; exact hlen) (by rw [hinv]; exact hne)
      refine ⟨n, ?_⟩
      have h1 : ∀ (prog : List AssemblyItem) (m : Nat) (s : Machine),
          run prog (m + 1) s = step prog (run prog m s) := by
        intro prog m s; rw [run_add]; rfl
      rw [hcode, h1 _ n, harr, filter_return inPtr outf _ _ retf stkf _ _ _ _ _ hretf]
      exact ⟨rfl, rfl, rfl, rfl, rfl⟩

theorem node_stack_neutral_witness :
    (∃ c1, visitFactDeclaration nodeConsts (visitRule (RuleEngineCompiler.fresh 0) exampleRule)
        exampleFact = some c1 ∧
      outOfFunctionJumps (emittedBy (visitRule (RuleEngineCompiler.fresh 0) exampleRule) c1)
        = [35] ∧
      ∃ n, (run (emittedBy (visitRule (RuleEngineCompiler.fresh 0) exampleRule) c1) n
          (Machine.start [50] sourceStorage)).status = Status.running ∧
        (run (emittedBy (visitRule (RuleEngineCompiler.fresh 0) exampleRule) c1) n
          (Machine.start [50] sourceStorage)).pc = 35 ∧
        (run (emittedBy (visitRule (RuleEngineCompiler.fresh 0) exampleRule) c1) n
          (Machine.start [50] sourceStorage)).stack = 50 :: [] ∧
        (run (emittedBy (visitRule (RuleEngineCompiler.fresh 0) exampleRule) c1) (n + 1)
          (Machine.start [50] sourceStorage)).status = Status.jumpedOut 50 ∧
        (run (emittedBy (visitRule (RuleEngineCompiler.fresh 0) exampleRule) c1) (n + 1)
          (Machine.start [50] sourceStorage)).stack = []) ∧
    (∃ c2, visitFieldExpression nodeConsts filterCompiler exampleField = some c2 ∧
      outOfFunctionJumps (emittedBy filterCompiler c2) = [37] ∧
      ∃ n, (run (emittedBy filterCompiler c2) n filterStart).status = Status.running ∧
        (run (emittedBy filterCompiler c2) n filterStart).pc = 37 ∧
        (run (emittedBy filterCompiler c2) n filterStart).stack = 50 :: [] ∧
        (run (emittedBy filterCompiler c2) (n + 1) filterStart).status
          = Status.jumpedOut 50 ∧
        (run (emittedBy filterCompiler c2) (n + 1) filterStart).stack = []) :=
  node_stack_neutral nodeConsts (visitRule (RuleEngineCompiler.fresh 0) exampleRule)
    filterCompiler exampleFact exampleFact exampleRule exampleRule exampleField
    3014 3011 3011 3014 50 50 [] [] (Machine.start [50] sourceStorage) filterStart
    rfl rfl (by decide) (by decide) rfl rfl rfl (by unfold W; decide) (by decide)
    (by decide) rfl rfl rfl rfl (by decide) rfl rfl rfl (by decide)
    (by unfold W; decide) (by decide) (by decide)

/-! ### The code of a rule network -/

theorem acceptFieldExpressions_eq (k : Consts) (rule : Rule) (fact : FactDeclaration)
    (ef : List (Nat × Nat)) :
    ∀ (fields : List FieldExpression) (e : List AssemblyItem) (t : Nat)
      (order prevs : List Nat) (inPtr fno : Nat) (efi : List (Nat × Nat)),
      (∀ f, f ∈ fields → efi.lookup f.id = none) →
      (fields.map (fun f => f.id)).Nodup →
      acceptFieldExpressions k
          { m_context := ⟨e, t⟩, m_nodeOrder := order, m_nodeOutListPtrAddr := prevs ++ [inPtr],
            m_currentRule := some rule, m_currentFact := some fact, m_currentFieldNo := fno,
            m_entryFact := ef, m_entryField := efi } fields =
        some
          { m_context :=
              ⟨List.reverseAux (filterNodes k rule fact fno t inPtr fields) e,
                t + 4 * fields.length⟩,
            m_nodeOrder := order ++ filterEntries t fields,
            m_nodeOutListPtrAddr := prevs ++ [inPtr] ++ filterOutPtrs k rule fact fno fields,
            m_currentRule := some rule, m_currentFact := some fact,
            m_currentFieldNo := fno + fields.length,
            m_entryFact := ef, m_entryField := fieldEntryMap t fields efi }
  | [], e, t, order, prevs, inPtr, fno, efi, _, _ => by
      simp [acceptFieldExpressions, filterNodes, filterEntries, filterOutPtrs, fieldEntryMap,
        List.reverseAux]
  | f :: fs, e, t, order, prevs, inPtr, fno, efi, hlook, hnd => by
      have hf : efi.lookup f.id = none := hlook f (List.mem_cons_self _ _)
      have hnd2 : (fs.map (fun f => f.id)).Nodup := (List.nodup_cons.mp hnd).2
      have hnot : ∀ g, g ∈ fs → g.id ≠ f.id := by
        intro g hg he
        exact (List.nodup_cons.mp hnd).1 (List.mem_map.mpr ⟨g, hg, he⟩)
      have hlook2 : ∀ g, g ∈ fs → ((f.id, t) :: efi).lookup g.id = none := by
        intro g hg
        have h1 : (g.id == f.id) = false := by simpa using hnot g hg
        rw [List.lookup_cons, h1]
        exact hlook g (List.mem_cons_of_mem _ hg)
      have ih := acceptFieldExpressions_eq k rule fact ef fs
        (List.reverseAux (filterNodeItems inPtr (filterOutPtr k rule fact fno) f.expression t) e)
        (t + 4) (order ++ [t]) (prevs ++ [inPtr]) (filterOutPtr k rule fact fno) (fno + 1)
        ((f.id, t) :: efi) hlook2 hnd2
      rw [acceptFieldExpressions, acceptFieldExpression,
        visitFieldExpression_eq k f rule fact e t order prevs inPtr fno ef efi hf]
      simp only [Option.map_some', Option.some_bind, endVisitFieldExpression]
      have hio : filterOutPtr k rule fact fno
          = k.keccak256 (rule.name ++ "-" ++ fact.name ++ "-" ++ toString fno ++ "-factlist") :=
        rfl
      rw [← hio, ih]
      simp only [filterNodes, filterEntries, filterOutPtrs, fieldEntryMap, List.length_cons,
        List.reverseAux_eq, List.reverse_append, List.append_assoc, List.singleton_append]
      have e1 : t + 4 + 4 * fs.length = t + 4 * (fs.length + 1) := by omega
      have e2 : fno + 1 + fs.length = fno + (fs.length + 1) := by omega
      rw [e1, e2]
      rfl

theorem filterEntries_length : ∀ (fields : List FieldExpression) (t : Nat),
    (filterEntries t fields).length = fields.length
  | [], _ => rfl
  | _ :: fs, t => by simp [filterEntries, filterEntries_length fs]

theorem driver_fold (f : CompilerContext → Nat → CompilerContext)
    (hf : ∀ (e : List AssemblyItem) (T x : Nat),
      f ⟨e, T⟩ x = ⟨tag T :: op .JUMP :: pushTag x :: pushTag T :: e, T + 1⟩) :
    ∀ (es : List Nat) (e : List AssemblyItem) (T : Nat),
      es.foldl f ⟨e, T⟩ = ⟨List.reverseAux (driverCalls T es) e, T + es.length⟩
  | [], e, T => rfl
  | x :: xs, e, T => by
      rw [List.foldl_cons, hf, driver_fold f hf xs]
      simp only [driverCalls, List.reverseAux, List.length_cons]
      have e1 : T + 1 + xs.length = T + (xs.length + 1) := by omega
      rw [e1]

theorem acceptRule_eq (k : Consts) (rule : Rule) (fact : FactDeclaration)
    (hfacts : rule.facts = [fact])
    (e : List AssemblyItem) (t : Nat) (order addrs : List Nat) (cr : Option Rule)
    (cf : Option FactDeclaration) (fno : Nat) (ef efi : List (Nat × Nat))
    (hentry : ef.lookup fact.id = none)
    (hfields : ∀ f, f ∈ fact.fieldExpressions → efi.lookup f.id = none)
    (hnd : (fact.fieldExpressions.map (fun f => f.id)).Nodup) :
    acceptRule k
        { m_context := ⟨e, t⟩, m_nodeOrder := order, m_nodeOutListPtrAddr := addrs,
          m_currentRule := cr, m_currentFact := cf, m_currentFieldNo := fno,
          m_entryFact := ef, m_entryField := efi } rule =
      some
        { m_context :=
            ⟨List.reverseAux
              (sourceNodeItems (k.keccak256 (fact.typeRichIdentifier ++ "-factlist"))
                  (sourceOutPtr k rule fact) t ++
                filterNodes k rule fact 0 (t + 3) (sourceOutPtr k rule fact)
                  fact.fieldExpressions) e,
              t + 3 + 4 * fact.fieldExpressions.length⟩,
          m_nodeOrder := order ++ t :: filterEntries (t + 3) fact.fieldExpressions,
          m_nodeOutListPtrAddr := addrs ++ sourceOutPtr k rule fact ::
            filterOutPtrs k rule fact 0 fact.fieldExpressions,
          m_currentRule := none, m_currentFact := none, m_currentFieldNo := 0,
          m_entryFact := (fact.id, t) :: ef,
          m_entryField := fieldEntryMap (t + 3) fact.fieldExpressions efi } := by
  have hv := visitFactDeclaration_eq k fact rule e t order addrs cf fno ef efi hentry
  have hfs := acceptFieldExpressions_eq k rule fact ((fact.id, t) :: ef)
    fact.fieldExpressions
    (List.reverseAux (sourceNodeItems (k.keccak256 (fact.typeRichIdentifier ++ "-factlist"))
      (k.keccak256 (rule.name ++ fact.name ++ "-factlist")) t) e)
    (t + 3) (order ++ [t]) addrs (k.keccak256 (rule.name ++ fact.name ++ "-factlist")) 0
    efi hfields hnd
  unfold acceptRule
  simp only [hfacts, acceptFactDeclarations, acceptFactDeclaration, visitRule]
  rw [hv]
  simp only [Option.some_bind]
  rw [hfs]
  simp only [Option.map_some', Option.some_bind, endVisitFactDeclaration, endVisitRule,
    sourceOutPtr, List.reverseAux_eq, List.reverse_append, List.append_assoc,
    List.singleton_append, Nat.zero_add]

theorem compileNetwork_eq (k : Consts) (rule : Rule) (fact : FactDeclaration)
    (hfacts : rule.facts = [fact])
    (e : List AssemblyItem) (t : Nat) (order addrs : List Nat) (cr : Option Rule)
    (cf : Option FactDeclaration) (fno : Nat) (ef efi : List (Nat × Nat))
    (hentry : ef.lookup fact.id = none)
    (hfields : ∀ f, f ∈ fact.fieldExpressions → efi.lookup f.id = none)
    (hnd : (fact.fieldExpressions.map (fun f => f.id)).Nodup) :
    compileNetwork k
        { m_context := ⟨e, t⟩, m_nodeOrder := order, m_nodeOutListPtrAddr := addrs,
          m_currentRule := cr, m_currentFact := cf, m_currentFieldNo := fno,
          m_entryFact := ef, m_entryField := efi } rule =
      some (t,
        { m_context :=
            ⟨List.reverseAux (networkItems k rule fact t order) e,
              t + 4 + 4 * fact.fieldExpressions.length +
                (order.length + 1 + fact.fieldExpressions.length)⟩,
          m_nodeOrder := order ++ (t + 1) :: filterEntries (t + 4) fact.fieldExpressions,
          m_nodeOutListPtrAddr := addrs ++ sourceOutPtr k rule fact ::
            filterOutPtrs k rule fact 0 fact.fieldExpressions,
          m_currentRule := none, m_currentFact := none, m_currentFieldNo := 0,
          m_entryFact := (fact.id, t + 1) :: ef,
          m_entryField := fieldEntryMap (t + 4) fact.fieldExpressions efi }) := by
  have hacc := acceptRule_eq k rule fact hfacts (op .JUMP :: pushTag t :: e) (t + 1) order addrs
    cr cf fno ef efi hentry hfields hnd
  have hfold := driver_fold
    (fun m nodeLabel =>
      let (returnLabel, m) := CompilerContext.pushNewTag m
      let m := m.appendJumpTo nodeLabel
      m.tag returnLabel) (fun _ _ _ => rfl)
  unfold compileNetwork
  show Option.map _ (acceptRule k
    { m_context := ⟨op .JUMP :: pushTag t :: e, t + 1⟩, m_nodeOrder := order,
      m_nodeOutListPtrAddr := addrs, m_currentRule := cr, m_currentFact := cf,
      m_currentFieldNo := fno, m_entryFact := ef, m_entryField := efi } rule) = _
  rw [hacc]
  simp only [Option.map_some']
  refine congrArg some (Prod.ext rfl ?_)
  show RuleEngineCompiler.mk _ _ _ _ _ _ _ _ = _
  congr 1
  · have h2 := hfold (order ++ (t + 1) :: filterEntries (t + 1 + 3) fact.fieldExpressions)
      (tag t :: List.reverseAux
        (sourceNodeItems (k.keccak256 (fact.typeRichIdentifier ++ "-factlist"))
            (sourceOutPtr k rule fact) (t + 1) ++
          filterNodes k rule fact 0 (t + 1 + 3) (sourceOutPtr k rule fact)
            fact.fieldExpressions) (op .JUMP :: pushTag t :: e))
      (t + 1 + 3 + 4 * fact.fieldExpressions.length)
    refine Eq.trans h2 ?_
    have e1 : t + 1 + 3 = t + 4 := by omega
    rw [e1]
    simp only [networkItems, List.reverseAux_eq, List.reverse_append, List.reverse_cons,
      List.append_assoc, List.length_append, List.length_cons, List.singleton_append,
      List.cons_append, List.nil_append, List.reverse_nil]
    rw [filterEntries_length]
    congr 1
    omega

/-- C12 fails on the code: `m_nodeOrder` is never cleared, and the driver
loop of `compileNetwork` runs over all of it.  One compiler compiles the
example rule `R` (a source node with entry label 1 and a filter node with
entry label 4) and then the rule `a`, which has one source fact declaration
and no filter (its one node has entry label 11): the driver emitted for `a`
at its entry label 10 invokes three nodes, the two nodes of `R` first and
then its own, each by pushing a fresh return label and jumping. -/
theorem driver_invokes_earlier_nodes :
    ∃ c1 c2, compileNetwork nodeConsts (RuleEngineCompiler.fresh 0) exampleRule = some (0, c1) ∧
      compileNetwork nodeConsts c1 ruleA = some (10, c2) ∧
      c1.m_nodeOrder = [1, 4] ∧
      c2.m_nodeOrder = [1, 4, 11] ∧
      emittedBy c1 c2 = networkItems nodeConsts ruleA factBC 10 [1, 4] ∧
      (emittedBy c1 c2).drop 38 = tag 10 :: driverCalls 14 [1, 4, 11] ∧
      driverCalls 14 [1, 4, 11] =
        [pushTag 14, pushTag 1, op .JUMP, tag 14,
         pushTag 15, pushTag 4, op .JUMP, tag 15,
         pushTag 16, pushTag 11, op .JUMP, tag 16] := by
  have h1 := compileNetwork_eq nodeConsts exampleRule exampleFact rfl [] 0 [] [] none none 0 [] []
    rfl (by intro f _; rfl) (by simp [exampleFact])
  have h2 := compileNetwork_eq nodeConsts ruleA factBC rfl
    (List.reverseAux (networkItems nodeConsts exampleRule exampleFact 0 []) []) 10 [1, 4]
    ([] ++ sourceOutPtr nodeConsts exampleRule exampleFact ::
      filterOutPtrs nodeConsts exampleRule exampleFact 0 exampleFact.fieldExpressions)
    none none 0 [(1, 1)] (fieldEntryMap 4 exampleFact.fieldExpressions [])
    rfl (by intro f hf; simp [factBC] at hf) (by simp [factBC])
  refine ⟨_, _, h1, h2, rfl, rfl, ?_, ?_, rfl⟩
  · exact emittedBy_reverseAux _ _ _ rfl
  · rw [emittedBy_reverseAux _ _ (networkItems nodeConsts ruleA factBC 10 [1, 4]) rfl]
    rfl

/-! ### A fragment inside a program -/

theorem tagsOf_driverCalls : ∀ (es : List Nat) (T u : Nat),
    u ∈ tagsOf (driverCalls T es) → T ≤ u ∧ u < T + es.length
  | [], _, _, h => by simp [driverCalls, tagsOf] at h
  | e :: es, T, u, h => by
      simp only [driverCalls, tagsOf, List.mem_cons] at h
      rcases h with h | h
      · simp only [List.length_cons]; omega
      · have := tagsOf_driverCalls es (T + 1) u h
        simp only [List.length_cons]
        omega

theorem length_driverCalls : ∀ (es : List Nat) (T : Nat),
    (driverCalls T es).length = 4 * es.length
  | [], _ => rfl
  | e :: es, T => by
      simp only [driverCalls, List.length_cons, length_driverCalls es (T + 1)]
      omega

/-! ### The heap along the pipeline -/

theorem pipeline_example_values :
    (liveList pipelineStorage 3021).filter
      (fun v => pipelineFact.fieldExpressions.all (fun f => decide (f.expression v ≠ 0)))
      = [8] := by
  decide

end Lity
